import Mathlib

/-!
# OpenCL Argon2 format plug-in: embedding and verification

A shallow embedding of `src/opencl_argon2_fmt_plug.c`.  Machine integers are
natural numbers reduced modulo `2 ^ 32` (`uint32_t`) or `2 ^ 64` (`size_t`,
`cl_ulong`) where the C expression is evaluated at that width.  Byte buffers
are lists of naturals; a read past the end of a buffer, a failed `assert` and
a division by zero are reported as `none` or as an error value.
-/

namespace Argon2OpenCL

/-! ## Constants of the plug-in -/

def PLAINTEXT_LENGTH : Nat := 100
def BINARY_SIZE : Nat := 256
def SALT_SIZE : Nat := 64
def ARGON2_NUM_TYPES : Nat := 3
def THREADS_PER_LANE : Nat := 32

/-- Modelled from the spec: `ARGON2_SYNC_POINTS = 4` (argon2.h is not part of
the sources at hand). -/
def ARGON2_SYNC_POINTS : Nat := 4

/-- Modelled from the spec: `BLOCK_BYTES = 1024`, the constant
`ARGON2_BLOCK_SIZE` of argon2_core.h, which is not part of the sources at hand. -/
def ARGON2_BLOCK_SIZE : Nat := 1024

/-- Modelled from the spec: the status `ARGON2_OK` of argon2.h (success of the
external decoder); the header is not part of the sources at hand. -/
def ARGON2_OK : Int := 0

/-- Modelled from the spec: the obsolete version number 0x10 (`ARGON2_VERSION_10`
of argon2.h, not part of the sources at hand). -/
def ARGON2_VERSION_10 : Nat := 0x10

/-- Modelled from the spec: the variants `d`, `i`, `id` are numbered 0, 1, 2 in
that order (enum `argon2_type` of argon2.h). -/
def Argon2_d : Nat := 0

/-- Modelled from the spec: see `Argon2_d`. -/
def Argon2_i : Nat := 1

/-- Modelled from the spec: see `Argon2_d`. -/
def Argon2_id : Nat := 2

def FORMAT_TAG_d : List Char := "$argon2d$".toList
def FORMAT_TAG_i : List Char := "$argon2i$".toList
def FORMAT_TAG_id : List Char := "$argon2id$".toList

/-- Width of `uint32_t`. -/
def U32 : Nat := 2 ^ 32

/-- Width of `size_t` and `cl_ulong`. -/
def U64 : Nat := 2 ^ 64

/-- The macro `MAX(a, b)`. -/
def MAX (a b : Nat) : Nat := if a > b then a else b

/-! ## Data model -/

/-- The C `struct argon2_salt`. -/
structure argon2_salt where
  t_cost : Nat
  m_cost : Nat
  lanes : Nat
  hash_size : Nat
  salt_length : Nat
  salt : List Nat
  type : Nat
  version : Nat
deriving Repr, DecidableEq

/-- The C `struct kernel_run_params`. -/
structure kernel_run_params where
  lanes_per_block : Nat
  jobs_per_block : Nat
deriving Repr, DecidableEq

/-- Modelled from the spec: the invariants of a salt descriptor (section 3 of
the specification), which the external decoder and the assertions of
`get_salt` establish: every field is a 32-bit value, `t_cost ≥ 1`,
`lanes ≥ 1`, `m_cost ≥ 8 · lanes`, `hash_size ∈ [4, 256]`, `salt_length ≤ 64`
and the variant is one of the three types. -/
def salt_descriptor_ok (s : argon2_salt) : Prop :=
  1 ≤ s.t_cost ∧ s.t_cost < U32 ∧ 1 ≤ s.lanes ∧ 8 * s.lanes ≤ s.m_cost ∧ s.m_cost < U32 ∧
  4 ≤ s.hash_size ∧ s.hash_size ≤ BINARY_SIZE ∧ s.salt_length ≤ SALT_SIZE ∧
  s.type < ARGON2_NUM_TYPES

instance (s : argon2_salt) : Decidable (salt_descriptor_ok s) := by
  unfold salt_descriptor_ok; infer_instance

/-! ## Comparison facade: `cmp_one` -/

/-- The C library `memcmp` on two byte buffers: compares the first `n` bytes
and returns the difference at the first mismatch, `none` when the comparison
would read past the end of a buffer. -/
def memcmp : List Nat → List Nat → Nat → Option Int
  | _, _, 0 => some 0
  | a :: as, b :: bs, n + 1 =>
    if a = b then memcmp as bs n else some ((a : Int) - (b : Int))
  | _, _, _ + 1 => none

/-- The function `cmp_one(binary, index)`: the assertion on `index`, then
`!memcmp(binary, crypted[index], saved_salt.hash_size)`. -/
def cmp_one (saved_salt : argon2_salt) (max_keys_per_crypt : Nat)
    (crypted : List (List Nat)) (binary : List Nat) (index : Int) : Option Int :=
  if 0 ≤ index ∧ index < (max_keys_per_crypt : Int) then
    match crypted[index.toNat]? with
    | none => none
    | some row =>
      (memcmp binary row saved_salt.hash_size).map (fun r => if r = 0 then 1 else 0)
  else none

/-! ## Validator: `valid` -/

/-- The fields of `argon2_context` that the plug-in reads or writes around the
decoder. -/
structure argon2_context where
  out : List Nat
  outlen : Nat
  salt : List Nat
  saltlen : Nat
  adlen : Nat
  t_cost : Nat
  m_cost : Nat
  lanes : Nat
  version : Nat
deriving Repr, DecidableEq

/-- The function `ctx_init`: sets the lengths and points `out` and `salt` at
the static buffers; the other fields keep whatever the caller's stack held. -/
def ctx_init (ctx : argon2_context) (out_buf salt_buf : List Nat) : argon2_context :=
  { ctx with adlen := 0, saltlen := SALT_SIZE, outlen := BINARY_SIZE,
             out := out_buf, salt := salt_buf }

/-- The external decoder `argon2_decode_string(ctx, str, type)`: it returns a
status and the updated context.  It is a parameter of the model. -/
abbrev Decoder := argon2_context → List Char → Nat → Int × argon2_context

/-- The C library `strncmp` on NUL-terminated strings, given as the characters
before the terminator. -/
def strncmp : List Char → List Char → Nat → Int
  | _, _, 0 => 0
  | [], [], _ + 1 => 0
  | [], b :: _, _ + 1 => 0 - (b.toNat : Int)
  | a :: _, [], _ + 1 => (a.toNat : Int)
  | a :: as, b :: bs, n + 1 =>
    if a = b then (if a.toNat = 0 then 0 else strncmp as bs n)
    else (a.toNat : Int) - (b.toNat : Int)

/-- The function `valid(ciphertext, self)`. -/
def valid (decode : Decoder) (ctx0 : argon2_context) (out_buf salt_buf : List Nat)
    (ciphertext : List Char) : Int :=
  let ctx := ctx_init ctx0 out_buf salt_buf
  let decoded : Option (Int × argon2_context) :=
    if strncmp ciphertext FORMAT_TAG_d (FORMAT_TAG_d.length + 1 - 1) = 0 then
      some (decode ctx ciphertext Argon2_d)
    else if strncmp ciphertext FORMAT_TAG_id (FORMAT_TAG_id.length + 1 - 1) = 0 then
      some (decode ctx ciphertext Argon2_id)
    else if strncmp ciphertext FORMAT_TAG_i (FORMAT_TAG_i.length + 1 - 1) = 0 then
      some (decode ctx ciphertext Argon2_i)
    else none
  match decoded with
  | none => 0
  | some (res, ctx) =>
    if res ≠ ARGON2_OK ∨ ctx.outlen < 8 then 0
    else if ctx.version = ARGON2_VERSION_10 then 0
    else 1

/-! ## Segment-kernel driver: `run_kernel_on_gpu` -/

/-- A call made to the OpenCL runtime, with the arguments that matter here.
A kernel submission records the arguments the kernel holds when it is
enqueued. -/
inductive DeviceCall where
  | write_buffer_rect (region0 region1 buffer_row_pitch host_row_pitch : Nat)
  | set_kernel_arg (kernel arg_index value : Nat)
  | enqueue_kernel (kernel passes lanes segment_blocks pass slice : Nat)
      (global0 global1 local0 local1 : Nat)
  | finish
  | read_buffer_rect (origin0 region0 region1 buffer_row_pitch host_row_pitch : Nat)
deriving Repr, DecidableEq

/-- The arguments 0, 2, 3, 4, 5 and 6 held by the kernel in use (argument 1 is
the scratch buffer, set once by `reset`). -/
structure KernelArgs where
  shmem : Nat
  passes : Nat
  lanes : Nat
  segment_blocks : Nat
  pass : Nat
  slice : Nat
deriving Repr, DecidableEq

/-- The effect of `clSetKernelArg(kernel, i, _, &v)` on the held arguments. -/
def KernelArgs.set (a : KernelArgs) (i v : Nat) : KernelArgs :=
  if i = 0 then { a with shmem := v }
  else if i = 2 then { a with passes := v }
  else if i = 3 then { a with lanes := v }
  else if i = 4 then { a with segment_blocks := v }
  else if i = 5 then { a with pass := v }
  else if i = 6 then { a with slice := v }
  else a

/-- The command queue as the host sees it: the calls made so far, in order, and
the arguments held by the kernel in use. -/
structure GpuState where
  log : List DeviceCall
  args : KernelArgs
deriving Repr, DecidableEq

/-- A runtime call checked by `HANDLE_CLERROR` or `BENCH_CLERROR` (macros of
opencl_common.h): `status n` tells whether the `n`-th call of the run returns
`CL_SUCCESS`; a failure ends the run with the diagnostic. -/
def device_call (status : Nat → Bool) (msg : String) (c : DeviceCall) (st : GpuState) :
    Except String GpuState :=
  if status st.log.length then .ok { st with log := st.log ++ [c] } else .error msg

/-- A checked `clSetKernelArg`. -/
def set_kernel_arg (status : Nat → Bool) (msg : String) (kernel i v : Nat) (st : GpuState) :
    Except String GpuState :=
  if status st.log.length then
    .ok { log := st.log ++ [DeviceCall.set_kernel_arg kernel i v], args := st.args.set i v }
  else .error msg

/-- A checked `clEnqueueNDRangeKernel`: the submission runs with the arguments
the kernel holds at that moment. -/
def enqueue_kernel (status : Nat → Bool) (msg : String) (kernel g0 g1 l0 l1 : Nat)
    (st : GpuState) : Except String GpuState :=
  device_call status msg
    (DeviceCall.enqueue_kernel kernel st.args.passes st.args.lanes st.args.segment_blocks
      st.args.pass st.args.slice g0 g1 l0 l1) st

/-- The expression `MAX(m_cost / (lanes * ARGON2_SYNC_POINTS), 2)`; the
divisor is a 32-bit product and a zero divisor has no value. -/
def segment_blocks (m_cost lanes : Nat) : Option Nat :=
  if (lanes * ARGON2_SYNC_POINTS) % U32 = 0 then none
  else some (MAX (m_cost / ((lanes * ARGON2_SYNC_POINTS) % U32)) 2)

/-- The stride `jobSize` of `run_kernel_on_gpu`: the product
`segment_blocks * ARGON2_SYNC_POINTS * lanes * ARGON2_BLOCK_SIZE` of 32-bit
operands, evaluated in `uint32_t` and then widened to `size_t`. -/
def jobSize (segment_blocks lanes : Nat) : Nat :=
  (((segment_blocks * ARGON2_SYNC_POINTS) % U32 * lanes) % U32 * ARGON2_BLOCK_SIZE) % U32

/-- The per-candidate `memory_size` of `reset`: the same product with the
first operand cast to `size_t`. -/
def memory_size (segment_blocks lanes : Nat) : Nat :=
  (((segment_blocks * ARGON2_SYNC_POINTS) % U64 * lanes) % U64 * ARGON2_BLOCK_SIZE) % U64

/-- The two geometry checks at the head of `run_kernel_on_gpu`; `error_msg`
ends the run.  A remainder by zero has no value. -/
def geometry_check (lanes max_keys_per_crypt lanes_per_block jobs_per_block : Nat) :
    Except String Unit :=
  if lanes_per_block > lanes then .error "Invalid lanes_per_block!"
  else if lanes_per_block = 0 then .error "division by zero"
  else if lanes % lanes_per_block ≠ 0 then .error "Invalid lanes_per_block!"
  else if jobs_per_block > max_keys_per_crypt then .error "Invalid jobs_per_block!"
  else if jobs_per_block = 0 then .error "division by zero"
  else if max_keys_per_crypt % jobs_per_block ≠ 0 then .error "Invalid jobs_per_block!"
  else .ok ()

/-- The inner loop `for (slice = 0; slice < ARGON2_SYNC_POINTS; slice++)` of
`run_kernel_on_gpu`; `n` is the number of iterations left. -/
def slice_loop (status : Nat → Bool) (kernel pass g0 g1 l0 l1 : Nat) :
    Nat → Nat → GpuState → Except String GpuState
  | 0, _, st => .ok st
  | n + 1, slice, st => do
    let st ← set_kernel_arg status "Error setting kernel argument" kernel 5 pass st
    let st ← set_kernel_arg status "Error setting kernel argument" kernel 6 slice st
    let st ← enqueue_kernel status "Run loop kernel" kernel g0 g1 l0 l1 st
    let st ← device_call status "clFinish" DeviceCall.finish st
    slice_loop status kernel pass g0 g1 l0 l1 n (slice + 1) st

/-- The outer loop `for (pass = 0; pass < passes; pass++)` of
`run_kernel_on_gpu`; `n` is the number of iterations left. -/
def pass_loop (status : Nat → Bool) (kernel g0 g1 l0 l1 : Nat) :
    Nat → Nat → GpuState → Except String GpuState
  | 0, _, st => .ok st
  | n + 1, pass, st => do
    let st ← slice_loop status kernel pass g0 g1 l0 l1 ARGON2_SYNC_POINTS 0 st
    pass_loop status kernel g0 g1 l0 l1 n (pass + 1) st

/-- The function `run_kernel_on_gpu(lanes_per_block, jobs_per_block)` for the
current salt and batch size. -/
def run_kernel_on_gpu (saved_salt : argon2_salt) (max_keys_per_crypt : Nat)
    (status : Nat → Bool) (st : GpuState) (lanes_per_block jobs_per_block : Nat) :
    Except String GpuState := do
  let lanes := saved_salt.lanes
  let passes := saved_salt.t_cost
  if ¬ (lanes > 0 ∧ passes > 0 ∧ saved_salt.m_cost > 0) then
    throw "assertion failed: lanes > 0 && passes > 0 && saved_salt.m_cost > 0"
  geometry_check lanes max_keys_per_crypt lanes_per_block jobs_per_block
  let g0 := (THREADS_PER_LANE * lanes) % U32
  let g1 := max_keys_per_crypt
  let l0 := (THREADS_PER_LANE * lanes_per_block) % U32
  let l1 := jobs_per_block
  let sb ← match segment_blocks saved_salt.m_cost saved_salt.lanes with
    | none => throw "division by zero"
    | some sb => pure sb
  let job := jobSize sb saved_salt.lanes
  let copySize := ((saved_salt.lanes * 2) % U32 * ARGON2_BLOCK_SIZE) % U32
  let st ← device_call status "Copy data to gpu"
    (DeviceCall.write_buffer_rect copySize max_keys_per_crypt job copySize) st
  if ¬ saved_salt.type < ARGON2_NUM_TYPES then
    throw "assertion failed: saved_salt.type < ARGON2_NUM_TYPES"
  let k := saved_salt.type
  let shmemSize := ((THREADS_PER_LANE * lanes_per_block) % U32 * jobs_per_block * 4 * 2) % U64
  let st ← set_kernel_arg status "Error setting kernel argument" k 0 shmemSize st
  let st ← set_kernel_arg status "Error setting kernel argument" k 2 passes st
  let st ← set_kernel_arg status "Error setting kernel argument" k 3 lanes st
  let st ← set_kernel_arg status "Error setting kernel argument" k 4 sb st
  let st ← pass_loop status k g0 g1 l0 l1 passes 0 st
  let copyOut := (saved_salt.lanes * ARGON2_BLOCK_SIZE) % U32
  device_call status "Copy data from gpu"
    (DeviceCall.read_buffer_rect ((job + U64 - copyOut) % U64) copyOut max_keys_per_crypt
      job copyOut) st

/-- The `(pass, slice)` arguments of the kernel submissions in a call log, in
order. -/
def submissions : List DeviceCall → List (Nat × Nat)
  | [] => []
  | DeviceCall.enqueue_kernel _ _ _ _ pass slice _ _ _ _ :: rest => (pass, slice) :: submissions rest
  | _ :: rest => submissions rest

/-- The four runtime calls of one `(pass, slice)` step of the driver, as they
enter the call log: the two argument updates, the submission, the finish. -/
def step_calls (kernel passes lanes sb g0 g1 l0 l1 pass slice : Nat) : List DeviceCall :=
  [DeviceCall.set_kernel_arg kernel 5 pass, DeviceCall.set_kernel_arg kernel 6 slice,
   DeviceCall.enqueue_kernel kernel passes lanes sb pass slice g0 g1 l0 l1,
   DeviceCall.finish]

/-! ## Autotuner: `is_power_of_two`, `index_best_kernel_params`, `autotune` -/

/-- The result of a run that may end in a fatal diagnostic (`HANDLE_CLERROR`,
`error_msg`, a failed assertion, an access outside a buffer) or may not end at
all within the steps allowed. -/
inductive Run (α : Type) where
  | ok (a : α)
  | fatal (msg : String)
  | out_of_fuel
deriving Repr, DecidableEq

/-- The function `is_power_of_two(x)` on a `uint32_t`: `(x & (x - 1)) == 0`. -/
def is_power_of_two (x : Nat) : Bool :=
  x &&& ((x + U32 - 1) % U32) == 0

/-- The autotune globals set up by `reset`: the observed maxima and the table
`best_kernel_params`. -/
structure Tuning where
  max_salt_lanes : Nat
  max_segment_blocks : Nat
  best_kernel_params : List kernel_run_params
deriving Repr, DecidableEq

/-- The function `index_best_kernel_params`: the assertion, then the index in
`uint32_t` arithmetic. -/
def index_best_kernel_params (t : Tuning) (type lanes segment_blocks : Nat) : Option Nat :=
  if type < ARGON2_NUM_TYPES ∧ lanes > 0 ∧ lanes ≤ t.max_salt_lanes ∧
      segment_blocks > 0 ∧ segment_blocks ≤ t.max_segment_blocks then
    some ((type * t.max_salt_lanes * t.max_segment_blocks + lanes * t.max_segment_blocks
      + segment_blocks) % U32)
  else none

/-- What the runtime answers to one measurement of the autotuner (argument 0,
warm-up launch, profiled launch, finish, the two profiling queries): the status
of each call and the two time stamps. -/
structure Probe where
  set_arg_ok : Bool
  warmup_ok : Bool
  profile_ok : Bool
  finish_ok : Bool
  start_ok : Bool
  end_ok : Bool
  start_time : Nat
  end_time : Nat
deriving Repr, DecidableEq

/-- The runtime as the autotuner meets it: the status of the two argument
settings made first, and the answer to the `n`-th measurement of the run when
it is made with the local geometry `(lanes_per_block, jobs_per_block)`. -/
structure ProfilingDevice where
  set_lanes_ok : Bool
  set_segment_blocks_ok : Bool
  probe : Nat → Nat → Nat → Probe

/-- The expression `end_time - start_time` on two `cl_ulong` values. -/
def elapsed (p : Probe) : Nat :=
  (p.end_time % U64 + U64 - p.start_time % U64) % U64

/-- The expression `THREADS_PER_LANE * lpb * jpb * sizeof(cl_uint) * 2` of the
autotuner: the product of the first three operands is a `uint32_t`, the rest
is `size_t` arithmetic. -/
def shmem_size (lanes_per_block jobs_per_block : Nat) : Nat :=
  (((THREADS_PER_LANE * lanes_per_block) % U32 * jobs_per_block) % U32 * 4 * 2) % U64

/-- The local variables `best_time`, `best_lanes_per_block` and
`best_jobs_per_block` of `autotune`, with a record of the measurements taken
so far, `(lanes_per_block, jobs_per_block, time)` each. -/
structure Best where
  best_time : Nat
  best_lanes_per_block : Nat
  best_jobs_per_block : Nat
  timed : List (Nat × Nat × Nat)
deriving Repr, DecidableEq

/-- The outcome of one measurement inside a sweep: a failed call among the
four that are compared with `CL_SUCCESS` breaks the loop, a failed profiling
query is fatal (`HANDLE_CLERROR`), otherwise the elapsed time. -/
inductive Measurement where
  | broke
  | fatal (msg : String)
  | time (t : Nat)
deriving Repr, DecidableEq

/-- One measurement of a sweep. -/
def measure_soft (p : Probe) : Measurement :=
  if ¬ p.set_arg_ok then .broke
  else if ¬ p.warmup_ok then .broke
  else if ¬ p.profile_ok then .broke
  else if ¬ p.finish_ok then .broke
  else if ¬ p.start_ok then .fatal "clGetEventProfilingInfo start"
  else if ¬ p.end_ok then .fatal "clGetEventProfilingInfo end"
  else .time (elapsed p)

/-- The baseline measurement: every call is checked by `HANDLE_CLERROR`. -/
def measure_hard (p : Probe) : Except String Nat :=
  if ¬ p.set_arg_ok then .error "Error setting local memory size"
  else if ¬ p.warmup_ok then .error "Error on kernel"
  else if ¬ p.profile_ok then .error "Error on kernel"
  else if ¬ p.finish_ok then .error "Error profiling clFinish"
  else if ¬ p.start_ok then .error "clGetEventProfilingInfo start"
  else if ¬ p.end_ok then .error "clGetEventProfilingInfo end"
  else .ok (elapsed p)

/-- The loop `for (lpb = 1; lpb <= lanes; lpb *= 2)` of `autotune`.  `n` counts
the measurements of the run; the result carries the count reached. -/
def sweep_lanes_per_block (probe : Nat → Nat → Nat → Probe) (lanes : Nat) :
    Nat → Nat → Nat → Best → Run (Best × Nat)
  | 0, _, _, _ => .out_of_fuel
  | fuel + 1, n, lpb, b =>
    if lpb ≤ lanes then
      match measure_soft (probe n lpb b.best_jobs_per_block) with
      | .broke => .ok (b, n + 1)
      | .fatal msg => .fatal msg
      | .time t =>
        let b1 := { b with timed := b.timed ++ [(lpb, b.best_jobs_per_block, t)] }
        let b2 := if b1.best_time > t then
            { b1 with best_time := t, best_lanes_per_block := lpb } else b1
        sweep_lanes_per_block probe lanes fuel (n + 1) ((lpb * 2) % U32) b2
    else .ok (b, n)

/-- The loop `for (jpb = 1; jpb <= MAX_KEYS_PER_CRYPT; jpb *= 2)` of
`autotune`. -/
def sweep_jobs_per_block (probe : Nat → Nat → Nat → Probe) (max_keys_per_crypt : Nat) :
    Nat → Nat → Nat → Best → Run (Best × Nat)
  | 0, _, _, _ => .out_of_fuel
  | fuel + 1, n, jpb, b =>
    if jpb ≤ max_keys_per_crypt then
      match measure_soft (probe n b.best_lanes_per_block jpb) with
      | .broke => .ok (b, n + 1)
      | .fatal msg => .fatal msg
      | .time t =>
        let b1 := { b with timed := b.timed ++ [(b.best_lanes_per_block, jpb, t)] }
        let b2 := if b1.best_time > t then
            { b1 with best_time := t, best_jobs_per_block := jpb } else b1
        sweep_jobs_per_block probe max_keys_per_crypt fuel (n + 1) ((jpb * 2) % U32) b2
    else .ok (b, n)

/-- The measuring part of `autotune` (the body of its `if`): the two argument
settings, the baseline at `(1, 1)`, the sweep over `lanes_per_block`, and the
sweep over `jobs_per_block` when the best `lanes_per_block` equals `lanes`.
The second component tells whether the local-memory diagnostic was printed
for the baseline. -/
def autotune_measure (dev : ProfilingDevice) (max_keys_per_crypt local_memory_size fuel : Nat)
    (lanes : Nat) : Run (Best × Bool) :=
  if ¬ dev.set_lanes_ok then .fatal "Error setting kernel argument"
  else if ¬ dev.set_segment_blocks_ok then .fatal "Error setting kernel argument"
  else
    let warned := decide (shmem_size 1 1 > local_memory_size)
    match measure_hard (dev.probe 0 1 1) with
    | .error msg => .fatal msg
    | .ok t0 =>
      let b0 : Best := ⟨t0, 1, 1, [(1, 1, t0)]⟩
      let r1 : Run (Best × Nat) :=
        if lanes > 1 ∧ is_power_of_two lanes then
          sweep_lanes_per_block dev.probe lanes fuel 1 1 b0
        else .ok (b0, 1)
      match r1 with
      | .out_of_fuel => .out_of_fuel
      | .fatal msg => .fatal msg
      | .ok (b1, n1) =>
        let r2 : Run (Best × Nat) :=
          if b1.best_lanes_per_block = lanes ∧ max_keys_per_crypt > 1 ∧
              is_power_of_two max_keys_per_crypt then
            sweep_jobs_per_block dev.probe max_keys_per_crypt fuel n1 1 b1
          else .ok (b1, n1)
        match r2 with
        | .out_of_fuel => .out_of_fuel
        | .fatal msg => .fatal msg
        | .ok (b2, _) => .ok (b2, warned)

/-- The function `autotune(type, lanes, segment_blocks, …)`: nothing is done
for an entry that is already measured; otherwise the measurements run and the
entry is written.  The result carries the final `Best` when a measurement took
place. -/
def autotune (dev : ProfilingDevice) (max_keys_per_crypt local_memory_size fuel : Nat)
    (t : Tuning) (type lanes segment_blocks : Nat) : Run (Tuning × Option Best) :=
  match index_best_kernel_params t type lanes segment_blocks with
  | none => .fatal "assertion failed: index_best_kernel_params"
  | some index =>
    match t.best_kernel_params[index]? with
    | none => .fatal "access outside best_kernel_params"
    | some entry =>
      if entry.lanes_per_block ≠ 0 then .ok (t, none)
      else
        match autotune_measure dev max_keys_per_crypt local_memory_size fuel lanes with
        | .out_of_fuel => .out_of_fuel
        | .fatal msg => .fatal msg
        | .ok (b, _) =>
          let entry : kernel_run_params := ⟨b.best_lanes_per_block, b.best_jobs_per_block⟩
          .ok ({ t with best_kernel_params := t.best_kernel_params.set index entry }, some b)

/-- A runtime in which every call succeeds and the `n`-th measurement takes
`100 - n` time units. -/
def sample_device : ProfilingDevice :=
  ⟨true, true, fun n _ _ => ⟨true, true, true, true, true, true, 0, 100 - n⟩⟩

/-- The autotune globals after `reset` on a database whose largest salt has 4
lanes and 2 blocks per segment: a zeroed table of `3 · 4 · 2` entries. -/
def sample_tuning : Tuning := ⟨4, 2, List.replicate 24 ⟨0, 0⟩⟩

/-- A runtime that refuses the local-memory argument of every measurement
asking for more than `local_mem` bytes and otherwise behaves as
`sample_device`. -/
def budget_device (local_mem : Nat) : ProfilingDevice :=
  ⟨true, true, fun n lpb jpb =>
    ⟨decide (shmem_size lpb jpb ≤ local_mem), true, true, true, true, true, 0, 100 - n⟩⟩

/-- The part of `crypt_all` that talks to the runtime (lines 637-640): the
table look-up for the current salt, the assertion that the entry is measured,
and the one call of `run_kernel_on_gpu`.  The loops before and after it
(initialization and finalization) run on the host and make no runtime call. -/
def crypt_all_gpu (saved_salt : argon2_salt) (max_keys_per_crypt : Nat) (t : Tuning)
    (status : Nat → Bool) (st : GpuState) : Except String GpuState :=
  match segment_blocks saved_salt.m_cost saved_salt.lanes with
  | none => .error "division by zero"
  | some sb =>
    match index_best_kernel_params t saved_salt.type saved_salt.lanes sb with
    | none => .error "assertion failed: index_best_kernel_params"
    | some index =>
      match t.best_kernel_params[index]? with
      | none => .error "access outside best_kernel_params"
      | some e =>
        if e.lanes_per_block ≠ 0 ∧ e.jobs_per_block ≠ 0 then
          run_kernel_on_gpu saved_salt max_keys_per_crypt status st
            e.lanes_per_block e.jobs_per_block
        else .error "assertion failed: lanes_per_block && jobs_per_block"

/-- Steps `0, …, k` of the sweep over `lanes_per_block` all ran to their end:
step `j` is the measurement number `1 + j` of the run (the baseline is number
`0`), made at the geometry `(2 ^ j, 1)` while `2 ^ j ≤ lanes`, and it is
completed when each of its calls succeeds, giving the time `end - start`. -/
def lpb_steps_completed (dev : ProfilingDevice) (lanes k : Nat) : Prop :=
  ∀ j, j ≤ k → 2 ^ j ≤ lanes ∧
    measure_soft (dev.probe (1 + j) (2 ^ j) 1) = .time (elapsed (dev.probe (1 + j) (2 ^ j) 1))

instance (dev : ProfilingDevice) (lanes k : Nat) : Decidable (lpb_steps_completed dev lanes k) := by
  unfold lpb_steps_completed
  infer_instance

/-- Steps `0, …, k` of the sweep over `jobs_per_block` all ran to their end:
with `n1` measurements made before the sweep, step `j` is the measurement
number `n1 + j`, made at the geometry `(lanes, 2 ^ j)` while
`2 ^ j ≤ max_keys_per_crypt`. -/
def jpb_steps_completed (dev : ProfilingDevice) (lanes max_keys_per_crypt n1 k : Nat) : Prop :=
  ∀ j, j ≤ k → 2 ^ j ≤ max_keys_per_crypt ∧
    measure_soft (dev.probe (n1 + j) lanes (2 ^ j)) =
      .time (elapsed (dev.probe (n1 + j) lanes (2 ^ j)))

instance (dev : ProfilingDevice) (lanes max_keys_per_crypt n1 k : Nat) :
    Decidable (jpb_steps_completed dev lanes max_keys_per_crypt n1 k) := by
  unfold jpb_steps_completed
  infer_instance

/-! ## Memory planner: the salt scan and the allocation loop of `reset` -/

/-- The locals `max_salt_lanes`, `max_segment_blocks` and `max_memory_size` of
`reset` during the scan of the salts. -/
structure ScanState where
  max_salt_lanes : Nat
  max_segment_blocks : Nat
  max_memory_size : Nat
deriving Repr, DecidableEq

/-- The loop of `reset` over all salts of the database (lines 337-353); `none`
when a salt makes the divisor of `segment_blocks` zero. -/
def reset_scan_salts : List argon2_salt → ScanState → Option ScanState
  | [], st => some st
  | salt :: rest, st =>
    match segment_blocks salt.m_cost salt.lanes with
    | none => none
    | some sb =>
      let msb := if st.max_segment_blocks < sb then sb else st.max_segment_blocks
      let memory := memory_size sb salt.lanes
      let ml := if st.max_salt_lanes < salt.lanes then salt.lanes else st.max_salt_lanes
      let mm := if st.max_memory_size < memory then memory else st.max_memory_size
      reset_scan_salts rest ⟨ml, msb, mm⟩

/-- The byte size of the first `clCreateBuffer` request of `reset`: the scan,
the assertion `max_salt_lanes > 0 && max_memory_size > 0`, then
`max_memory_size *= MAX_KEYS_PER_CRYPT` in `size_t`.  `max_keys_per_crypt` is
the batch size after the user preferences have been applied. -/
def reset_first_request (salts : List argon2_salt) (max_keys_per_crypt : Nat) : Option Nat :=
  match reset_scan_salts salts ⟨0, 0, 0⟩ with
  | none => none
  | some st =>
    if st.max_salt_lanes > 0 ∧ st.max_memory_size > 0 then
      some ((st.max_memory_size * max_keys_per_crypt) % U64)
    else none

/-- The `do … while (cl_error != CL_SUCCESS)` loop of `reset` (lines 376-397).
`alloc n size` tells whether the `n`-th `clCreateBuffer` request, for `size`
bytes, succeeds; the host staging buffers are taken to be granted.  The state
is the batch size and the total size; the last argument records, for every
request made, the batch size and the size at that moment. -/
def reset_alloc_loop (alloc : Nat → Nat → Bool) :
    Nat → Nat → Nat → Nat → List (Nat × Nat) → Run (Nat × Nat × List (Nat × Nat))
  | 0, _, _, _, _ => .out_of_fuel
  | fuel + 1, n, max_keys_per_crypt, max_memory_size, requests =>
    let requests2 := requests ++ [(max_keys_per_crypt, max_memory_size)]
    if alloc n max_memory_size then .ok (max_keys_per_crypt, max_memory_size, requests2)
    else reset_alloc_loop alloc fuel (n + 1) (max_keys_per_crypt / 2) (max_memory_size / 2)
      requests2

/-- The allocation loop followed by `assert(MAX_KEYS_PER_CRYPT >= 1)`. -/
def reset_allocate (alloc : Nat → Nat → Bool) (fuel max_keys_per_crypt max_memory_size : Nat) :
    Run (Nat × Nat × List (Nat × Nat)) :=
  match reset_alloc_loop alloc fuel 0 max_keys_per_crypt max_memory_size [] with
  | .ok (k, size, requests) =>
    if k ≥ 1 then .ok (k, size, requests)
    else .fatal "assertion failed: MAX_KEYS_PER_CRYPT >= 1"
  | r => r

/-- The quantity `max(⌊m_cost / (4 · lanes)⌋, 2)` of the specification of the
memory planner, in exact arithmetic. -/
def salt_segment_blocks (s : argon2_salt) : Nat := max (s.m_cost / (4 * s.lanes)) 2

/-- The per-candidate footprint `1024 · lanes · 4 · segment_blocks` of a salt,
in exact arithmetic. -/
def salt_footprint (s : argon2_salt) : Nat := 1024 * s.lanes * 4 * salt_segment_blocks s

/-- The maximum of a list of naturals (0 for the empty list). -/
def list_max (xs : List Nat) : Nat := xs.foldl max 0

/-! ## Finalizer: the lane XOR of `crypt_all` -/

/-- The `uint64_t` held by eight consecutive bytes (the host is taken to be
little-endian; a byte-wise operation on words does not depend on the order). -/
def le_word : List Nat → Nat
  | [] => 0
  | b :: bs => b + 256 * le_word bs

/-- The eight bytes of a `uint64_t` in memory order. -/
def word_bytes (w : Nat) : List Nat := (List.range 8).map (fun k => (w / 256 ^ k) % 256)

/-- The value `*cursor` of type `block` (128 words) for a cursor at byte offset
`off` of `blocks_out`; `none` when the block does not lie inside the buffer. -/
def load_block (mem : List Nat) (off : Nat) : Option (List Nat) :=
  if off + ARGON2_BLOCK_SIZE ≤ mem.length then
    some ((List.range (ARGON2_BLOCK_SIZE / 8)).map
      (fun j => le_word ((mem.drop (off + 8 * j)).take 8)))
  else none

/-- The loop `for (l = 1; l < saved_salt.lanes; l++)` of `crypt_all` with its
inner loop `xored.v[j] ^= cursor->v[j]` over the 128 words; `n` is the number
of iterations left and `cursor` the byte offset of the block read last. -/
def xor_lanes (mem : List Nat) : Nat → Nat → List Nat → Option (List Nat)
  | 0, _, xored => some xored
  | n + 1, cursor, xored =>
    match load_block mem (cursor + ARGON2_BLOCK_SIZE) with
    | none => none
    | some blk =>
      xor_lanes mem n (cursor + ARGON2_BLOCK_SIZE) (List.zipWith (· ^^^ ·) xored blk)

/-- The accumulator `xored` that `crypt_all` builds for candidate `i` (lines
650-656): the cursor starts at `blocks_out + i * lanes * ARGON2_BLOCK_SIZE`,
an offset computed in `uint32_t`. -/
def finalize_accumulator (blocks_out : List Nat) (lanes i : Nat) : Option (List Nat) :=
  let cursor := ((i * lanes) % U32 * ARGON2_BLOCK_SIZE) % U32
  match load_block blocks_out cursor with
  | none => none
  | some xored => xor_lanes blocks_out (lanes - 1) cursor xored

/-- The 1024 bytes that `crypt_all` hands to the long-hash for candidate `i`:
the accumulator as it lies in memory. -/
def accumulator_bytes (blocks_out : List Nat) (lanes i : Nat) : Option (List Nat) :=
  (finalize_accumulator blocks_out lanes i).map (fun xored => xored.flatMap word_bytes)

/-- The 1024-byte block stored in `mem` at byte offset `base + l * 1024`. -/
def lane_block (mem : List Nat) (base l : Nat) : List Nat :=
  (mem.drop (base + l * 1024)).take 1024

/-- The byte-wise XOR of the `lanes` consecutive 1024-byte blocks stored in
`blocks_out` at byte offsets `i * lanes * 1024 + l * 1024`, `l < lanes`, as the
specification of the finalizer words it. -/
def xor_bytes (blocks_out : List Nat) (lanes i : Nat) : List Nat :=
  ((List.range lanes).map (lane_block blocks_out (i * lanes * 1024))).foldl
    (List.zipWith (· ^^^ ·)) (List.replicate 1024 0)

/-- A read-back buffer for one candidate with two lanes: a block of bytes 1
followed by a block of bytes 3. -/
def sample_blocks_out : List Nat := List.replicate 1024 1 ++ List.replicate 1024 3

/-- The autotune globals as `reset` leaves them after the scan (line 356): the
two maxima and a zeroed table of
`ARGON2_NUM_TYPES * max_salt_lanes * max_segment_blocks` entries, the count
being a `uint32_t` product. -/
def reset_tuning (st : ScanState) : Tuning :=
  ⟨st.max_salt_lanes, st.max_segment_blocks,
   List.replicate ((ARGON2_NUM_TYPES * st.max_salt_lanes * st.max_segment_blocks) % U32) ⟨0, 0⟩⟩

/-! ## Target decoder: `get_binary` -/

/-- The C library `memcpy(dst, src, n)` on byte buffers: the first `n` bytes of
`dst` are replaced by those of `src`; `none` when `n` exceeds either buffer. -/
def memcpy (dst src : List Nat) (n : Nat) : Option (List Nat) :=
  if n ≤ src.length ∧ n ≤ dst.length then some (src.take n ++ dst.drop n) else none

/-- The function `get_binary(ciphertext)`: the decoder is called with the
variant chosen by the tag (variant `i` when neither of the other two tags
matches), `ctx.outlen <= BINARY_SIZE` is asserted, the static result buffer is
zeroed by `memset` and the first `ctx.outlen` bytes of the decoded tag are
copied to its start. -/
def get_binary (decode : Decoder) (ctx0 : argon2_context) (out_buf salt_buf : List Nat)
    (ciphertext : List Char) : Option (List Nat) :=
  let ctx := ctx_init ctx0 out_buf salt_buf
  let r : Int × argon2_context :=
    if strncmp ciphertext FORMAT_TAG_d (FORMAT_TAG_d.length + 1 - 1) = 0 then
      decode ctx ciphertext Argon2_d
    else if strncmp ciphertext FORMAT_TAG_id (FORMAT_TAG_id.length + 1 - 1) = 0 then
      decode ctx ciphertext Argon2_id
    else decode ctx ciphertext Argon2_i
  if ¬ r.2.outlen ≤ BINARY_SIZE then none
  else memcpy (List.replicate BINARY_SIZE 0) r.2.out r.2.outlen

/-- A decoder that accepts every string and reports the 8-byte tag
`1, 2, …, 8` in the 256-byte output buffer, version 0x13. -/
def sample_decoder : Decoder := fun ctx _ _ =>
  (ARGON2_OK, { ctx with out := [1, 2, 3, 4, 5, 6, 7, 8] ++ List.replicate 248 0,
                         outlen := 8, version := 0x13 })

/-- The context before `ctx_init`, all fields zero. -/
def blank_context : argon2_context := ⟨[], 0, [], 0, 0, 0, 0, 0, 0⟩

/-! ## Lemmas on the comparison facade -/

theorem memcmp_spec (a b : List Nat) (n : Nat) (ha : n ≤ a.length) (hb : n ≤ b.length) :
    ∃ r, memcmp a b n = some r ∧ (r = 0 ↔ ∀ k, k < n → a[k]? = b[k]?) := by
  induction n generalizing a b with
  | zero => exact ⟨0, by simp [memcmp], by simp⟩
  | succ n ih =>
    cases a with
    | nil => simp at ha
    | cons x xs =>
      cases b with
      | nil => simp at hb
      | cons y ys =>
        simp only [List.length_cons, Nat.add_le_add_iff_right] at ha hb
        by_cases hxy : x = y
        · obtain ⟨r, hr, hiff⟩ := ih xs ys ha hb
          refine ⟨r, by simp [memcmp, hxy, hr], ?_⟩
          rw [hiff]
          constructor
          · intro h k hk
            cases k with
            | zero => simp [hxy]
            | succ k => simpa using h k (by omega)
          · intro h k hk
            simpa using h (k + 1) (by omega)
        · refine ⟨(x : Int) - (y : Int), by simp [memcmp, hxy], ?_⟩
          constructor
          · intro h
            exact absurd (by omega : x = y) hxy
          · intro h
            have := h 0 (by omega)
            simp at this
            exact absurd this hxy

theorem cmp_one_eval (s : argon2_salt) (mkpc : Nat) (crypted : List (List Nat))
    (binary row : List Nat) (i : Nat) (hi : i < mkpc) (hrow : crypted[i]? = some row) :
    cmp_one s mkpc crypted binary (i : Int) =
      (memcmp binary row s.hash_size).map (fun r => if r = 0 then 1 else 0) := by
  have h1 : (0 : Int) ≤ (i : Int) ∧ (i : Int) < (mkpc : Int) := ⟨by omega, by omega⟩
  simp [cmp_one, h1, hrow]

/-- C2: for a 256-byte `binary`, an index `i` below `max_keys_per_crypt` and a
current salt (whose `hash_size` is at most `BINARY_SIZE`, as `get_salt`
asserts), `cmp_one(binary, i)` returns a value, that value is 1 exactly when
`binary[k] = crypted[i][k]` for every `k < hash_size` and 0 otherwise, and
replacing the bytes at positions `≥ hash_size` (of `binary` or of the stored
tag) does not change the result. -/
theorem cmp_one_iff_prefix_equal (s : argon2_salt) (mkpc : Nat) (crypted : List (List Nat))
    (binary : List Nat) (i : Nat)
    (hs : s.hash_size ≤ BINARY_SIZE) (hc : crypted.length = mkpc)
    (hrows : ∀ row ∈ crypted, row.length = BINARY_SIZE)
    (hb : binary.length = BINARY_SIZE) (hi : i < mkpc) :
    ∃ r row, crypted[i]? = some row ∧ cmp_one s mkpc crypted binary (i : Int) = some r ∧
      (r = 0 ∨ r = 1) ∧
      (r ≠ 0 ↔ ∀ k, k < s.hash_size → binary[k]? = row[k]?) ∧
      (∀ (crypted2 : List (List Nat)) (binary2 row2 : List Nat),
        binary2.length = BINARY_SIZE → crypted2[i]? = some row2 → row2.length = BINARY_SIZE →
        (∀ k, k < s.hash_size → binary2[k]? = binary[k]? ∧ row2[k]? = row[k]?) →
        cmp_one s mkpc crypted2 binary2 (i : Int) = some r) := by
  have hi2 : i < crypted.length := by omega
  have hrow : crypted[i]? = some crypted[i] := List.getElem?_eq_getElem hi2
  have hlen : (crypted[i]).length = BINARY_SIZE := hrows _ (List.getElem_mem hi2)
  obtain ⟨m, hm, hiff⟩ := memcmp_spec binary crypted[i] s.hash_size (by omega) (by omega)
  refine ⟨if m = 0 then 1 else 0, crypted[i], hrow, ?_, ?_, ?_, ?_⟩
  · rw [cmp_one_eval s mkpc crypted binary crypted[i] i hi hrow, hm]; rfl
  · by_cases h : m = 0 <;> simp [h]
  · rw [← hiff]; by_cases h : m = 0 <;> simp [h]
  · intro crypted2 binary2 row2 hb2 hrow2 hlen2 hagree
    obtain ⟨m2, hm2, hiff2⟩ := memcmp_spec binary2 row2 s.hash_size (by omega) (by omega)
    rw [cmp_one_eval s mkpc crypted2 binary2 row2 i hi hrow2, hm2]
    have hmm : m2 = 0 ↔ m = 0 := by
      rw [hiff, hiff2]
      constructor
      · intro h k hk
        rw [← (hagree k hk).1, ← (hagree k hk).2]; exact h k hk
      · intro h k hk
        rw [(hagree k hk).1, (hagree k hk).2]; exact h k hk
    by_cases h : m = 0
    · simp [h, hmm.mpr h]
    · have h2 : ¬ m2 = 0 := fun hh => h (hmm.mp hh)
      simp [h, h2]

/-- Instance of `cmp_one_iff_prefix_equal`: a one-candidate batch whose stored
tag is 256 zero bytes, compared with a zero `binary` under an 8-byte tag. -/
theorem cmp_one_iff_prefix_equal_witness :
    ∃ r row, [List.replicate 256 0][0]? = some row ∧
      cmp_one ⟨3, 4096, 1, 8, 0, [], 0, 19⟩ 1 [List.replicate 256 0]
        (List.replicate 256 0) ((0 : Nat) : Int) = some r ∧
      (r = 0 ∨ r = 1) ∧
      (r ≠ 0 ↔ ∀ k, k < (⟨3, 4096, 1, 8, 0, [], 0, 19⟩ : argon2_salt).hash_size →
        (List.replicate 256 0)[k]? = row[k]?) ∧
      (∀ (crypted2 : List (List Nat)) (binary2 row2 : List Nat),
        binary2.length = BINARY_SIZE → crypted2[0]? = some row2 → row2.length = BINARY_SIZE →
        (∀ k, k < (⟨3, 4096, 1, 8, 0, [], 0, 19⟩ : argon2_salt).hash_size →
          binary2[k]? = (List.replicate 256 0)[k]? ∧ row2[k]? = row[k]?) →
        cmp_one ⟨3, 4096, 1, 8, 0, [], 0, 19⟩ 1 crypted2 binary2 ((0 : Nat) : Int) = some r) :=
  cmp_one_iff_prefix_equal ⟨3, 4096, 1, 8, 0, [], 0, 19⟩ 1 [List.replicate 256 0]
    (List.replicate 256 0) 0 (by decide) rfl
    (by
      intro row hrow
      rw [List.mem_singleton] at hrow
      subst hrow
      exact List.length_replicate 256 0)
    (List.length_replicate 256 0) (by decide)

/-! ## Lemmas on the validator -/

theorem strncmp_eq_zero_iff (tag c : List Char) (hnz : ∀ ch ∈ tag, ch.toNat ≠ 0) :
    strncmp c tag tag.length = 0 ↔ tag <+: c := by
  induction tag generalizing c with
  | nil => simp [strncmp]
  | cons t ts ih =>
    have ht : t.toNat ≠ 0 := hnz t (by simp)
    have hts : ∀ ch ∈ ts, ch.toNat ≠ 0 := fun ch h => hnz ch (by simp [h])
    cases c with
    | nil =>
      simp only [List.length_cons, strncmp]
      constructor
      · intro h; omega
      · intro h; simp at h
    | cons a as =>
      simp only [List.length_cons, strncmp]
      by_cases hat : a = t
      · subst hat
        simp only [if_true, ht, if_false]
        rw [ih as hts]
        simp [List.cons_prefix_cons]
      · simp only [hat, if_false]
        constructor
        · intro h
          have : a.toNat = t.toNat := by omega
          have h2 : Char.ofNat a.toNat = Char.ofNat t.toNat := by rw [this]
          rw [Char.ofNat_toNat, Char.ofNat_toNat] at h2
          exact absurd h2 hat
        · intro h
          rw [List.cons_prefix_cons] at h
          exact absurd h.1.symm hat

theorem tag_d_nonzero : ∀ ch ∈ FORMAT_TAG_d, ch.toNat ≠ 0 := by decide

theorem tag_i_nonzero : ∀ ch ∈ FORMAT_TAG_i, ch.toNat ≠ 0 := by decide

theorem tag_id_nonzero : ∀ ch ∈ FORMAT_TAG_id, ch.toNat ≠ 0 := by decide

/-- The outcome of `valid` once the decoder has run. -/
theorem valid_accept_iff (r : Int × argon2_context) :
    ((if r.1 ≠ ARGON2_OK ∨ r.2.outlen < 8 then (0 : Int)
      else if r.2.version = ARGON2_VERSION_10 then 0 else 1) = 1) ↔
    (r.1 = ARGON2_OK ∧ 8 ≤ r.2.outlen ∧ r.2.version ≠ ARGON2_VERSION_10) := by
  by_cases h1 : r.1 = ARGON2_OK
  · by_cases h2 : r.2.outlen < 8
    · have h2n : ¬ 8 ≤ r.2.outlen := by omega
      simp [h1, h2, h2n]
    · have h2p : 8 ≤ r.2.outlen := by omega
      by_cases h3 : r.2.version = ARGON2_VERSION_10
      · simp [h1, h2, h3]
      · simp [h1, h2, h2p, h3]
  · simp [h1]

theorem valid_eval_d (decode : Decoder) (ctx0 : argon2_context) (out_buf salt_buf : List Nat)
    (c : List Char) (h1 : FORMAT_TAG_d <+: c) :
    valid decode ctx0 out_buf salt_buf c =
      (if (decode (ctx_init ctx0 out_buf salt_buf) c Argon2_d).1 ≠ ARGON2_OK ∨
          (decode (ctx_init ctx0 out_buf salt_buf) c Argon2_d).2.outlen < 8 then (0 : Int)
       else if (decode (ctx_init ctx0 out_buf salt_buf) c Argon2_d).2.version
          = ARGON2_VERSION_10 then 0 else 1) := by
  have hd := (strncmp_eq_zero_iff FORMAT_TAG_d c tag_d_nonzero).mpr h1
  unfold valid
  simp only [Nat.add_sub_cancel, hd, if_true]

theorem valid_eval_id (decode : Decoder) (ctx0 : argon2_context) (out_buf salt_buf : List Nat)
    (c : List Char) (h1 : ¬ FORMAT_TAG_d <+: c) (h2 : FORMAT_TAG_id <+: c) :
    valid decode ctx0 out_buf salt_buf c =
      (if (decode (ctx_init ctx0 out_buf salt_buf) c Argon2_id).1 ≠ ARGON2_OK ∨
          (decode (ctx_init ctx0 out_buf salt_buf) c Argon2_id).2.outlen < 8 then (0 : Int)
       else if (decode (ctx_init ctx0 out_buf salt_buf) c Argon2_id).2.version
          = ARGON2_VERSION_10 then 0 else 1) := by
  have hd := (strncmp_eq_zero_iff FORMAT_TAG_d c tag_d_nonzero).not.mpr h1
  have hid := (strncmp_eq_zero_iff FORMAT_TAG_id c tag_id_nonzero).mpr h2
  unfold valid
  simp only [Nat.add_sub_cancel, hd, hid, if_true, if_false]

theorem valid_eval_i (decode : Decoder) (ctx0 : argon2_context) (out_buf salt_buf : List Nat)
    (c : List Char) (h1 : ¬ FORMAT_TAG_d <+: c) (h2 : ¬ FORMAT_TAG_id <+: c)
    (h3 : FORMAT_TAG_i <+: c) :
    valid decode ctx0 out_buf salt_buf c =
      (if (decode (ctx_init ctx0 out_buf salt_buf) c Argon2_i).1 ≠ ARGON2_OK ∨
          (decode (ctx_init ctx0 out_buf salt_buf) c Argon2_i).2.outlen < 8 then (0 : Int)
       else if (decode (ctx_init ctx0 out_buf salt_buf) c Argon2_i).2.version
          = ARGON2_VERSION_10 then 0 else 1) := by
  have hd := (strncmp_eq_zero_iff FORMAT_TAG_d c tag_d_nonzero).not.mpr h1
  have hid := (strncmp_eq_zero_iff FORMAT_TAG_id c tag_id_nonzero).not.mpr h2
  have hi := (strncmp_eq_zero_iff FORMAT_TAG_i c tag_i_nonzero).mpr h3
  unfold valid
  simp only [Nat.add_sub_cancel, hd, hid, hi, if_true, if_false]

theorem valid_eval_none (decode : Decoder) (ctx0 : argon2_context)
    (out_buf salt_buf : List Nat) (c : List Char) (h1 : ¬ FORMAT_TAG_d <+: c)
    (h2 : ¬ FORMAT_TAG_id <+: c) (h3 : ¬ FORMAT_TAG_i <+: c) :
    valid decode ctx0 out_buf salt_buf c = 0 := by
  have hd := (strncmp_eq_zero_iff FORMAT_TAG_d c tag_d_nonzero).not.mpr h1
  have hid := (strncmp_eq_zero_iff FORMAT_TAG_id c tag_id_nonzero).not.mpr h2
  have hi := (strncmp_eq_zero_iff FORMAT_TAG_i c tag_i_nonzero).not.mpr h3
  unfold valid
  simp only [Nat.add_sub_cancel, hd, hid, hi, if_false]

theorem valid_zero_or_one (decode : Decoder) (ctx0 : argon2_context)
    (out_buf salt_buf : List Nat) (c : List Char) :
    valid decode ctx0 out_buf salt_buf c = 1 ∨ valid decode ctx0 out_buf salt_buf c = 0 := by
  unfold valid
  simp only
  split
  · right; rfl
  · split_ifs
    · right; rfl
    · right; rfl
    · left; rfl

theorem tags_exclusive (c : List Char) :
    (FORMAT_TAG_id <+: c → ¬ FORMAT_TAG_i <+: c ∧ ¬ FORMAT_TAG_d <+: c) ∧
    (FORMAT_TAG_d <+: c → ¬ FORMAT_TAG_i <+: c) := by
  refine ⟨fun h => ⟨fun h2 => ?_, fun h2 => ?_⟩, fun h h2 => ?_⟩
  · exact absurd (List.prefix_of_prefix_length_le h2 h (by decide)) (by decide)
  · exact absurd (List.prefix_of_prefix_length_le h2 h (by decide)) (by decide)
  · exact absurd (List.prefix_of_prefix_length_le h2 h (by decide)) (by decide)

/-- C3: `valid` returns 1 exactly when the ciphertext starts with one of the
three format tags, the external decoder called with the variant named by that
tag returns `ARGON2_OK`, the decoded tag has at least 8 bytes and the decoded
version is not 0x10; in every other case it returns 0.  The tags exclude one
another, so a string that starts with the `id` tag is decoded as variant `id`
and never as variant `i` or `d`. -/
theorem valid_iff (decode : Decoder) (ctx0 : argon2_context) (out_buf salt_buf : List Nat)
    (c : List Char) :
    (valid decode ctx0 out_buf salt_buf c = 1 ↔
      ∃ ty, ((FORMAT_TAG_d <+: c ∧ ty = Argon2_d) ∨ (FORMAT_TAG_id <+: c ∧ ty = Argon2_id) ∨
             (FORMAT_TAG_i <+: c ∧ ty = Argon2_i)) ∧
        (decode (ctx_init ctx0 out_buf salt_buf) c ty).1 = ARGON2_OK ∧
        8 ≤ (decode (ctx_init ctx0 out_buf salt_buf) c ty).2.outlen ∧
        (decode (ctx_init ctx0 out_buf salt_buf) c ty).2.version ≠ ARGON2_VERSION_10) ∧
    (valid decode ctx0 out_buf salt_buf c = 1 ∨ valid decode ctx0 out_buf salt_buf c = 0) ∧
    (FORMAT_TAG_id <+: c → ¬ FORMAT_TAG_i <+: c ∧ ¬ FORMAT_TAG_d <+: c) ∧
    (FORMAT_TAG_d <+: c → ¬ FORMAT_TAG_i <+: c) := by
  have excl := tags_exclusive c
  refine ⟨?_, valid_zero_or_one decode ctx0 out_buf salt_buf c, excl.1, excl.2⟩
  by_cases h1 : FORMAT_TAG_d <+: c
  · rw [valid_eval_d decode ctx0 out_buf salt_buf c h1, valid_accept_iff]
    constructor
    · intro h; exact ⟨Argon2_d, Or.inl ⟨h1, rfl⟩, h⟩
    · rintro ⟨ty, hty, h⟩
      rcases hty with ⟨_, rfl⟩ | ⟨h', _⟩ | ⟨h', _⟩
      · exact h
      · exact absurd h1 (excl.1 h').2
      · exact absurd h' (excl.2 h1)
  · by_cases h2 : FORMAT_TAG_id <+: c
    · rw [valid_eval_id decode ctx0 out_buf salt_buf c h1 h2, valid_accept_iff]
      constructor
      · intro h; exact ⟨Argon2_id, Or.inr (Or.inl ⟨h2, rfl⟩), h⟩
      · rintro ⟨ty, hty, h⟩
        rcases hty with ⟨h', _⟩ | ⟨_, rfl⟩ | ⟨h', _⟩
        · exact absurd h' h1
        · exact h
        · exact absurd h' (excl.1 h2).1
    · by_cases h3 : FORMAT_TAG_i <+: c
      · rw [valid_eval_i decode ctx0 out_buf salt_buf c h1 h2 h3, valid_accept_iff]
        constructor
        · intro h; exact ⟨Argon2_i, Or.inr (Or.inr ⟨h3, rfl⟩), h⟩
        · rintro ⟨ty, hty, h⟩
          rcases hty with ⟨h', _⟩ | ⟨h', _⟩ | ⟨_, rfl⟩
          · exact absurd h' h1
          · exact absurd h' h2
          · exact h
      · rw [valid_eval_none decode ctx0 out_buf salt_buf c h1 h2 h3]
        constructor
        · intro h; exact absurd h (by decide)
        · rintro ⟨ty, hty, _⟩
          rcases hty with ⟨h', _⟩ | ⟨h', _⟩ | ⟨h', _⟩
          · exact absurd h' h1
          · exact absurd h' h2
          · exact absurd h' h3

/-! ## Lemmas on the segment-kernel driver -/

theorem slice_loop_ok (status : Nat → Bool) (hok : ∀ n, status n = true)
    (kernel pass g0 g1 l0 l1 : Nat) (n slice : Nat) (st : GpuState) :
    ∃ st2, slice_loop status kernel pass g0 g1 l0 l1 n slice st = .ok st2 ∧
      st2.args.passes = st.args.passes ∧ st2.args.lanes = st.args.lanes ∧
      st2.args.segment_blocks = st.args.segment_blocks ∧
      st2.log = st.log ++ (List.range n).flatMap (fun j =>
        step_calls kernel st.args.passes st.args.lanes st.args.segment_blocks
          g0 g1 l0 l1 pass (slice + j)) := by
  induction n generalizing slice st with
  | zero => exact ⟨st, rfl, rfl, rfl, rfl, by simp⟩
  | succ n ih =>
    obtain ⟨st2, h2, hp, hl, hsb, hlog⟩ := ih (slice + 1)
      { log := st.log ++ step_calls kernel st.args.passes st.args.lanes st.args.segment_blocks
          g0 g1 l0 l1 pass slice,
        args := (st.args.set 5 pass).set 6 slice }
    refine ⟨st2, ?_, ?_, ?_, ?_, ?_⟩
    · rw [← h2]
      simp [slice_loop, set_kernel_arg, enqueue_kernel, device_call, hok, bind, Except.bind,
        step_calls, KernelArgs.set]
    · rw [hp]; simp [KernelArgs.set]
    · rw [hl]; simp [KernelArgs.set]
    · rw [hsb]; simp [KernelArgs.set]
    · rw [hlog, List.range_succ_eq_map, List.flatMap_cons, List.flatMap_map]
      simp [KernelArgs.set, Nat.add_assoc, Nat.add_comm 1]

theorem pass_loop_ok (status : Nat → Bool) (hok : ∀ n, status n = true)
    (kernel g0 g1 l0 l1 : Nat) (n pass : Nat) (st : GpuState) :
    ∃ st2, pass_loop status kernel g0 g1 l0 l1 n pass st = .ok st2 ∧
      st2.args.passes = st.args.passes ∧ st2.args.lanes = st.args.lanes ∧
      st2.args.segment_blocks = st.args.segment_blocks ∧
      st2.log = st.log ++ (List.range n).flatMap (fun i =>
        (List.range ARGON2_SYNC_POINTS).flatMap (fun j =>
          step_calls kernel st.args.passes st.args.lanes st.args.segment_blocks
            g0 g1 l0 l1 (pass + i) j)) := by
  induction n generalizing pass st with
  | zero => exact ⟨st, rfl, rfl, rfl, rfl, by simp⟩
  | succ n ih =>
    obtain ⟨st1, h1, hp1, hl1, hsb1, hlog1⟩ :=
      slice_loop_ok status hok kernel pass g0 g1 l0 l1 ARGON2_SYNC_POINTS 0 st
    obtain ⟨st2, h2, hp2, hl2, hsb2, hlog2⟩ := ih (pass + 1) st1
    refine ⟨st2, ?_, by rw [hp2, hp1], by rw [hl2, hl1], by rw [hsb2, hsb1], ?_⟩
    · simp only [pass_loop, bind, Except.bind, h1, h2]
    · rw [hlog2, hlog1, hp1, hl1, hsb1, List.range_succ_eq_map, List.flatMap_cons,
        List.flatMap_map]
      simp [Nat.add_assoc, Nat.add_comm 1]

theorem submissions_append (a b : List DeviceCall) :
    submissions (a ++ b) = submissions a ++ submissions b := by
  induction a with
  | nil => rfl
  | cons c cs ih => cases c <;> simp [submissions, ih]

theorem submissions_steps (kernel passes lanes sb g0 g1 l0 l1 : Nat) (n : Nat) :
    submissions ((List.range n).flatMap (fun i =>
        (List.range ARGON2_SYNC_POINTS).flatMap (fun j =>
          step_calls kernel passes lanes sb g0 g1 l0 l1 i j))) =
      (List.range n).flatMap (fun i => (List.range ARGON2_SYNC_POINTS).map (fun j => (i, j))) := by
  induction n with
  | zero => rfl
  | succ n ih =>
    rw [List.range_succ, List.flatMap_append, List.flatMap_append, submissions_append, ih]
    simp [ARGON2_SYNC_POINTS, List.range_succ, step_calls, submissions]

theorem length_pass_slice_pairs (n : Nat) :
    ((List.range n).flatMap (fun i =>
      (List.range ARGON2_SYNC_POINTS).map (fun j => (i, j)))).length = 4 * n := by
  induction n with
  | zero => rfl
  | succ n ih =>
    rw [List.range_succ, List.flatMap_append, List.length_append, ih]
    simp [ARGON2_SYNC_POINTS]
    omega

theorem segment_blocks_eq (m_cost lanes : Nat) (h1 : 1 ≤ lanes)
    (h4 : lanes * ARGON2_SYNC_POINTS < U32) :
    segment_blocks m_cost lanes = some (MAX (m_cost / (lanes * ARGON2_SYNC_POINTS)) 2) := by
  have hne : ¬ lanes * ARGON2_SYNC_POINTS = 0 := by
    simp [ARGON2_SYNC_POINTS]; omega
  simp only [segment_blocks, Nat.mod_eq_of_lt h4, hne, if_false]

/-- The schedule of `run_kernel_on_gpu` under the driver's own assertions
(`lanes`, `t_cost`, `m_cost` positive, a variant below 3) and `4 · lanes` a
32-bit value. -/
theorem run_kernel_on_gpu_schedule_of (s : argon2_salt) (mkpc lpb jpb : Nat)
    (status : Nat → Bool) (st0 : GpuState)
    (ht : 1 ≤ s.t_cost) (hl : 1 ≤ s.lanes) (hm : 1 ≤ s.m_cost)
    (h4 : s.lanes * ARGON2_SYNC_POINTS < U32) (hty : s.type < ARGON2_NUM_TYPES)
    (hgeo : geometry_check s.lanes mkpc lpb jpb = .ok ())
    (hok : ∀ n, status n = true) :
    ∃ st sb, segment_blocks s.m_cost s.lanes = some sb ∧
      run_kernel_on_gpu s mkpc status st0 lpb jpb = .ok st ∧
      st.log = st0.log ++
        [DeviceCall.write_buffer_rect (((s.lanes * 2) % U32 * ARGON2_BLOCK_SIZE) % U32) mkpc
            (jobSize sb s.lanes) (((s.lanes * 2) % U32 * ARGON2_BLOCK_SIZE) % U32),
         DeviceCall.set_kernel_arg s.type 0
            (((THREADS_PER_LANE * lpb) % U32 * jpb * 4 * 2) % U64),
         DeviceCall.set_kernel_arg s.type 2 s.t_cost,
         DeviceCall.set_kernel_arg s.type 3 s.lanes,
         DeviceCall.set_kernel_arg s.type 4 sb] ++
        (List.range s.t_cost).flatMap (fun pass =>
          (List.range ARGON2_SYNC_POINTS).flatMap (fun slice =>
            step_calls s.type s.t_cost s.lanes sb ((THREADS_PER_LANE * s.lanes) % U32) mkpc
              ((THREADS_PER_LANE * lpb) % U32) jpb pass slice)) ++
        [DeviceCall.read_buffer_rect
            ((jobSize sb s.lanes + U64 - (s.lanes * ARGON2_BLOCK_SIZE) % U32) % U64)
            ((s.lanes * ARGON2_BLOCK_SIZE) % U32) mkpc (jobSize sb s.lanes)
            ((s.lanes * ARGON2_BLOCK_SIZE) % U32)] ∧
      submissions (st.log.drop st0.log.length) =
        (List.range s.t_cost).flatMap (fun pass =>
          (List.range ARGON2_SYNC_POINTS).map (fun slice => (pass, slice))) ∧
      (submissions (st.log.drop st0.log.length)).length = 4 * s.t_cost := by
  have hsb := segment_blocks_eq s.m_cost s.lanes hl h4
  obtain ⟨st6, h6, -, -, -, hlog6⟩ := pass_loop_ok status hok s.type
    ((THREADS_PER_LANE * s.lanes) % U32) mkpc ((THREADS_PER_LANE * lpb) % U32) jpb s.t_cost 0
    { log := st0.log ++
        [DeviceCall.write_buffer_rect (((s.lanes * 2) % U32 * ARGON2_BLOCK_SIZE) % U32) mkpc
            (jobSize (MAX (s.m_cost / (s.lanes * ARGON2_SYNC_POINTS)) 2) s.lanes)
            (((s.lanes * 2) % U32 * ARGON2_BLOCK_SIZE) % U32),
         DeviceCall.set_kernel_arg s.type 0
            (((THREADS_PER_LANE * lpb) % U32 * jpb * 4 * 2) % U64),
         DeviceCall.set_kernel_arg s.type 2 s.t_cost,
         DeviceCall.set_kernel_arg s.type 3 s.lanes,
         DeviceCall.set_kernel_arg s.type 4 (MAX (s.m_cost / (s.lanes * ARGON2_SYNC_POINTS)) 2)],
      args := (((st0.args.set 0 (((THREADS_PER_LANE * lpb) % U32 * jpb * 4 * 2) % U64)).set 2
        s.t_cost).set 3 s.lanes).set 4 (MAX (s.m_cost / (s.lanes * ARGON2_SYNC_POINTS)) 2) }
  have hassert : s.lanes > 0 ∧ s.t_cost > 0 ∧ s.m_cost > 0 := ⟨hl, ht, hm⟩
  have hrun : run_kernel_on_gpu s mkpc status st0 lpb jpb = .ok
      { st6 with log := st6.log ++ [DeviceCall.read_buffer_rect
        ((jobSize (MAX (s.m_cost / (s.lanes * ARGON2_SYNC_POINTS)) 2) s.lanes + U64 -
          (s.lanes * ARGON2_BLOCK_SIZE) % U32) % U64)
        ((s.lanes * ARGON2_BLOCK_SIZE) % U32) mkpc
        (jobSize (MAX (s.m_cost / (s.lanes * ARGON2_SYNC_POINTS)) 2) s.lanes)
        ((s.lanes * ARGON2_BLOCK_SIZE) % U32)] } := by
    simp only [run_kernel_on_gpu, hassert, hgeo, hsb, hty, bind, Except.bind, pure, Except.pure,
      set_kernel_arg, device_call, hok, if_true, if_false, not_true, and_self, not_false_eq_true,
      List.append_assoc, List.singleton_append, List.cons_append, List.nil_append] at h6 ⊢
    rw [h6]
  have hsub : submissions (List.drop st0.log.length (st6.log ++ [DeviceCall.read_buffer_rect
        ((jobSize (MAX (s.m_cost / (s.lanes * ARGON2_SYNC_POINTS)) 2) s.lanes + U64 -
          (s.lanes * ARGON2_BLOCK_SIZE) % U32) % U64)
        ((s.lanes * ARGON2_BLOCK_SIZE) % U32) mkpc
        (jobSize (MAX (s.m_cost / (s.lanes * ARGON2_SYNC_POINTS)) 2) s.lanes)
        ((s.lanes * ARGON2_BLOCK_SIZE) % U32)])) =
      (List.range s.t_cost).flatMap (fun pass =>
        (List.range ARGON2_SYNC_POINTS).map (fun slice => (pass, slice))) := by
    simp only [hlog6, KernelArgs.set]
    simp [submissions_append, submissions, submissions_steps]
  refine ⟨_, _, hsb, hrun, ?_, hsub, ?_⟩
  · simp only [hlog6, KernelArgs.set]
    simp
  · rw [hsub]
    exact length_pass_slice_pairs s.t_cost

theorem salt_descriptor_ok_lanes (s : argon2_salt) (hs : salt_descriptor_ok s) :
    1 ≤ s.lanes ∧ s.lanes * ARGON2_SYNC_POINTS < U32 ∧ s.lanes < 2 ^ 29 ∧ s.m_cost < U32 ∧
    1 ≤ s.m_cost := by
  obtain ⟨_, _, h3, h4, h5, _⟩ := hs
  unfold U32 ARGON2_SYNC_POINTS at *
  omega

theorem geometry_check_ok_ne_zero (lanes mkpc lpb jpb : Nat)
    (h : geometry_check lanes mkpc lpb jpb = .ok ()) : lpb ≠ 0 ∧ jpb ≠ 0 := by
  unfold geometry_check at h
  split_ifs at h with h1 h2 h3 h4 h5 h6
  exact ⟨h2, h5⟩

theorem crypt_all_gpu_eq (s : argon2_salt) (mkpc : Nat) (t : Tuning) (status : Nat → Bool)
    (st0 : GpuState) (sb index lpb jpb : Nat)
    (hsb : segment_blocks s.m_cost s.lanes = some sb)
    (hi : index_best_kernel_params t s.type s.lanes sb = some index)
    (he : t.best_kernel_params[index]? = some ⟨lpb, jpb⟩)
    (hgeo : geometry_check s.lanes mkpc lpb jpb = .ok ()) :
    crypt_all_gpu s mkpc t status st0 = run_kernel_on_gpu s mkpc status st0 lpb jpb := by
  have hne := geometry_check_ok_ne_zero s.lanes mkpc lpb jpb hgeo
  simp only [crypt_all_gpu, hsb, hi, he, ne_eq, hne.1, hne.2, not_false_eq_true, and_self,
    if_true]

/-- C4: for a salt descriptor (with `t_cost ≥ 1`, as every descriptor has) and
a geometry that passes the driver's checks, when every runtime call succeeds,
`run_kernel_on_gpu` returns, and the calls it makes are, in order: the upload,
the four argument settings, then for `pass = 0 .. t_cost - 1` and
`slice = 0 .. 3` in that nested order the two argument updates, one kernel
submission with arguments `(pass, slice)` and one finish, and at the end the
read-back.  The submissions are exactly the `4 · t_cost` pairs
`(0,0), (0,1), (0,2), (0,3), (1,0), …, (t_cost - 1, 3)`.  The runtime calls of
one `crypt_all` are those of this one call, made with the memoized geometry. -/
theorem run_kernel_on_gpu_schedule (s : argon2_salt) (mkpc lpb jpb : Nat)
    (status : Nat → Bool) (st0 : GpuState)
    (hs : salt_descriptor_ok s)
    (hgeo : geometry_check s.lanes mkpc lpb jpb = .ok ())
    (hok : ∀ n, status n = true) :
    ∃ st sb, segment_blocks s.m_cost s.lanes = some sb ∧
      run_kernel_on_gpu s mkpc status st0 lpb jpb = .ok st ∧
      st.log = st0.log ++
        [DeviceCall.write_buffer_rect (((s.lanes * 2) % U32 * ARGON2_BLOCK_SIZE) % U32) mkpc
            (jobSize sb s.lanes) (((s.lanes * 2) % U32 * ARGON2_BLOCK_SIZE) % U32),
         DeviceCall.set_kernel_arg s.type 0
            (((THREADS_PER_LANE * lpb) % U32 * jpb * 4 * 2) % U64),
         DeviceCall.set_kernel_arg s.type 2 s.t_cost,
         DeviceCall.set_kernel_arg s.type 3 s.lanes,
         DeviceCall.set_kernel_arg s.type 4 sb] ++
        (List.range s.t_cost).flatMap (fun pass =>
          (List.range ARGON2_SYNC_POINTS).flatMap (fun slice =>
            step_calls s.type s.t_cost s.lanes sb ((THREADS_PER_LANE * s.lanes) % U32) mkpc
              ((THREADS_PER_LANE * lpb) % U32) jpb pass slice)) ++
        [DeviceCall.read_buffer_rect
            ((jobSize sb s.lanes + U64 - (s.lanes * ARGON2_BLOCK_SIZE) % U32) % U64)
            ((s.lanes * ARGON2_BLOCK_SIZE) % U32) mkpc (jobSize sb s.lanes)
            ((s.lanes * ARGON2_BLOCK_SIZE) % U32)] ∧
      submissions (st.log.drop st0.log.length) =
        (List.range s.t_cost).flatMap (fun pass =>
          (List.range ARGON2_SYNC_POINTS).map (fun slice => (pass, slice))) ∧
      (submissions (st.log.drop st0.log.length)).length = 4 * s.t_cost ∧
      (∀ (t : Tuning) (index : Nat),
        index_best_kernel_params t s.type s.lanes sb = some index →
        t.best_kernel_params[index]? = some ⟨lpb, jpb⟩ →
        crypt_all_gpu s mkpc t status st0 = .ok st) := by
  obtain ⟨h1, h4, _, _, hm⟩ := salt_descriptor_ok_lanes s hs
  obtain ⟨st, sb, hsb, hrun, hlog, hsub, hlen⟩ :=
    run_kernel_on_gpu_schedule_of s mkpc lpb jpb status st0 hs.1 h1 hm h4
      hs.2.2.2.2.2.2.2.2 hgeo hok
  refine ⟨st, sb, hsb, hrun, hlog, hsub, hlen, ?_⟩
  intro t index hi he
  rw [crypt_all_gpu_eq s mkpc t status st0 sb index lpb jpb hsb hi he hgeo]
  exact hrun

/-- Instance of `run_kernel_on_gpu_schedule`: the first built-in test salt
with two passes, a batch of four and the geometry `(1, 2)`. -/
theorem run_kernel_on_gpu_schedule_witness :
    ∃ st, run_kernel_on_gpu ⟨2, 4096, 1, 32, 11, [], 0, 19⟩ 4 (fun _ => true)
        ⟨[], ⟨0, 0, 0, 0, 0, 0⟩⟩ 1 2 = .ok st ∧
      submissions st.log =
        [(0, 0), (0, 1), (0, 2), (0, 3), (1, 0), (1, 1), (1, 2), (1, 3)] := by
  obtain ⟨st, sb, _, hrun, _, hsub, _, _⟩ :=
    run_kernel_on_gpu_schedule ⟨2, 4096, 1, 32, 11, [], 0, 19⟩ 4 1 2 (fun _ => true)
      ⟨[], ⟨0, 0, 0, 0, 0, 0⟩⟩ (by decide) rfl (fun _ => rfl)
  exact ⟨st, hrun, hsub⟩

/-! ## Lemmas on the autotuner -/

theorem pow_two_of_and_pred_eq_zero (x : Nat) (hx : 1 ≤ x) (h : x &&& (x - 1) = 0) :
    ∃ k, x = 2 ^ k := by
  induction x using Nat.strong_induction_on with
  | _ x ih =>
    by_cases h1 : x = 1
    · exact ⟨0, by simp [h1]⟩
    · have hbit : ∀ i, ((x / 2).testBit i && ((x - 1) / 2).testBit i) = false := by
        intro i
        have hb : (x &&& (x - 1)).testBit (i + 1) = Nat.testBit 0 (i + 1) := by rw [h]
        rw [Nat.testBit_and, Nat.testBit_succ, Nat.testBit_succ, Nat.zero_testBit] at hb
        exact hb
      rcases Nat.mod_two_eq_zero_or_one x with h0 | h0
      · have hy : (x - 1) / 2 = x / 2 - 1 := by omega
        have hland : (x / 2) &&& (x / 2 - 1) = 0 := by
          apply Nat.eq_of_testBit_eq
          intro i
          rw [Nat.testBit_and, ← hy, hbit i]
          simp
        obtain ⟨k, hk⟩ := ih (x / 2) (by omega) (by omega) hland
        exact ⟨k + 1, by rw [pow_succ, ← hk]; omega⟩
      · have hy : (x - 1) / 2 = x / 2 := by omega
        have hz : x / 2 = 0 := by
          apply Nat.eq_of_testBit_eq
          intro i
          have := hbit i
          rw [hy, Bool.and_self] at this
          simp [this]
        omega

theorem is_power_of_two_spec (x : Nat) (hx : 1 ≤ x) (hlt : x < U32)
    (h : is_power_of_two x = true) : ∃ k, x = 2 ^ k := by
  have hpred : (x + U32 - 1) % U32 = x - 1 := by
    have : x + U32 - 1 = (x - 1) + U32 := by omega
    rw [this, Nat.add_mod_right, Nat.mod_eq_of_lt (by omega)]
  unfold is_power_of_two at h
  rw [hpred] at h
  exact pow_two_of_and_pred_eq_zero x hx (by simpa using h)

theorem pow_two_lt_pow_two_iff (k m : Nat) (h : 2 ^ k < 2 ^ m) : k < m :=
  (Nat.pow_lt_pow_iff_right (by decide : 1 < 2)).mp h

theorem pow_two_dvd_of_le (k m : Nat) (h : 2 ^ k ≤ 2 ^ m) : 2 ^ k ∣ 2 ^ m :=
  pow_dvd_pow 2 ((Nat.pow_le_pow_iff_right (by decide : 1 < 2)).mp h)

theorem double_pow_mod (k limit : Nat) (hlim : limit < 2 ^ 31) (hk : 2 ^ k ≤ limit) :
    (2 ^ k * 2) % U32 = 2 ^ (k + 1) ∧ k + 1 ≤ 31 := by
  have hk30 : k < 31 := pow_two_lt_pow_two_iff k 31 (by omega)
  have h2 : 2 ^ (k + 1) ≤ 2 ^ 31 := Nat.pow_le_pow_right (by decide) (by omega)
  refine ⟨?_, by omega⟩
  rw [← pow_succ]
  exact Nat.mod_eq_of_lt (by unfold U32; omega)

/-- Invariant rule for the sweep over `lanes_per_block`: with `lanes < 2 ^ 31`
and enough fuel the loop ends, and a property of the local variables that every
completed measurement preserves holds at the end. -/
theorem sweep_lanes_per_block_inv (probe : Nat → Nat → Nat → Probe) (lanes : Nat)
    (hl : lanes < 2 ^ 31) (Inv : Best → Prop)
    (hstep : ∀ (b : Best) (k n t : Nat), Inv b → 2 ^ k ≤ lanes →
      measure_soft (probe n (2 ^ k) b.best_jobs_per_block) = .time t →
      Inv (if b.best_time > t then
          { b with timed := b.timed ++ [(2 ^ k, b.best_jobs_per_block, t)],
                   best_time := t, best_lanes_per_block := 2 ^ k }
        else { b with timed := b.timed ++ [(2 ^ k, b.best_jobs_per_block, t)] })) :
    ∀ (fuel k n : Nat) (b : Best), k ≤ 31 → 32 ≤ fuel + k → Inv b →
      (∃ b2 n2, sweep_lanes_per_block probe lanes fuel n (2 ^ k) b = .ok (b2, n2) ∧ Inv b2) ∨
      (∃ msg, sweep_lanes_per_block probe lanes fuel n (2 ^ k) b = .fatal msg) := by
  intro fuel
  induction fuel with
  | zero => intro k n b hk hf; omega
  | succ fuel ih =>
    intro k n b hk hf hinv
    unfold sweep_lanes_per_block
    by_cases hle : 2 ^ k ≤ lanes
    · simp only [hle, if_true]
      cases hm : measure_soft (probe n (2 ^ k) b.best_jobs_per_block) with
      | broke => exact Or.inl ⟨b, n + 1, rfl, hinv⟩
      | fatal msg => exact Or.inr ⟨msg, rfl⟩
      | time t =>
        obtain ⟨hdouble, hk1⟩ := double_pow_mod k lanes hl hle
        simp only [hdouble]
        have hnext := hstep b k n t hinv hle hm
        by_cases hbt : b.best_time > t
        · simp only [hbt, if_true] at hnext ⊢
          exact ih (k + 1) (n + 1) _ hk1 (by omega) hnext
        · simp only [hbt, if_false] at hnext ⊢
          exact ih (k + 1) (n + 1) _ hk1 (by omega) hnext
    · simp only [hle, if_false]
      exact Or.inl ⟨b, n, rfl, hinv⟩

/-- Invariant rule for the sweep over `jobs_per_block`. -/
theorem sweep_jobs_per_block_inv (probe : Nat → Nat → Nat → Probe) (mkpc : Nat)
    (hl : mkpc < 2 ^ 31) (Inv : Best → Prop)
    (hstep : ∀ (b : Best) (k n t : Nat), Inv b → 2 ^ k ≤ mkpc →
      measure_soft (probe n b.best_lanes_per_block (2 ^ k)) = .time t →
      Inv (if b.best_time > t then
          { b with timed := b.timed ++ [(b.best_lanes_per_block, 2 ^ k, t)],
                   best_time := t, best_jobs_per_block := 2 ^ k }
        else { b with timed := b.timed ++ [(b.best_lanes_per_block, 2 ^ k, t)] })) :
    ∀ (fuel k n : Nat) (b : Best), k ≤ 31 → 32 ≤ fuel + k → Inv b →
      (∃ b2 n2, sweep_jobs_per_block probe mkpc fuel n (2 ^ k) b = .ok (b2, n2) ∧ Inv b2) ∨
      (∃ msg, sweep_jobs_per_block probe mkpc fuel n (2 ^ k) b = .fatal msg) := by
  intro fuel
  induction fuel with
  | zero => intro k n b hk hf; omega
  | succ fuel ih =>
    intro k n b hk hf hinv
    unfold sweep_jobs_per_block
    by_cases hle : 2 ^ k ≤ mkpc
    · simp only [hle, if_true]
      cases hm : measure_soft (probe n b.best_lanes_per_block (2 ^ k)) with
      | broke => exact Or.inl ⟨b, n + 1, rfl, hinv⟩
      | fatal msg => exact Or.inr ⟨msg, rfl⟩
      | time t =>
        obtain ⟨hdouble, hk1⟩ := double_pow_mod k mkpc hl hle
        simp only [hdouble]
        have hnext := hstep b k n t hinv hle hm
        by_cases hbt : b.best_time > t
        · simp only [hbt, if_true] at hnext ⊢
          exact ih (k + 1) (n + 1) _ hk1 (by omega) hnext
        · simp only [hbt, if_false] at hnext ⊢
          exact ih (k + 1) (n + 1) _ hk1 (by omega) hnext
    · simp only [hle, if_false]
      exact Or.inl ⟨b, n, rfl, hinv⟩

/-- Invariant rule for the measuring part of `autotune`: with `lanes` and
`max_keys_per_crypt` below `2 ^ 31` and fuel 32 or more the run ends (with a
result or a fatal diagnostic), and a property that holds after the baseline
and that every completed measurement of either sweep preserves holds of the
final local variables. -/
theorem autotune_measure_inv (dev : ProfilingDevice) (mkpc local_mem fuel lanes : Nat)
    (hl : lanes < 2 ^ 31) (hk : mkpc < 2 ^ 31) (hfuel : 32 ≤ fuel) (Inv : Best → Prop)
    (hbase : ∀ t0, measure_hard (dev.probe 0 1 1) = .ok t0 → Inv ⟨t0, 1, 1, [(1, 1, t0)]⟩)
    (hlpb : (∃ m, lanes = 2 ^ m) → ∀ (b : Best) (k n t : Nat), Inv b → 2 ^ k ≤ lanes →
      measure_soft (dev.probe n (2 ^ k) b.best_jobs_per_block) = .time t →
      Inv (if b.best_time > t then
          { b with timed := b.timed ++ [(2 ^ k, b.best_jobs_per_block, t)],
                   best_time := t, best_lanes_per_block := 2 ^ k }
        else { b with timed := b.timed ++ [(2 ^ k, b.best_jobs_per_block, t)] }))
    (hjpb : (∃ m, mkpc = 2 ^ m) → ∀ (b : Best) (k n t : Nat), Inv b → 2 ^ k ≤ mkpc →
      measure_soft (dev.probe n b.best_lanes_per_block (2 ^ k)) = .time t →
      Inv (if b.best_time > t then
          { b with timed := b.timed ++ [(b.best_lanes_per_block, 2 ^ k, t)],
                   best_time := t, best_jobs_per_block := 2 ^ k }
        else { b with timed := b.timed ++ [(b.best_lanes_per_block, 2 ^ k, t)] })) :
    autotune_measure dev mkpc local_mem fuel lanes ≠ .out_of_fuel ∧
    ∀ b w, autotune_measure dev mkpc local_mem fuel lanes = .ok (b, w) → Inv b := by
  unfold autotune_measure
  by_cases h1 : dev.set_lanes_ok = true
  swap
  · simp [h1]
  by_cases h2 : dev.set_segment_blocks_ok = true
  swap
  · simp [h1, h2]
  simp only [h1, h2, not_true, if_false]
  cases hm : measure_hard (dev.probe 0 1 1) with
  | error msg => simp
  | ok t0 =>
    simp only
    have hinv0 := hbase t0 hm
    -- first sweep
    have hr1 : (∃ b1 n1, (if lanes > 1 ∧ is_power_of_two lanes = true then
          sweep_lanes_per_block dev.probe lanes fuel 1 1 ⟨t0, 1, 1, [(1, 1, t0)]⟩
        else Run.ok ((⟨t0, 1, 1, [(1, 1, t0)]⟩ : Best), 1)) = .ok (b1, n1) ∧ Inv b1) ∨
        (∃ msg, (if lanes > 1 ∧ is_power_of_two lanes = true then
          sweep_lanes_per_block dev.probe lanes fuel 1 1 ⟨t0, 1, 1, [(1, 1, t0)]⟩
        else Run.ok ((⟨t0, 1, 1, [(1, 1, t0)]⟩ : Best), 1)) = .fatal msg) := by
      by_cases hc : lanes > 1 ∧ is_power_of_two lanes = true
      · simp only [hc, and_self, if_true]
        have hp := is_power_of_two_spec lanes (by omega) (by unfold U32; omega) hc.2
        have := sweep_lanes_per_block_inv dev.probe lanes hl Inv (hlpb hp) fuel 0 1
          ⟨t0, 1, 1, [(1, 1, t0)]⟩ (by omega) (by omega) hinv0
        simpa using this
      · simp only [hc, if_false]
        exact Or.inl ⟨_, _, rfl, hinv0⟩
    rcases hr1 with ⟨b1, n1, e1, hinv1⟩ | ⟨msg, e1⟩
    swap
    · rw [e1]; simp
    rw [e1]
    simp only
    have hr2 : (∃ b2 n2, (if b1.best_lanes_per_block = lanes ∧ mkpc > 1 ∧
          is_power_of_two mkpc = true then
          sweep_jobs_per_block dev.probe mkpc fuel n1 1 b1
        else Run.ok (b1, n1)) = .ok (b2, n2) ∧ Inv b2) ∨
        (∃ msg, (if b1.best_lanes_per_block = lanes ∧ mkpc > 1 ∧
          is_power_of_two mkpc = true then
          sweep_jobs_per_block dev.probe mkpc fuel n1 1 b1
        else Run.ok (b1, n1)) = .fatal msg) := by
      by_cases hc : b1.best_lanes_per_block = lanes ∧ mkpc > 1 ∧ is_power_of_two mkpc = true
      · simp only [hc, and_self, if_true]
        have hp := is_power_of_two_spec mkpc (by omega) (by unfold U32; omega) hc.2.2
        have := sweep_jobs_per_block_inv dev.probe mkpc hk Inv (hjpb hp) fuel 0 n1
          b1 (by omega) (by omega) hinv1
        simpa using this
      · simp only [hc, if_false]
        exact Or.inl ⟨_, _, rfl, hinv1⟩
    rcases hr2 with ⟨b2, n2, e2, hinv2⟩ | ⟨msg, e2⟩
    · rw [e2]
      refine ⟨by simp, ?_⟩
      intro b w hbw
      simp only [Run.ok.injEq, Prod.mk.injEq] at hbw
      rw [← hbw.1]; exact hinv2
    · rw [e2]; simp

theorem geometry_check_of_dvd (lanes mkpc lpb jpb : Nat) (hl : 1 ≤ lanes) (hk : 1 ≤ mkpc)
    (h1 : 1 ≤ lpb) (h2 : lpb ∣ lanes) (h3 : 1 ≤ jpb) (h4 : jpb ∣ mkpc) :
    geometry_check lanes mkpc lpb jpb = .ok () := by
  have a1 : ¬ lpb > lanes := Nat.not_lt.mpr (Nat.le_of_dvd (by omega) h2)
  have a2 : ¬ lpb = 0 := by omega
  have a3 : ¬ lanes % lpb ≠ 0 := by rw [Nat.mod_eq_zero_of_dvd h2]; simp
  have a4 : ¬ jpb > mkpc := Nat.not_lt.mpr (Nat.le_of_dvd (by omega) h4)
  have a5 : ¬ jpb = 0 := by omega
  have a6 : ¬ mkpc % jpb ≠ 0 := by rw [Nat.mod_eq_zero_of_dvd h4]; simp
  simp only [geometry_check, a1, a2, a3, a4, a5, a6, if_false]

/-- The divisibility property of the local variables of `autotune`. -/
theorem autotune_measure_divides (dev : ProfilingDevice) (mkpc local_mem fuel lanes : Nat)
    (hl : lanes < 2 ^ 31) (hk : mkpc < 2 ^ 31) (hfuel : 32 ≤ fuel) :
    autotune_measure dev mkpc local_mem fuel lanes ≠ .out_of_fuel ∧
    ∀ b w, autotune_measure dev mkpc local_mem fuel lanes = .ok (b, w) →
      1 ≤ b.best_lanes_per_block ∧ b.best_lanes_per_block ∣ lanes ∧
      1 ≤ b.best_jobs_per_block ∧ b.best_jobs_per_block ∣ mkpc := by
  apply autotune_measure_inv dev mkpc local_mem fuel lanes hl hk hfuel
    (fun b => 1 ≤ b.best_lanes_per_block ∧ b.best_lanes_per_block ∣ lanes ∧
      1 ≤ b.best_jobs_per_block ∧ b.best_jobs_per_block ∣ mkpc)
  · intro t0 _
    exact ⟨le_refl 1, one_dvd _, le_refl 1, one_dvd _⟩
  · rintro ⟨m, hm⟩ b k n t hinv hle _
    by_cases hbt : b.best_time > t
    · simp only [hbt, if_true]
      refine ⟨Nat.one_le_two_pow, ?_, hinv.2.2.1, hinv.2.2.2⟩
      rw [hm] at hle ⊢
      exact pow_two_dvd_of_le k m hle
    · simp only [hbt, if_false]
      exact hinv
  · rintro ⟨m, hm⟩ b k n t hinv hle _
    by_cases hbt : b.best_time > t
    · simp only [hbt, if_true]
      refine ⟨hinv.1, hinv.2.1, Nat.one_le_two_pow, ?_⟩
      rw [hm] at hle ⊢
      exact pow_two_dvd_of_le k m hle
    · simp only [hbt, if_false]
      exact hinv

/-- Shape of a successful `autotune` that measured: the index is defined and
inside the table, the entry was unmeasured, the measuring part returned the
final local variables, and the table holds them at that index afterwards. -/
theorem autotune_ok_some (dev : ProfilingDevice) (mkpc local_mem fuel : Nat) (t : Tuning)
    (type lanes sb : Nat) (t2 : Tuning) (b : Best)
    (h : autotune dev mkpc local_mem fuel t type lanes sb = .ok (t2, some b)) :
    ∃ index w, index_best_kernel_params t type lanes sb = some index ∧
      autotune_measure dev mkpc local_mem fuel lanes = .ok (b, w) ∧
      t2.best_kernel_params[index]? =
        some ⟨b.best_lanes_per_block, b.best_jobs_per_block⟩ := by
  unfold autotune at h
  cases hi : index_best_kernel_params t type lanes sb with
  | none => rw [hi] at h; simp at h
  | some index =>
    rw [hi] at h
    simp only at h
    cases he : t.best_kernel_params[index]? with
    | none => rw [he] at h; simp at h
    | some entry =>
      rw [he] at h
      simp only at h
      by_cases hz : entry.lanes_per_block ≠ 0
      · simp [hz] at h
      · simp only [hz, if_false] at h
        cases hm : autotune_measure dev mkpc local_mem fuel lanes with
        | out_of_fuel => rw [hm] at h; simp at h
        | fatal msg => rw [hm] at h; simp at h
        | ok r =>
          obtain ⟨b1, w⟩ := r
          rw [hm] at h
          simp only [Run.ok.injEq, Prod.mk.injEq, Option.some.injEq] at h
          obtain ⟨ht2, hb⟩ := h
          subst hb
          refine ⟨index, w, rfl, rfl, ?_⟩
          rw [← ht2]
          have hlt : index < t.best_kernel_params.length := by
            rcases List.getElem?_eq_some_iff.mp he with ⟨hlt, _⟩
            exact hlt
          simp [List.getElem?_set_self, hlt]

theorem autotune_not_out_of_fuel (dev : ProfilingDevice) (mkpc local_mem fuel : Nat)
    (t : Tuning) (type lanes sb : Nat)
    (h : autotune_measure dev mkpc local_mem fuel lanes ≠ .out_of_fuel) :
    autotune dev mkpc local_mem fuel t type lanes sb ≠ .out_of_fuel := by
  unfold autotune
  cases index_best_kernel_params t type lanes sb with
  | none => simp
  | some index =>
    simp only
    cases t.best_kernel_params[index]? with
    | none => simp
    | some entry =>
      simp only
      by_cases hz : entry.lanes_per_block ≠ 0
      · simp [hz]
      · simp only [hz, if_false]
        cases hm : autotune_measure dev mkpc local_mem fuel lanes with
        | out_of_fuel => exact absurd hm h
        | fatal msg => simp
        | ok r => simp

/-- The divisibility of the entry written by `autotune` for `lanes` and
`max_keys_per_crypt` below `2 ^ 31`. -/
theorem autotune_entry_divides_of (dev : ProfilingDevice) (mkpc local_mem fuel : Nat)
    (t : Tuning) (type lanes sb : Nat)
    (hl1 : 1 ≤ lanes) (hl : lanes < 2 ^ 31) (hk1 : 1 ≤ mkpc) (hk : mkpc < 2 ^ 31)
    (hfuel : 32 ≤ fuel) :
    autotune dev mkpc local_mem fuel t type lanes sb ≠ .out_of_fuel ∧
    ∀ t2 b, autotune dev mkpc local_mem fuel t type lanes sb = .ok (t2, some b) →
      ∃ index e, index_best_kernel_params t type lanes sb = some index ∧
        t2.best_kernel_params[index]? = some e ∧
        e = ⟨b.best_lanes_per_block, b.best_jobs_per_block⟩ ∧
        1 ≤ e.lanes_per_block ∧ 1 ≤ e.jobs_per_block ∧
        e.lanes_per_block ∣ lanes ∧ e.jobs_per_block ∣ mkpc ∧
        geometry_check lanes mkpc e.lanes_per_block e.jobs_per_block = .ok () := by
  obtain ⟨hfin, hdiv⟩ := autotune_measure_divides dev mkpc local_mem fuel lanes hl hk hfuel
  refine ⟨autotune_not_out_of_fuel dev mkpc local_mem fuel t type lanes sb hfin, ?_⟩
  intro t2 b h
  obtain ⟨index, w, hi, hm, he⟩ := autotune_ok_some dev mkpc local_mem fuel t type lanes sb t2 b h
  obtain ⟨d1, d2, d3, d4⟩ := hdiv b w hm
  exact ⟨index, _, hi, he, rfl, d1, d3, d2, d4,
    geometry_check_of_dvd lanes mkpc _ _ hl1 hk1 d1 d2 d3 d4⟩

/-- C5: for a key `(type, lanes, segment_blocks)` whose `lanes` are those of a
salt descriptor (so `lanes ≥ 1`), a batch size `max_keys_per_crypt ≥ 1` (an
`int`) and every behaviour of the runtime, measurements that break a sweep
early included, `autotune` ends, and the entry
`(lanes_per_block, jobs_per_block)` it writes satisfies
`lanes_per_block ≥ 1`, `jobs_per_block ≥ 1`, `lanes_per_block ∣ lanes` and
`jobs_per_block ∣ max_keys_per_crypt`; the two geometry checks of
`run_kernel_on_gpu` pass for that entry. -/
theorem autotune_entry_divides (dev : ProfilingDevice) (mkpc local_mem fuel : Nat)
    (t : Tuning) (type sb : Nat) (s : argon2_salt)
    (hs : salt_descriptor_ok s) (hk1 : 1 ≤ mkpc) (hk : mkpc < 2 ^ 31) (hfuel : 32 ≤ fuel) :
    autotune dev mkpc local_mem fuel t type s.lanes sb ≠ .out_of_fuel ∧
    ∀ t2 b, autotune dev mkpc local_mem fuel t type s.lanes sb = .ok (t2, some b) →
      ∃ index e, index_best_kernel_params t type s.lanes sb = some index ∧
        t2.best_kernel_params[index]? = some e ∧
        e = ⟨b.best_lanes_per_block, b.best_jobs_per_block⟩ ∧
        1 ≤ e.lanes_per_block ∧ 1 ≤ e.jobs_per_block ∧
        e.lanes_per_block ∣ s.lanes ∧ e.jobs_per_block ∣ mkpc ∧
        geometry_check s.lanes mkpc e.lanes_per_block e.jobs_per_block = .ok () := by
  obtain ⟨h1, _, h29, _, _⟩ := salt_descriptor_ok_lanes s hs
  exact autotune_entry_divides_of dev mkpc local_mem fuel t type s.lanes sb h1 (by omega) hk1 hk
    hfuel

/-- Instance of `autotune_entry_divides`: four lanes, a batch of eight, a
runtime that never fails; the run writes an entry and the entry divides. -/
theorem autotune_entry_divides_witness :
    ∃ t2 b index e,
      autotune sample_device 8 65536 32 sample_tuning 0
        (⟨4, 16384, 4, 32, 12, [], 0, 19⟩ : argon2_salt).lanes 1 = .ok (t2, some b) ∧
      index_best_kernel_params sample_tuning 0 4 1 = some index ∧
      t2.best_kernel_params[index]? = some e ∧
      1 ≤ e.lanes_per_block ∧ 1 ≤ e.jobs_per_block ∧
      e.lanes_per_block ∣ 4 ∧ e.jobs_per_block ∣ 8 ∧
      geometry_check 4 8 e.lanes_per_block e.jobs_per_block = .ok () := by
  have hrun : ∃ t2 b, autotune sample_device 8 65536 32 sample_tuning 0
      (⟨4, 16384, 4, 32, 12, [], 0, 19⟩ : argon2_salt).lanes 1 = .ok (t2, some b) :=
    ⟨_, _, rfl⟩
  obtain ⟨t2, b, hrun⟩ := hrun
  obtain ⟨index, e, h1, h2, _, h3, h4, h5, h6, h7⟩ :=
    (autotune_entry_divides sample_device 8 65536 32 sample_tuning 0 1
      ⟨4, 16384, 4, 32, 12, [], 0, 19⟩
      (by decide) (by decide) (by decide) (by decide)).2 t2 b hrun
  exact ⟨t2, b, index, e, hrun, h1, h2, h3, h4, h5, h6, h7⟩

theorem measure_soft_time (p : Probe) (t : Nat) (h : measure_soft p = .time t) :
    p.set_arg_ok = true ∧ p.warmup_ok = true ∧ p.profile_ok = true ∧ p.finish_ok = true := by
  unfold measure_soft at h
  split_ifs at h with h1 h2 h3 h4 h5 h6
  simp only [Bool.not_eq_true, Bool.not_eq_false] at h1 h2 h3 h4
  exact ⟨h1, h2, h3, h4⟩

theorem measure_hard_ok (p : Probe) (t : Nat) (h : measure_hard p = .ok t) :
    p.set_arg_ok = true ∧ p.warmup_ok = true ∧ p.profile_ok = true ∧ p.finish_ok = true := by
  unfold measure_hard at h
  split_ifs at h with h1 h2 h3 h4 h5 h6
  simp only [Bool.not_eq_true, Bool.not_eq_false] at h1 h2 h3 h4
  exact ⟨h1, h2, h3, h4⟩

/-- The local-memory property of the local variables of `autotune`, for a
runtime that refuses every measurement asking for more than the budget. -/
theorem autotune_measure_budget (dev : ProfilingDevice) (mkpc local_mem fuel lanes : Nat)
    (hl : lanes < 2 ^ 31) (hk : mkpc < 2 ^ 31) (hfuel : 32 ≤ fuel)
    (hrefuse : ∀ n lpb jpb, local_mem < shmem_size lpb jpb →
      (dev.probe n lpb jpb).set_arg_ok = false ∨ (dev.probe n lpb jpb).warmup_ok = false ∨
      (dev.probe n lpb jpb).profile_ok = false ∨ (dev.probe n lpb jpb).finish_ok = false) :
    ∀ b w, autotune_measure dev mkpc local_mem fuel lanes = .ok (b, w) →
      shmem_size b.best_lanes_per_block b.best_jobs_per_block ≤ local_mem := by
  have hfit : ∀ n lpb jpb,
      (dev.probe n lpb jpb).set_arg_ok = true ∧ (dev.probe n lpb jpb).warmup_ok = true ∧
      (dev.probe n lpb jpb).profile_ok = true ∧ (dev.probe n lpb jpb).finish_ok = true →
      shmem_size lpb jpb ≤ local_mem := by
    intro n lpb jpb hok
    by_contra hgt
    rcases hrefuse n lpb jpb (by omega) with h | h | h | h
    · rw [hok.1] at h; exact absurd h (by decide)
    · rw [hok.2.1] at h; exact absurd h (by decide)
    · rw [hok.2.2.1] at h; exact absurd h (by decide)
    · rw [hok.2.2.2] at h; exact absurd h (by decide)
  apply (autotune_measure_inv dev mkpc local_mem fuel lanes hl hk hfuel
    (fun b => shmem_size b.best_lanes_per_block b.best_jobs_per_block ≤ local_mem) ?_ ?_ ?_).2
  · intro t0 h0
    exact hfit 0 1 1 (measure_hard_ok _ t0 h0)
  · intro _ b k n t hinv _ hm
    by_cases hbt : b.best_time > t
    · simp only [hbt, if_true]
      exact hfit n _ _ (measure_soft_time _ t hm)
    · simp only [hbt, if_false]
      exact hinv
  · intro _ b k n t hinv _ hm
    by_cases hbt : b.best_time > t
    · simp only [hbt, if_true]
      exact hfit n _ _ (measure_soft_time _ t hm)
    · simp only [hbt, if_false]
      exact hinv

theorem shmem_size_exact (lanes mkpc lpb jpb : Nat) (h1 : lpb ≤ lanes) (h2 : jpb ≤ mkpc)
    (hnowrap : THREADS_PER_LANE * lanes * mkpc < U32) :
    shmem_size lpb jpb = THREADS_PER_LANE * lpb * jpb * 8 := by
  have hle : THREADS_PER_LANE * lpb * jpb ≤ THREADS_PER_LANE * lanes * mkpc :=
    Nat.mul_le_mul (Nat.mul_le_mul_left _ h1) h2
  have hlt : THREADS_PER_LANE * lpb * jpb < U32 := by omega
  unfold shmem_size
  rw [Nat.mod_mul_mod, Nat.mod_eq_of_lt hlt, Nat.mod_eq_of_lt (by unfold U32 at hlt; unfold U64; omega)]
  omega

/-- C6 (amended): `autotune` compares no geometry with the local-memory
budget (for the baseline it only prints a diagnostic), so the entry it writes
is within the budget only as far as the runtime enforces it: when the runtime
refuses every measurement whose requested local memory exceeds the budget,
`autotune` ends and the entry it writes asks for at most the budget, and the
request equals `THREADS_PER_LANE · lanes_per_block · jobs_per_block · 8` when
`THREADS_PER_LANE · lanes · max_keys_per_crypt` is a 32-bit value. -/
theorem autotune_entry_within_budget (dev : ProfilingDevice) (mkpc local_mem fuel : Nat)
    (t : Tuning) (type sb : Nat) (s : argon2_salt)
    (hs : salt_descriptor_ok s) (hk1 : 1 ≤ mkpc) (hk : mkpc < 2 ^ 31) (hfuel : 32 ≤ fuel)
    (hrefuse : ∀ n lpb jpb, local_mem < shmem_size lpb jpb →
      (dev.probe n lpb jpb).set_arg_ok = false ∨ (dev.probe n lpb jpb).warmup_ok = false ∨
      (dev.probe n lpb jpb).profile_ok = false ∨ (dev.probe n lpb jpb).finish_ok = false) :
    autotune dev mkpc local_mem fuel t type s.lanes sb ≠ .out_of_fuel ∧
    ∀ t2 b, autotune dev mkpc local_mem fuel t type s.lanes sb = .ok (t2, some b) →
      ∃ index e, index_best_kernel_params t type s.lanes sb = some index ∧
        t2.best_kernel_params[index]? = some e ∧
        shmem_size e.lanes_per_block e.jobs_per_block ≤ local_mem ∧
        (THREADS_PER_LANE * s.lanes * mkpc < U32 →
          THREADS_PER_LANE * e.lanes_per_block * e.jobs_per_block * 8 ≤ local_mem) := by
  obtain ⟨hl1, _, h29, _, _⟩ := salt_descriptor_ok_lanes s hs
  have hl : s.lanes < 2 ^ 31 := by omega
  obtain ⟨hfin, hdiv⟩ := autotune_measure_divides dev mkpc local_mem fuel s.lanes hl hk hfuel
  refine ⟨autotune_not_out_of_fuel dev mkpc local_mem fuel t type s.lanes sb hfin, ?_⟩
  intro t2 b h
  obtain ⟨index, w, hi, hm, he⟩ :=
    autotune_ok_some dev mkpc local_mem fuel t type s.lanes sb t2 b h
  obtain ⟨_, d2, _, d4⟩ := hdiv b w hm
  have hb := autotune_measure_budget dev mkpc local_mem fuel s.lanes hl hk hfuel hrefuse b w hm
  refine ⟨index, _, hi, he, hb, ?_⟩
  intro hnowrap
  rw [← shmem_size_exact s.lanes mkpc _ _ (Nat.le_of_dvd (by omega) d2)
    (Nat.le_of_dvd (by omega) d4) hnowrap]
  exact hb

/-- Instance of `autotune_entry_within_budget`: one lane, a batch of 256 and a
32 KiB budget enforced by the runtime. -/
theorem autotune_entry_within_budget_witness :
    ∃ t2 b index e,
      autotune (budget_device 32768) 256 32768 32 sample_tuning 0
        (⟨3, 4096, 1, 32, 11, [], 0, 19⟩ : argon2_salt).lanes 1 = .ok (t2, some b) ∧
      index_best_kernel_params sample_tuning 0 1 1 = some index ∧
      t2.best_kernel_params[index]? = some e ∧
      THREADS_PER_LANE * e.lanes_per_block * e.jobs_per_block * 8 ≤ 32768 := by
  have hrun : ∃ t2 b,
      autotune (budget_device 32768) 256 32768 32 sample_tuning 0
        (⟨3, 4096, 1, 32, 11, [], 0, 19⟩ : argon2_salt).lanes 1 = .ok (t2, some b) :=
    ⟨_, _, rfl⟩
  obtain ⟨t2, b, hrun⟩ := hrun
  obtain ⟨index, e, h1, h2, _, h3⟩ :=
    (autotune_entry_within_budget (budget_device 32768) 256 32768 32 sample_tuning 0 1
      ⟨3, 4096, 1, 32, 11, [], 0, 19⟩
      (by decide) (by decide) (by decide) (by decide)
      (by
        intro n lpb jpb h
        left
        simp only [budget_device, decide_eq_false_iff_not, not_le]
        exact h)).2 t2 b hrun
  exact ⟨t2, b, index, e, hrun, h1, h2, h3 (by decide)⟩

/-- C6 (counterexample): with one lane, a batch of 256, a 32 KiB budget and a
runtime in which every call succeeds, `autotune` writes the entry `(1, 256)`,
which asks for 64 KiB of local memory. -/
theorem autotune_over_budget_counterexample :
    ∃ t2 b e, autotune sample_device 256 32768 32 sample_tuning 0 1 1 = .ok (t2, some b) ∧
      t2.best_kernel_params[3]? = some e ∧ e = ⟨1, 256⟩ ∧
      32768 < THREADS_PER_LANE * e.lanes_per_block * e.jobs_per_block * 8 :=
  ⟨_, _, _, rfl, rfl, rfl, by decide⟩

/-! ## The memory planner -/

theorem reset_alloc_loop_all_fail (fuel n k size : Nat) (requests : List (Nat × Nat)) :
    reset_alloc_loop (fun _ _ => false) fuel n k size requests = .out_of_fuel := by
  induction fuel generalizing n k size requests with
  | zero => rfl
  | succ fuel ih => simp [reset_alloc_loop, ih]

/-- C7 (the code at the failing input): starting from a batch size of 1, a
device allocator that refuses every request keeps the loop of `reset` running
whatever the number of steps allowed; and when the allocator refuses the first
request and grants the second, the second request is made with a batch size of
0, the loop ends with that batch size, and only the assertion after the loop
stops the run. -/
theorem reset_alloc_loop_ignores_zero :
    (∀ fuel, reset_allocate (fun _ _ => false) fuel 1 8192 = .out_of_fuel) ∧
    reset_alloc_loop (fun n _ => decide (1 ≤ n)) 2 0 1 8192 [] =
      .ok (0, 4096, [(1, 8192), (0, 4096)]) ∧
    reset_allocate (fun n _ => decide (1 ≤ n)) 2 1 8192 =
      .fatal "assertion failed: MAX_KEYS_PER_CRYPT >= 1" := by
  refine ⟨?_, rfl, rfl⟩
  intro fuel
  simp [reset_allocate, reset_alloc_loop_all_fail]

theorem le_foldl_max (xs : List Nat) (a : Nat) : a ≤ xs.foldl max a := by
  induction xs generalizing a with
  | nil => exact le_refl a
  | cons x xs ih => exact le_trans (le_max_left a x) (ih (max a x))

theorem mem_le_foldl_max (xs : List Nat) (a x : Nat) (h : x ∈ xs) : x ≤ xs.foldl max a := by
  induction xs generalizing a with
  | nil => simp at h
  | cons y ys ih =>
    rcases List.mem_cons.mp h with rfl | h2
    · exact le_trans (le_max_right a x) (le_foldl_max ys (max a x))
    · exact ih (max a y) h2

theorem foldl_max_eq_or_mem (xs : List Nat) (a : Nat) :
    xs.foldl max a = a ∨ xs.foldl max a ∈ xs := by
  induction xs generalizing a with
  | nil => exact Or.inl rfl
  | cons y ys ih =>
    rcases ih (max a y) with h | h
    · rcases le_total a y with hay | hay
      · right; rw [List.foldl_cons, h, max_eq_right hay]; exact List.mem_cons_self y ys
      · left; rw [List.foldl_cons, h, max_eq_left hay]
    · right; exact List.mem_cons_of_mem y h

theorem MAX_eq_max (a b : Nat) : MAX a b = max a b := by
  unfold MAX
  by_cases h : a > b
  · simp only [h, if_true]; exact (max_eq_left (le_of_lt h)).symm
  · simp only [h, if_false]; exact (max_eq_right (not_lt.mp h)).symm

theorem ite_lt_eq_max (a b : Nat) : (if a < b then b else a) = max a b := by
  by_cases h : a < b
  · simp only [h, if_true]; exact (max_eq_right (le_of_lt h)).symm
  · simp only [h, if_false]; exact (max_eq_left (not_lt.mp h)).symm

theorem salt_segment_blocks_eq (s : argon2_salt) (h1 : 1 ≤ s.lanes)
    (h4 : s.lanes * ARGON2_SYNC_POINTS < U32) :
    segment_blocks s.m_cost s.lanes = some (salt_segment_blocks s) := by
  rw [segment_blocks_eq s.m_cost s.lanes h1 h4, MAX_eq_max]
  unfold salt_segment_blocks ARGON2_SYNC_POINTS
  rw [Nat.mul_comm s.lanes 4]

theorem segment_blocks_mul_le (s : argon2_salt) :
    salt_segment_blocks s * (4 * s.lanes) ≤ max s.m_cost (8 * s.lanes) := by
  unfold salt_segment_blocks
  rcases le_total (s.m_cost / (4 * s.lanes)) 2 with h | h
  · rw [max_eq_right h]
    exact le_trans (by omega) (le_max_right _ _)
  · rw [max_eq_left h]
    exact le_trans (Nat.div_mul_le_self _ _) (le_max_left _ _)

theorem memory_size_eq_footprint (s : argon2_salt) (h1 : 1 ≤ s.lanes)
    (h4 : s.lanes * ARGON2_SYNC_POINTS < U32) (hm : s.m_cost < U32) :
    memory_size (salt_segment_blocks s) s.lanes = salt_footprint s := by
  have hb := segment_blocks_mul_le s
  have hmax : max s.m_cost (8 * s.lanes) < 2 ^ 33 := by
    unfold U32 ARGON2_SYNC_POINTS at *
    exact max_lt (by omega) (by omega)
  have hprod : salt_segment_blocks s * 4 * s.lanes < 2 ^ 33 := by
    have : salt_segment_blocks s * 4 * s.lanes = salt_segment_blocks s * (4 * s.lanes) := by
      rw [Nat.mul_assoc]
    omega
  have hsb4 : salt_segment_blocks s * 4 < 2 ^ 33 := by
    have : salt_segment_blocks s * 4 * 1 ≤ salt_segment_blocks s * 4 * s.lanes :=
      Nat.mul_le_mul_left _ h1
    omega
  unfold memory_size salt_footprint ARGON2_SYNC_POINTS ARGON2_BLOCK_SIZE U64
  rw [Nat.mod_eq_of_lt (by omega : salt_segment_blocks s * 4 < 2 ^ 64),
    Nat.mod_eq_of_lt (by omega : salt_segment_blocks s * 4 * s.lanes < 2 ^ 64),
    Nat.mod_eq_of_lt (by omega : salt_segment_blocks s * 4 * s.lanes * 1024 < 2 ^ 64)]
  ring

theorem reset_scan_salts_eq (salts : List argon2_salt) (st : ScanState)
    (hs : ∀ s ∈ salts, 1 ≤ s.lanes ∧ s.lanes * ARGON2_SYNC_POINTS < U32 ∧ s.m_cost < U32) :
    reset_scan_salts salts st = some
      ⟨(salts.map (fun s => s.lanes)).foldl max st.max_salt_lanes,
       (salts.map salt_segment_blocks).foldl max st.max_segment_blocks,
       (salts.map salt_footprint).foldl max st.max_memory_size⟩ := by
  induction salts generalizing st with
  | nil => rfl
  | cons s rest ih =>
    obtain ⟨h1, h4, hm⟩ := hs s (List.mem_cons_self s rest)
    have hrest : ∀ s2 ∈ rest, 1 ≤ s2.lanes ∧ s2.lanes * ARGON2_SYNC_POINTS < U32 ∧
        s2.m_cost < U32 := fun s2 h => hs s2 (List.mem_cons_of_mem s h)
    simp only [reset_scan_salts, salt_segment_blocks_eq s h1 h4,
      memory_size_eq_footprint s h1 h4 hm, ite_lt_eq_max, ih _ hrest, List.map_cons,
      List.foldl_cons]

/-- The first device request of `reset` for salts with `lanes ≥ 1` whose
`4 · lanes` and `m_cost` are 32-bit values. -/
theorem reset_first_request_max_footprint_of (salts : List argon2_salt) (mkpc : Nat)
    (hne : salts ≠ [])
    (hs : ∀ s ∈ salts, 1 ≤ s.lanes ∧ s.lanes * ARGON2_SYNC_POINTS < U32 ∧ s.m_cost < U32) :
    ∃ st, reset_scan_salts salts ⟨0, 0, 0⟩ = some st ∧
      st.max_salt_lanes = list_max (salts.map (fun s => s.lanes)) ∧
      st.max_segment_blocks = list_max (salts.map salt_segment_blocks) ∧
      st.max_memory_size = list_max (salts.map salt_footprint) ∧
      reset_first_request salts mkpc =
        some ((list_max (salts.map salt_footprint) * mkpc) % U64) ∧
      list_max (salts.map salt_footprint) * mkpc ≤
        mkpc * st.max_salt_lanes * 4 * st.max_segment_blocks * 1024 ∧
      ((∃ s ∈ salts, s.lanes = st.max_salt_lanes ∧
          salt_segment_blocks s = st.max_segment_blocks) →
        list_max (salts.map salt_footprint) * mkpc =
          mkpc * st.max_salt_lanes * 4 * st.max_segment_blocks * 1024) := by
  have hscan := reset_scan_salts_eq salts ⟨0, 0, 0⟩ hs
  obtain ⟨s0, hs0⟩ := List.exists_mem_of_ne_nil salts hne
  have hl0 : 1 ≤ list_max (salts.map (fun s => s.lanes)) :=
    le_trans (hs s0 hs0).1 (mem_le_foldl_max _ 0 _ (List.mem_map_of_mem _ hs0))
  have hfoot_pos : ∀ s ∈ salts, 1 ≤ salt_footprint s := by
    intro s h
    have h2 : 2 ≤ salt_segment_blocks s := le_max_right _ _
    have h1 := (hs s h).1
    unfold salt_footprint
    have : 1 * 1 ≤ (1024 * s.lanes * 4) * salt_segment_blocks s :=
      Nat.mul_le_mul (by omega) (by omega)
    omega
  have hf0 : 1 ≤ list_max (salts.map salt_footprint) :=
    le_trans (hfoot_pos s0 hs0) (mem_le_foldl_max _ 0 _ (List.mem_map_of_mem _ hs0))
  have hle_each : ∀ s ∈ salts, salt_footprint s ≤
      list_max (salts.map (fun s => s.lanes)) * 4 * list_max (salts.map salt_segment_blocks)
        * 1024 := by
    intro s h
    have a : s.lanes ≤ list_max (salts.map (fun s => s.lanes)) :=
      mem_le_foldl_max _ 0 _ (List.mem_map_of_mem _ h)
    have b : salt_segment_blocks s ≤ list_max (salts.map salt_segment_blocks) :=
      mem_le_foldl_max _ 0 _ (List.mem_map_of_mem _ h)
    unfold salt_footprint
    calc 1024 * s.lanes * 4 * salt_segment_blocks s
        = s.lanes * 4 * salt_segment_blocks s * 1024 := by ring
      _ ≤ list_max (salts.map (fun s => s.lanes)) * 4 * list_max (salts.map salt_segment_blocks)
            * 1024 :=
          Nat.mul_le_mul_right _ (Nat.mul_le_mul (Nat.mul_le_mul_right _ a) b)
  have hle : list_max (salts.map salt_footprint) ≤
      list_max (salts.map (fun s => s.lanes)) * 4 * list_max (salts.map salt_segment_blocks)
        * 1024 := by
    rcases foldl_max_eq_or_mem (salts.map salt_footprint) 0 with h | h
    · unfold list_max; rw [h]; exact Nat.zero_le _
    · obtain ⟨s, hmem, hseq⟩ := List.mem_map.mp h
      have hseq2 : salt_footprint s = list_max (salts.map salt_footprint) := hseq
      rw [← hseq2]
      exact hle_each s hmem
  refine ⟨_, hscan, rfl, rfl, rfl, ?_, ?_, ?_⟩
  · unfold reset_first_request
    rw [hscan]
    have hc : list_max (salts.map (fun s => s.lanes)) > 0 ∧
        list_max (salts.map salt_footprint) > 0 := ⟨hl0, hf0⟩
    simp only [list_max] at hc ⊢
    simp only [hc, and_self, if_true]
  · calc list_max (salts.map salt_footprint) * mkpc
        ≤ (list_max (salts.map (fun s => s.lanes)) * 4 *
            list_max (salts.map salt_segment_blocks) * 1024) * mkpc :=
          Nat.mul_le_mul_right _ hle
      _ = mkpc * list_max (salts.map (fun s => s.lanes)) * 4 *
            list_max (salts.map salt_segment_blocks) * 1024 := by ring
  · rintro ⟨s, hmem, hl, hsb⟩
    have hge : list_max (salts.map (fun s => s.lanes)) * 4 *
        list_max (salts.map salt_segment_blocks) * 1024 ≤ list_max (salts.map salt_footprint) := by
      have hfs : salt_footprint s = list_max (salts.map (fun s => s.lanes)) * 4 *
          list_max (salts.map salt_segment_blocks) * 1024 := by
        unfold salt_footprint
        rw [hsb, hl]
        simp only [list_max]
        ring
      rw [← hfs]
      exact mem_le_foldl_max _ 0 _ (List.mem_map_of_mem _ hmem)
    have heq := le_antisymm hle hge
    simp only [list_max] at heq ⊢
    rw [heq]
    ring

/-- C8 (amended): for a non-empty list of salt descriptors and any batch size,
the scan of `reset` yields the three maxima separately, and the byte size of
the first device request is `max_keys_per_crypt` times the largest
single-salt footprint `1024 · lanes · 4 · segment_blocks` (in `size_t`
arithmetic).  That is at most
`max_keys_per_crypt · max_lanes · 4 · max_segment_blocks · 1024` and equals it
when one salt attains both maxima. -/
theorem reset_first_request_max_footprint (salts : List argon2_salt) (mkpc : Nat)
    (hne : salts ≠ []) (hs : ∀ s ∈ salts, salt_descriptor_ok s) :
    ∃ st, reset_scan_salts salts ⟨0, 0, 0⟩ = some st ∧
      st.max_salt_lanes = list_max (salts.map (fun s => s.lanes)) ∧
      st.max_segment_blocks = list_max (salts.map salt_segment_blocks) ∧
      st.max_memory_size = list_max (salts.map salt_footprint) ∧
      reset_first_request salts mkpc =
        some ((list_max (salts.map salt_footprint) * mkpc) % U64) ∧
      list_max (salts.map salt_footprint) * mkpc ≤
        mkpc * st.max_salt_lanes * 4 * st.max_segment_blocks * 1024 ∧
      ((∃ s ∈ salts, s.lanes = st.max_salt_lanes ∧
          salt_segment_blocks s = st.max_segment_blocks) →
        list_max (salts.map salt_footprint) * mkpc =
          mkpc * st.max_salt_lanes * 4 * st.max_segment_blocks * 1024) :=
  reset_first_request_max_footprint_of salts mkpc hne (fun s h =>
    ⟨(salt_descriptor_ok_lanes s (hs s h)).1, (salt_descriptor_ok_lanes s (hs s h)).2.1,
     (salt_descriptor_ok_lanes s (hs s h)).2.2.2.1⟩)

/-- Instance of `reset_first_request_max_footprint`: the database of the two
built-in test shapes `m=4096, p=1` and `m=16384, p=3`, batch size 256. -/
theorem reset_first_request_max_footprint_witness :
    reset_first_request
      [⟨3, 4096, 1, 32, 11, [], 0, 19⟩, ⟨4, 16384, 3, 32, 12, [], 1, 19⟩] 256
      = some (16773120 * 256) := by
  obtain ⟨st, _, _, _, _, h, _, _⟩ := reset_first_request_max_footprint
    [⟨3, 4096, 1, 32, 11, [], 0, 19⟩, ⟨4, 16384, 3, 32, 12, [], 1, 19⟩] 256
    (by decide)
    (by
      intro s hs
      simp only [List.mem_cons, List.mem_singleton, List.not_mem_nil, or_false] at hs
      rcases hs with rfl | rfl <;> decide)
  rw [h]
  decide

/-- C8 (counterexample): for the two salts `m=4096, p=1` and `m=32, p=4` and a
batch size of 1, `reset` finds `max_lanes = 4` and `max_segment_blocks = 1024`
but requests 4 MiB, the footprint of the first salt, and not
`1 · 4 · 4 · 1024 · 1024` bytes (16 MiB). -/
theorem reset_first_request_counterexample :
    reset_scan_salts [⟨3, 4096, 1, 32, 11, [], 0, 19⟩, ⟨3, 32, 4, 32, 11, [], 0, 19⟩] ⟨0, 0, 0⟩
      = some ⟨4, 1024, 4194304⟩ ∧
    reset_first_request [⟨3, 4096, 1, 32, 11, [], 0, 19⟩, ⟨3, 32, 4, 32, 11, [], 0, 19⟩] 1
      = some 4194304 ∧
    4194304 < 1 * 4 * 4 * 1024 * 1024 := by
  refine ⟨by decide, by decide, by decide⟩

/-- Below 4 GiB per candidate the 32-bit `jobSize` of the driver is the exact
footprint, and so agrees with the `memory_size` of `reset`. -/
theorem jobSize_eq_footprint (s : argon2_salt) (h1 : 1 ≤ s.lanes)
    (h4 : s.lanes * ARGON2_SYNC_POINTS < U32) (hm : s.m_cost < U32)
    (hfit : salt_footprint s < U32) :
    jobSize (salt_segment_blocks s) s.lanes = salt_footprint s ∧
    jobSize (salt_segment_blocks s) s.lanes = memory_size (salt_segment_blocks s) s.lanes := by
  have hfoot : salt_footprint s = salt_segment_blocks s * 4 * s.lanes * 1024 := by
    unfold salt_footprint; ring
  have hp : salt_segment_blocks s * 4 * s.lanes * 1024 < U32 := by rw [← hfoot]; exact hfit
  have hp2 : salt_segment_blocks s * 4 * s.lanes < U32 := by omega
  have hp3 : salt_segment_blocks s * 4 < U32 := by
    have : salt_segment_blocks s * 4 * 1 ≤ salt_segment_blocks s * 4 * s.lanes :=
      Nat.mul_le_mul_left _ h1
    omega
  have hjob : jobSize (salt_segment_blocks s) s.lanes = salt_footprint s := by
    unfold jobSize ARGON2_SYNC_POINTS ARGON2_BLOCK_SIZE
    rw [Nat.mod_eq_of_lt hp3, Nat.mod_eq_of_lt hp2, Nat.mod_eq_of_lt hp, hfoot]
  exact ⟨hjob, by rw [hjob, memory_size_eq_footprint s h1 h4 hm]⟩

/-- C9 (the code at the failing input): for the salt `m_cost = 4194304`
(4 GiB), `lanes = 1` the segment has `1048576` blocks; the 32-bit product
`jobSize` of `run_kernel_on_gpu` wraps to 0, while `reset` computes
`memory_size = 4294967296 = 1024 · 1 · 4 · 1048576` for the same salt. -/
theorem jobSize_wraps_at_four_gib :
    segment_blocks 4194304 1 = some 1048576 ∧
    jobSize 1048576 1 = 0 ∧
    memory_size 1048576 1 = 4294967296 ∧
    1024 * 1 * 4 * 1048576 = 4294967296 := by
  refine ⟨by decide, by decide, by decide, by decide⟩

/-! ## The finalizer -/

theorem word_bytes_le_word (bs : List Nat) (hlen : bs.length = 8) (hb : ∀ b ∈ bs, b < 256) :
    word_bytes (le_word bs) = bs := by
  match bs, hlen with
  | [b0, b1, b2, b3, b4, b5, b6, b7], _ =>
    have h0 := hb b0 (by simp)
    have h1 := hb b1 (by simp)
    have h2 := hb b2 (by simp)
    have h3 := hb b3 (by simp)
    have h4 := hb b4 (by simp)
    have h5 := hb b5 (by simp)
    have h6 := hb b6 (by simp)
    have h7 := hb b7 (by simp)
    simp only [word_bytes, le_word, List.range_succ, List.range_zero, List.nil_append,
      List.cons_append, List.map_cons, List.map_nil]
    norm_num
    refine ⟨?_, ?_, ?_, ?_, ?_, ?_, ?_, ?_⟩ <;> omega

theorem div_mod_xor (x y k : Nat) :
    ((x ^^^ y) / 256 ^ k) % 256 = ((x / 256 ^ k) % 256) ^^^ ((y / 256 ^ k) % 256) := by
  have h256 : (256 : Nat) = 2 ^ 8 := by norm_num
  have hpow : (256 : Nat) ^ k = 2 ^ (8 * k) := by rw [h256, ← pow_mul]
  rw [hpow, h256]
  apply Nat.eq_of_testBit_eq
  intro i
  simp only [Nat.testBit_mod_two_pow, Nat.testBit_xor, ← Nat.shiftRight_eq_div_pow,
    Nat.testBit_shiftRight]
  by_cases hi : i < 8 <;> simp [hi]

theorem word_bytes_xor (x y : Nat) :
    word_bytes (x ^^^ y) = List.zipWith (· ^^^ ·) (word_bytes x) (word_bytes y) := by
  simp only [word_bytes, List.range_succ, List.range_zero, List.nil_append,
    List.cons_append, List.map_cons, List.map_nil, List.zipWith_cons_cons,
    List.zipWith_nil_left, div_mod_xor]

theorem chunks_eq_take (l : List Nat) (n : Nat) :
    (List.range n).flatMap (fun j => (l.drop (8 * j)).take 8) = l.take (8 * n) := by
  induction n with
  | zero => simp
  | succ n ih =>
    rw [List.range_succ, List.flatMap_append, ih]
    simp only [List.flatMap_cons, List.flatMap_nil, List.append_nil]
    rw [Nat.mul_succ, List.take_add]

theorem flatMap_zipWith_xor (a b : List Nat) (h : a.length = b.length) :
    (List.zipWith (· ^^^ ·) a b).flatMap word_bytes =
      List.zipWith (· ^^^ ·) (a.flatMap word_bytes) (b.flatMap word_bytes) := by
  induction a generalizing b with
  | nil => simp
  | cons x xs ih =>
    cases b with
    | nil => simp at h
    | cons y ys =>
      simp only [List.length_cons, Nat.add_right_cancel_iff] at h
      simp only [List.zipWith_cons_cons, List.flatMap_cons, ih ys h, word_bytes_xor]
      rw [List.zipWith_append]
      simp [word_bytes]

/-- A block loaded from the buffer has 128 words and lies in memory as the
1024 bytes it was read from. -/
theorem load_block_spec (mem : List Nat) (off : Nat) (hoff : off + 1024 ≤ mem.length)
    (hb : ∀ b ∈ mem, b < 256) :
    ∃ blk, load_block mem off = some blk ∧ blk.length = 128 ∧
      blk.flatMap word_bytes = (mem.drop off).take 1024 := by
  have hcond : off + ARGON2_BLOCK_SIZE ≤ mem.length := hoff
  have hload : load_block mem off = some ((List.range (ARGON2_BLOCK_SIZE / 8)).map
      (fun j => le_word ((mem.drop (off + 8 * j)).take 8))) := by
    simp only [load_block, hcond, if_true]
  refine ⟨_, hload, by simp [ARGON2_BLOCK_SIZE], ?_⟩
  rw [List.flatMap_map]
  have hchunk : ∀ j ∈ List.range (ARGON2_BLOCK_SIZE / 8),
      word_bytes (le_word ((mem.drop (off + 8 * j)).take 8)) =
        (((mem.drop off).drop (8 * j)).take 8) := by
    intro j hj
    have hj2 : j < 128 := by simpa [ARGON2_BLOCK_SIZE] using hj
    rw [List.drop_drop]
    apply word_bytes_le_word
    · rw [List.length_take, List.length_drop]; omega
    · intro b hmem
      exact hb b (List.mem_of_mem_drop (List.mem_of_mem_take hmem))
  rw [List.flatMap_congr hchunk, chunks_eq_take]
  rfl

theorem lane_block_shift (mem : List Nat) (cursor j : Nat) :
    lane_block mem (cursor + 1024) (j + 1) = lane_block mem cursor (j + 1 + 1) := by
  unfold lane_block
  have : cursor + 1024 + (j + 1) * 1024 = cursor + (j + 1 + 1) * 1024 := by ring
  rw [this]

/-- The lane loop: starting from an accumulator of 128 words, `n` further
blocks are folded in, and in memory the result is the byte-wise XOR of the
accumulator with those blocks. -/
theorem xor_lanes_spec (mem : List Nat) (hb : ∀ b ∈ mem, b < 256) :
    ∀ (n cursor : Nat) (acc : List Nat), acc.length = 128 →
      cursor + (n + 1) * 1024 ≤ mem.length →
      ∃ r, xor_lanes mem n cursor acc = some r ∧ r.length = 128 ∧
        r.flatMap word_bytes =
          ((List.range n).map (fun j => lane_block mem cursor (j + 1))).foldl
            (List.zipWith (· ^^^ ·)) (acc.flatMap word_bytes) := by
  intro n
  induction n with
  | zero =>
    intro cursor acc hacc _
    exact ⟨acc, rfl, hacc, rfl⟩
  | succ n ih =>
    intro cursor acc hacc hlen
    obtain ⟨blk, hload, hblk, hbytes⟩ := load_block_spec mem (cursor + 1024) (by omega) hb
    have hacc2 : (List.zipWith (· ^^^ ·) acc blk).length = 128 := by
      rw [List.length_zipWith, hacc, hblk]; rfl
    obtain ⟨r, hr, hrlen, hrbytes⟩ := ih (cursor + 1024) (List.zipWith (· ^^^ ·) acc blk) hacc2
      (by omega)
    refine ⟨r, ?_, hrlen, ?_⟩
    · have hload2 : load_block mem (cursor + ARGON2_BLOCK_SIZE) = some blk := hload
      simp only [xor_lanes, hload2]
      exact hr
    · rw [hrbytes, flatMap_zipWith_xor acc blk (by rw [hacc, hblk]), hbytes,
        List.range_succ_eq_map, List.map_cons, List.foldl_cons, List.map_map]
      have hfun : ((fun j => lane_block mem cursor (j + 1)) ∘ Nat.succ) =
          (fun j => lane_block mem (cursor + 1024) (j + 1)) := by
        funext j
        simp only [Function.comp, Nat.succ_eq_add_one]
        exact (lane_block_shift mem cursor j).symm
      rw [hfun]
      have h1 : lane_block mem cursor (0 + 1) = (mem.drop (cursor + 1024)).take 1024 := by
        unfold lane_block
        have : cursor + (0 + 1) * 1024 = cursor + 1024 := by ring
        rw [this]
      rw [h1]

theorem zipWith_xor_zero (b : List Nat) (n : Nat) (h : b.length = n) :
    List.zipWith (· ^^^ ·) (List.replicate n 0) b = b := by
  induction b generalizing n with
  | nil => simp
  | cons x xs ih =>
    cases n with
    | zero => simp at h
    | succ n =>
      simp only [List.length_cons, Nat.add_right_cancel_iff] at h
      simp [List.replicate_succ, ih n h]

theorem length_flatMap_word_bytes (l : List Nat) :
    (l.flatMap word_bytes).length = 8 * l.length := by
  induction l with
  | nil => rfl
  | cons x xs ih =>
    rw [List.flatMap_cons, List.length_append, ih, List.length_cons]
    simp [word_bytes]
    omega

theorem xor_bytes_succ (mem : List Nat) (m i : Nat)
    (h0 : (lane_block mem (i * (m + 1) * 1024) 0).length = 1024) :
    xor_bytes mem (m + 1) i =
      ((List.range m).map (fun j => lane_block mem (i * (m + 1) * 1024) (j + 1))).foldl
        (List.zipWith (· ^^^ ·)) (lane_block mem (i * (m + 1) * 1024) 0) := by
  unfold xor_bytes
  rw [List.range_succ_eq_map, List.map_cons, List.foldl_cons, zipWith_xor_zero _ 1024 h0,
    List.map_map]
  rfl

/-- The finalizer for `lanes = m + 1`. -/
theorem accumulator_bytes_succ (blocks_out : List Nat) (m count i : Nat) (hi : i < count)
    (hlen : count * (m + 1) * 1024 ≤ blocks_out.length) (h32 : blocks_out.length < U32)
    (hb : ∀ b ∈ blocks_out, b < 256) :
    accumulator_bytes blocks_out (m + 1) i = some (xor_bytes blocks_out (m + 1) i) ∧
    (xor_bytes blocks_out (m + 1) i).length = 1024 := by
  have hmul : (i + 1) * (m + 1) ≤ count * (m + 1) := Nat.mul_le_mul_right _ hi
  have hend : i * (m + 1) * 1024 + (m + 1) * 1024 ≤ blocks_out.length := by
    have : (i + 1) * (m + 1) = i * (m + 1) + (m + 1) := by ring
    omega
  have hil : i * (m + 1) < U32 := by
    unfold U32 at h32 ⊢; omega
  have hcur : ((i * (m + 1)) % U32 * ARGON2_BLOCK_SIZE) % U32 = i * (m + 1) * 1024 := by
    rw [Nat.mod_eq_of_lt hil]
    exact Nat.mod_eq_of_lt (by unfold ARGON2_BLOCK_SIZE; omega)
  obtain ⟨blk0, hload0, hlen0, hbytes0⟩ :=
    load_block_spec blocks_out (i * (m + 1) * 1024) (by omega) hb
  obtain ⟨r, hr, hrlen, hrbytes⟩ := xor_lanes_spec blocks_out hb m (i * (m + 1) * 1024)
    blk0 hlen0 (by omega)
  have hfin : finalize_accumulator blocks_out (m + 1) i = some r := by
    simp only [finalize_accumulator, hcur, hload0, Nat.add_sub_cancel]
    exact hr
  have hblock0 : lane_block blocks_out (i * (m + 1) * 1024) 0 =
      (blocks_out.drop (i * (m + 1) * 1024)).take 1024 := by
    unfold lane_block
    simp
  have hblock0_len : (lane_block blocks_out (i * (m + 1) * 1024) 0).length = 1024 := by
    rw [hblock0, List.length_take, List.length_drop]; omega
  have hspec : xor_bytes blocks_out (m + 1) i = r.flatMap word_bytes := by
    rw [xor_bytes_succ blocks_out m i hblock0_len, hrbytes, hbytes0, hblock0]
  refine ⟨by simp only [accumulator_bytes, hfin, Option.map_some', hspec], ?_⟩
  rw [hspec, length_flatMap_word_bytes, hrlen]

/-- C10: for `lanes ≥ 1` and a candidate `i < count` whose lane tails lie in
`blocks_out` (a buffer of bytes holding `count · lanes` blocks; its size is a
32-bit value, as `reset` allocates it), the accumulator that `crypt_all`
builds with its loop over 64-bit words is, as the 1024 bytes handed to the
long-hash, the byte-wise XOR of the `lanes` blocks stored at byte offsets
`i · lanes · 1024 + l · 1024`, `l < lanes`; for `lanes = 1` it is lane 0's
block unchanged. -/
theorem accumulator_bytes_eq_xor_bytes (blocks_out : List Nat) (lanes count i : Nat)
    (hl : 1 ≤ lanes) (hi : i < count)
    (hlen : count * lanes * 1024 ≤ blocks_out.length) (h32 : blocks_out.length < U32)
    (hb : ∀ b ∈ blocks_out, b < 256) :
    accumulator_bytes blocks_out lanes i = some (xor_bytes blocks_out lanes i) ∧
    (xor_bytes blocks_out lanes i).length = 1024 ∧
    (lanes = 1 → accumulator_bytes blocks_out lanes i =
      some ((blocks_out.drop (i * 1024)).take 1024)) := by
  obtain ⟨m, rfl⟩ : ∃ m, lanes = m + 1 := ⟨lanes - 1, by omega⟩
  obtain ⟨hacc, hlen2⟩ := accumulator_bytes_succ blocks_out m count i hi hlen h32 hb
  refine ⟨hacc, hlen2, ?_⟩
  intro h1
  have hm : m = 0 := by omega
  subst hm
  rw [hacc]
  have hend : i * 1024 + 1024 ≤ blocks_out.length := by
    have : (i + 1) * (0 + 1) ≤ count * (0 + 1) := Nat.mul_le_mul_right _ hi
    omega
  have h0 : (lane_block blocks_out (i * (0 + 1) * 1024) 0).length = 1024 := by
    unfold lane_block
    rw [List.length_take, List.length_drop]
    simp only [Nat.zero_add, Nat.mul_one, Nat.zero_mul, Nat.add_zero]
    omega
  rw [xor_bytes_succ blocks_out 0 i h0]
  simp [lane_block]

/-- Instance of `accumulator_bytes_eq_xor_bytes`: one candidate, two lanes. -/
theorem accumulator_bytes_eq_xor_bytes_witness :
    accumulator_bytes sample_blocks_out 2 0 = some (xor_bytes sample_blocks_out 2 0) ∧
    (xor_bytes sample_blocks_out 2 0).length = 1024 ∧
    (2 = 1 → accumulator_bytes sample_blocks_out 2 0 =
      some ((sample_blocks_out.drop (0 * 1024)).take 1024)) := by
  have hlen : sample_blocks_out.length = 2048 := by
    unfold sample_blocks_out
    rw [List.length_append, List.length_replicate, List.length_replicate]
  exact accumulator_bytes_eq_xor_bytes sample_blocks_out 2 1 0 (by decide) (by decide)
    (by rw [hlen])
    (by rw [hlen]; decide)
    (by
      intro b hmem
      unfold sample_blocks_out at hmem
      rcases List.mem_append.mp hmem with h | h
      · rw [List.eq_of_mem_replicate h]; decide
      · rw [List.eq_of_mem_replicate h]; decide)

/-! ## The target decoder -/

/-- The tail of `get_binary` once the decoder has run: the tag bytes first,
zero bytes after them. -/
theorem get_binary_copy (r : Int × argon2_context) (h1 : r.2.outlen ≤ BINARY_SIZE)
    (h2 : r.2.out.length = BINARY_SIZE) :
    (if ¬ r.2.outlen ≤ BINARY_SIZE then none
      else memcpy (List.replicate BINARY_SIZE 0) r.2.out r.2.outlen) =
      some (r.2.out.take r.2.outlen ++ List.replicate (BINARY_SIZE - r.2.outlen) 0) := by
  have hc : r.2.outlen ≤ r.2.out.length ∧
      r.2.outlen ≤ (List.replicate BINARY_SIZE 0).length := by
    rw [h2, List.length_replicate]; exact ⟨h1, h1⟩
  simp only [h1, not_true, if_false, memcpy, hc, and_self, if_true, List.drop_replicate]

theorem get_binary_eval_d (decode : Decoder) (ctx0 : argon2_context)
    (out_buf salt_buf : List Nat) (c : List Char) (h1 : FORMAT_TAG_d <+: c) :
    get_binary decode ctx0 out_buf salt_buf c =
      (if ¬ (decode (ctx_init ctx0 out_buf salt_buf) c Argon2_d).2.outlen ≤ BINARY_SIZE then none
       else memcpy (List.replicate BINARY_SIZE 0)
        (decode (ctx_init ctx0 out_buf salt_buf) c Argon2_d).2.out
        (decode (ctx_init ctx0 out_buf salt_buf) c Argon2_d).2.outlen) := by
  have hd := (strncmp_eq_zero_iff FORMAT_TAG_d c tag_d_nonzero).mpr h1
  unfold get_binary
  simp only [Nat.add_sub_cancel, hd, if_true]

theorem get_binary_eval_id (decode : Decoder) (ctx0 : argon2_context)
    (out_buf salt_buf : List Nat) (c : List Char) (h1 : ¬ FORMAT_TAG_d <+: c)
    (h2 : FORMAT_TAG_id <+: c) :
    get_binary decode ctx0 out_buf salt_buf c =
      (if ¬ (decode (ctx_init ctx0 out_buf salt_buf) c Argon2_id).2.outlen ≤ BINARY_SIZE then none
       else memcpy (List.replicate BINARY_SIZE 0)
        (decode (ctx_init ctx0 out_buf salt_buf) c Argon2_id).2.out
        (decode (ctx_init ctx0 out_buf salt_buf) c Argon2_id).2.outlen) := by
  have hd := (strncmp_eq_zero_iff FORMAT_TAG_d c tag_d_nonzero).not.mpr h1
  have hid := (strncmp_eq_zero_iff FORMAT_TAG_id c tag_id_nonzero).mpr h2
  unfold get_binary
  simp only [Nat.add_sub_cancel, hd, hid, if_true, if_false]

theorem get_binary_eval_i (decode : Decoder) (ctx0 : argon2_context)
    (out_buf salt_buf : List Nat) (c : List Char) (h1 : ¬ FORMAT_TAG_d <+: c)
    (h2 : ¬ FORMAT_TAG_id <+: c) :
    get_binary decode ctx0 out_buf salt_buf c =
      (if ¬ (decode (ctx_init ctx0 out_buf salt_buf) c Argon2_i).2.outlen ≤ BINARY_SIZE then none
       else memcpy (List.replicate BINARY_SIZE 0)
        (decode (ctx_init ctx0 out_buf salt_buf) c Argon2_i).2.out
        (decode (ctx_init ctx0 out_buf salt_buf) c Argon2_i).2.outlen) := by
  have hd := (strncmp_eq_zero_iff FORMAT_TAG_d c tag_d_nonzero).not.mpr h1
  have hid := (strncmp_eq_zero_iff FORMAT_TAG_id c tag_id_nonzero).not.mpr h2
  unfold get_binary
  simp only [Nat.add_sub_cancel, hd, hid, if_false]

/-- The variant that `valid` and `get_binary` both hand to the decoder for an
accepted string. -/
theorem valid_one_variant (decode : Decoder) (ctx0 : argon2_context)
    (out_buf salt_buf : List Nat) (c : List Char)
    (h : valid decode ctx0 out_buf salt_buf c = 1) :
    (FORMAT_TAG_d <+: c) ∨ (¬ FORMAT_TAG_d <+: c ∧ FORMAT_TAG_id <+: c) ∨
    (¬ FORMAT_TAG_d <+: c ∧ ¬ FORMAT_TAG_id <+: c ∧ FORMAT_TAG_i <+: c) := by
  by_cases h1 : FORMAT_TAG_d <+: c
  · exact Or.inl h1
  · by_cases h2 : FORMAT_TAG_id <+: c
    · exact Or.inr (Or.inl ⟨h1, h2⟩)
    · by_cases h3 : FORMAT_TAG_i <+: c
      · exact Or.inr (Or.inr ⟨h1, h2, h3⟩)
      · rw [valid_eval_none decode ctx0 out_buf salt_buf c h1 h2 h3] at h
        exact absurd h (by decide)

/-- C11 (amended): for an accepted encoded string whose decoded tag has
`n ≤ 256` bytes (in the decoder's 256-byte output buffer), `get_binary`
returns a 256-byte buffer that holds the `n` tag bytes first, followed by
`256 - n` zero bytes; the decoder is called with the variant named by the
tag of the string. -/
theorem get_binary_tag_then_zeros (decode : Decoder) (ctx0 : argon2_context)
    (out_buf salt_buf : List Nat) (c : List Char)
    (hvalid : valid decode ctx0 out_buf salt_buf c = 1)
    (hbuf : ∀ ty, (decode (ctx_init ctx0 out_buf salt_buf) c ty).2.out.length = BINARY_SIZE)
    (hlen : ∀ ty, (decode (ctx_init ctx0 out_buf salt_buf) c ty).2.outlen ≤ BINARY_SIZE) :
    ∃ ty, ((FORMAT_TAG_d <+: c ∧ ty = Argon2_d) ∨ (FORMAT_TAG_id <+: c ∧ ty = Argon2_id) ∨
           (FORMAT_TAG_i <+: c ∧ ty = Argon2_i)) ∧
      get_binary decode ctx0 out_buf salt_buf c =
        some ((decode (ctx_init ctx0 out_buf salt_buf) c ty).2.out.take
            (decode (ctx_init ctx0 out_buf salt_buf) c ty).2.outlen ++
          List.replicate
            (BINARY_SIZE - (decode (ctx_init ctx0 out_buf salt_buf) c ty).2.outlen) 0) ∧
      ((decode (ctx_init ctx0 out_buf salt_buf) c ty).2.out.take
            (decode (ctx_init ctx0 out_buf salt_buf) c ty).2.outlen ++
          List.replicate
            (BINARY_SIZE - (decode (ctx_init ctx0 out_buf salt_buf) c ty).2.outlen) 0).length
        = BINARY_SIZE := by
  have hlength : ∀ ty,
      ((decode (ctx_init ctx0 out_buf salt_buf) c ty).2.out.take
            (decode (ctx_init ctx0 out_buf salt_buf) c ty).2.outlen ++
          List.replicate
            (BINARY_SIZE - (decode (ctx_init ctx0 out_buf salt_buf) c ty).2.outlen) 0).length
        = BINARY_SIZE := by
    intro ty
    have a := hbuf ty
    have b := hlen ty
    rw [List.length_append, List.length_take, List.length_replicate, a]
    omega
  rcases valid_one_variant decode ctx0 out_buf salt_buf c hvalid with h1 | ⟨h1, h2⟩ | ⟨h1, h2, h3⟩
  · refine ⟨Argon2_d, Or.inl ⟨h1, rfl⟩, ?_, hlength _⟩
    rw [get_binary_eval_d decode ctx0 out_buf salt_buf c h1]
    exact get_binary_copy _ (hlen _) (hbuf _)
  · refine ⟨Argon2_id, Or.inr (Or.inl ⟨h2, rfl⟩), ?_, hlength _⟩
    rw [get_binary_eval_id decode ctx0 out_buf salt_buf c h1 h2]
    exact get_binary_copy _ (hlen _) (hbuf _)
  · refine ⟨Argon2_i, Or.inr (Or.inr ⟨h3, rfl⟩), ?_, hlength _⟩
    rw [get_binary_eval_i decode ctx0 out_buf salt_buf c h1 h2]
    exact get_binary_copy _ (hlen _) (hbuf _)

/-- Instance of `get_binary_tag_then_zeros`: an `argon2id` string and the
sample decoder. -/
theorem get_binary_tag_then_zeros_witness :
    get_binary sample_decoder blank_context [] [] "$argon2id$v=19".toList =
      some ([1, 2, 3, 4, 5, 6, 7, 8] ++ List.replicate 248 0) := by
  obtain ⟨ty, _, h, _⟩ := get_binary_tag_then_zeros sample_decoder blank_context [] []
    "$argon2id$v=19".toList (by decide)
    (by
      intro ty
      show ([1, 2, 3, 4, 5, 6, 7, 8] ++ List.replicate 248 0 : List Nat).length = BINARY_SIZE
      rw [List.length_append, List.length_replicate]
      rfl)
    (by
      intro ty
      show (8 : Nat) ≤ BINARY_SIZE
      decide)
  rw [h]
  rfl

/-- C11 (counterexample): for an accepted `argon2d` string whose decoded tag is
the 8 bytes `1, 2, …, 8`, `get_binary` returns these 8 bytes followed by 248
zero bytes, and not 248 zero bytes followed by the tag. -/
theorem get_binary_counterexample :
    valid sample_decoder blank_context [] [] "$argon2d$v=19".toList = 1 ∧
    get_binary sample_decoder blank_context [] [] "$argon2d$v=19".toList =
      some ([1, 2, 3, 4, 5, 6, 7, 8] ++ List.replicate 248 0) ∧
    ([1, 2, 3, 4, 5, 6, 7, 8] ++ List.replicate 248 0 : List Nat) ≠
      List.replicate 248 0 ++ [1, 2, 3, 4, 5, 6, 7, 8] := by
  refine ⟨by decide, ?_, ?_⟩
  · rw [get_binary_eval_d sample_decoder blank_context [] [] _ (by decide)]
    have hlen : ([1, 2, 3, 4, 5, 6, 7, 8] ++ List.replicate 248 0 : List Nat).length
        = BINARY_SIZE := by
      rw [List.length_append, List.length_replicate]
      rfl
    exact get_binary_copy
      (sample_decoder (ctx_init blank_context [] []) "$argon2d$v=19".toList Argon2_d)
      (by show (8 : Nat) ≤ BINARY_SIZE; decide) hlen
  intro h
  rw [show (248 : Nat) = 247 + 1 from rfl, List.replicate_succ] at h
  simp only [List.cons_append, List.cons.injEq] at h
  exact absurd h.1 (by decide)

/-! ## The autotune table -/

theorem index_best_kernel_params_eq (t : Tuning) (type lanes sb : Nat) (h1 : type < 3)
    (h2 : 1 ≤ lanes) (h3 : lanes ≤ t.max_salt_lanes) (h4 : 1 ≤ sb)
    (h5 : sb ≤ t.max_segment_blocks)
    (hno : 3 * t.max_salt_lanes * t.max_segment_blocks + t.max_segment_blocks < U32) :
    index_best_kernel_params t type lanes sb =
      some (type * t.max_salt_lanes * t.max_segment_blocks + lanes * t.max_segment_blocks
        + sb) := by
  have hc : type < ARGON2_NUM_TYPES ∧ lanes > 0 ∧ lanes ≤ t.max_salt_lanes ∧ sb > 0 ∧
      sb ≤ t.max_segment_blocks := ⟨h1, h2, h3, h4, h5⟩
  have ha : type * t.max_salt_lanes * t.max_segment_blocks ≤
      2 * t.max_salt_lanes * t.max_segment_blocks :=
    Nat.mul_le_mul_right _ (Nat.mul_le_mul_right _ (by omega))
  have hb : lanes * t.max_segment_blocks ≤ t.max_salt_lanes * t.max_segment_blocks :=
    Nat.mul_le_mul_right _ h3
  have hsum : 2 * t.max_salt_lanes * t.max_segment_blocks +
      t.max_salt_lanes * t.max_segment_blocks = 3 * t.max_salt_lanes * t.max_segment_blocks := by
    ring
  simp only [index_best_kernel_params, hc, and_self, if_true]
  rw [Nat.mod_eq_of_lt (by omega)]

/-- Every key of variant `id` (type 2) whose lanes equal the observed maximum
gets an index at or beyond the end of the table that `reset` allocates. -/
theorem index_type_two_max_lanes (st : ScanState) (sb : Nat) (h1 : 1 ≤ st.max_salt_lanes)
    (h4 : 1 ≤ sb) (h5 : sb ≤ st.max_segment_blocks)
    (hno : 3 * st.max_salt_lanes * st.max_segment_blocks + st.max_segment_blocks < U32) :
    ∃ index, index_best_kernel_params (reset_tuning st) 2 st.max_salt_lanes sb = some index ∧
      (reset_tuning st).best_kernel_params.length ≤ index ∧
      (reset_tuning st).best_kernel_params[index]? = none := by
  have hidx := index_best_kernel_params_eq (reset_tuning st) 2 st.max_salt_lanes sb (by decide)
    h1 (le_refl _) h4 h5 hno
  have hlen : (reset_tuning st).best_kernel_params.length ≤
      2 * st.max_salt_lanes * st.max_segment_blocks +
        st.max_salt_lanes * st.max_segment_blocks + sb := by
    simp only [reset_tuning, List.length_replicate, ARGON2_NUM_TYPES]
    have : 3 * st.max_salt_lanes * st.max_segment_blocks =
        2 * st.max_salt_lanes * st.max_segment_blocks +
          st.max_salt_lanes * st.max_segment_blocks := by ring
    exact le_trans (Nat.mod_le _ _) (by omega)
  exact ⟨_, hidx, hlen, List.getElem?_eq_none hlen⟩

/-- C12 (the code at the failing input): for the database that holds the one
built-in test hash of variant `id` with `m=4096, t=3, p=1`, `reset` finds
`max_lanes = 1` and `max_segment_blocks = 1024` and allocates `3 · 1 · 1024`
table entries, while the key `(2, 1, 1024)` of that salt, which satisfies the
bounds the function asserts, has index `4096`; `autotune` and `crypt_all` then
access the table outside its bounds.  The same happens for every key of type 2
whose lanes equal `max_lanes`. -/
theorem index_best_kernel_params_out_of_table :
    reset_scan_salts [⟨3, 4096, 1, 32, 11, [], 2, 19⟩] ⟨0, 0, 0⟩ = some ⟨1, 1024, 4194304⟩ ∧
    (reset_tuning ⟨1, 1024, 4194304⟩).best_kernel_params.length = 3 * 1 * 1024 ∧
    segment_blocks 4096 1 = some 1024 ∧
    index_best_kernel_params (reset_tuning ⟨1, 1024, 4194304⟩) 2 1 1024 = some 4096 ∧
    3 * 1 * 1024 ≤ 4096 ∧
    (∀ (dev : ProfilingDevice) (mkpc local_mem fuel : Nat),
      autotune dev mkpc local_mem fuel (reset_tuning ⟨1, 1024, 4194304⟩) 2 1 1024 =
        .fatal "access outside best_kernel_params") ∧
    (∀ (mkpc : Nat) (status : Nat → Bool) (st : GpuState),
      crypt_all_gpu ⟨3, 4096, 1, 32, 11, [], 2, 19⟩ mkpc (reset_tuning ⟨1, 1024, 4194304⟩)
        status st = .error "access outside best_kernel_params") ∧
    (∀ (st : ScanState) (sb : Nat), 1 ≤ st.max_salt_lanes → 1 ≤ sb →
      sb ≤ st.max_segment_blocks →
      3 * st.max_salt_lanes * st.max_segment_blocks + st.max_segment_blocks < U32 →
      ∃ index, index_best_kernel_params (reset_tuning st) 2 st.max_salt_lanes sb = some index ∧
        (reset_tuning st).best_kernel_params.length ≤ index) := by
  have hlen : (reset_tuning ⟨1, 1024, 4194304⟩).best_kernel_params.length = 3 * 1 * 1024 := by
    simp only [reset_tuning, List.length_replicate]
    decide
  have hidx : index_best_kernel_params (reset_tuning ⟨1, 1024, 4194304⟩) 2 1 1024 = some 4096 := by
    decide
  have hnone : (reset_tuning ⟨1, 1024, 4194304⟩).best_kernel_params[4096]? = none :=
    List.getElem?_eq_none (by rw [hlen]; decide)
  refine ⟨by decide, hlen, by decide, hidx, by decide, ?_, ?_, ?_⟩
  · intro dev mkpc local_mem fuel
    simp only [autotune, hidx, hnone]
  · intro mkpc status st
    have hsb : segment_blocks 4096 1 = some 1024 := by decide
    simp only [crypt_all_gpu, hsb, hidx, hnone]
  · intro st sb h1 h4 h5 hno
    obtain ⟨index, hi, hl, _⟩ := index_type_two_max_lanes st sb h1 h4 h5 hno
    exact ⟨index, hi, hl⟩

/-! ## The winner of the autotune sweeps -/

theorem measure_hard_soft (p : Probe) (t : Nat) (h : measure_hard p = .ok t) :
    measure_soft p = .time t := by
  unfold measure_hard at h
  unfold measure_soft
  split_ifs at h ⊢ with h1 h2 h3 h4 h5 h6
  simp only [Except.ok.injEq] at h
  rw [h]

/-- The record of measurements and the running minimum of `autotune`: at the
end `best_time` is a lower bound of every time recorded, the geometry kept is
recorded with exactly that time, every record is a completed measurement of
the runtime at that geometry, and the baseline `(1, 1)` is among the records. -/
theorem autotune_measure_minimum (dev : ProfilingDevice) (mkpc local_mem fuel lanes : Nat)
    (hl : lanes < 2 ^ 31) (hk : mkpc < 2 ^ 31) (hfuel : 32 ≤ fuel) :
    ∀ b w, autotune_measure dev mkpc local_mem fuel lanes = .ok (b, w) →
      (∀ e ∈ b.timed, b.best_time ≤ e.2.2) ∧
      (b.best_lanes_per_block, b.best_jobs_per_block, b.best_time) ∈ b.timed ∧
      (∀ e ∈ b.timed, ∃ n, measure_soft (dev.probe n e.1 e.2.1) = .time e.2.2) ∧
      (∃ t0, measure_hard (dev.probe 0 1 1) = .ok t0 ∧ (1, 1, t0) ∈ b.timed) := by
  apply (autotune_measure_inv dev mkpc local_mem fuel lanes hl hk hfuel
    (fun b => (∀ e ∈ b.timed, b.best_time ≤ e.2.2) ∧
      (b.best_lanes_per_block, b.best_jobs_per_block, b.best_time) ∈ b.timed ∧
      (∀ e ∈ b.timed, ∃ n, measure_soft (dev.probe n e.1 e.2.1) = .time e.2.2) ∧
      (∃ t0, measure_hard (dev.probe 0 1 1) = .ok t0 ∧ (1, 1, t0) ∈ b.timed)) ?_ ?_ ?_).2
  · intro t0 h0
    refine ⟨?_, ?_, ?_, ⟨t0, h0, ?_⟩⟩
    · intro e he
      rw [List.mem_singleton] at he
      rw [he]
    · exact List.mem_singleton.mpr rfl
    · intro e he
      rw [List.mem_singleton] at he
      rw [he]
      exact ⟨0, measure_hard_soft _ t0 h0⟩
    · exact List.mem_singleton.mpr rfl
  · intro _ b k n t hinv _ hm
    obtain ⟨hmin, hmem, hrec, t0, ht0, hbase⟩ := hinv
    by_cases hbt : b.best_time > t
    · simp only [hbt, if_true]
      refine ⟨?_, ?_, ?_, ⟨t0, ht0, List.mem_append_left _ hbase⟩⟩
      · intro e he
        rcases List.mem_append.mp he with h | h
        · exact le_trans (le_of_lt hbt) (hmin e h)
        · rw [List.mem_singleton] at h; rw [h]
      · exact List.mem_append_right _ (List.mem_singleton.mpr rfl)
      · intro e he
        rcases List.mem_append.mp he with h | h
        · exact hrec e h
        · rw [List.mem_singleton] at h; rw [h]; exact ⟨n, hm⟩
    · simp only [hbt, if_false]
      refine ⟨?_, List.mem_append_left _ hmem, ?_, ⟨t0, ht0, List.mem_append_left _ hbase⟩⟩
      · intro e he
        rcases List.mem_append.mp he with h | h
        · exact hmin e h
        · rw [List.mem_singleton] at h; rw [h]; exact not_lt.mp hbt
      · intro e he
        rcases List.mem_append.mp he with h | h
        · exact hrec e h
        · rw [List.mem_singleton] at h; rw [h]; exact ⟨n, hm⟩
  · intro _ b k n t hinv _ hm
    obtain ⟨hmin, hmem, hrec, t0, ht0, hbase⟩ := hinv
    by_cases hbt : b.best_time > t
    · simp only [hbt, if_true]
      refine ⟨?_, ?_, ?_, ⟨t0, ht0, List.mem_append_left _ hbase⟩⟩
      · intro e he
        rcases List.mem_append.mp he with h | h
        · exact le_trans (le_of_lt hbt) (hmin e h)
        · rw [List.mem_singleton] at h; rw [h]
      · exact List.mem_append_right _ (List.mem_singleton.mpr rfl)
      · intro e he
        rcases List.mem_append.mp he with h | h
        · exact hrec e h
        · rw [List.mem_singleton] at h; rw [h]; exact ⟨n, hm⟩
    · simp only [hbt, if_false]
      refine ⟨?_, List.mem_append_left _ hmem, ?_, ⟨t0, ht0, List.mem_append_left _ hbase⟩⟩
      · intro e he
        rcases List.mem_append.mp he with h | h
        · exact hmin e h
        · rw [List.mem_singleton] at h; rw [h]; exact not_lt.mp hbt
      · intro e he
        rcases List.mem_append.mp he with h | h
        · exact hrec e h
        · rw [List.mem_singleton] at h; rw [h]; exact ⟨n, hm⟩

theorem measure_soft_elapsed (p : Probe) (t : Nat) (h : measure_soft p = .time t) :
    t = elapsed p := by
  unfold measure_soft at h
  split_ifs at h
  simp only [Measurement.time.injEq] at h
  exact h.symm

/-- The sweep over `lanes_per_block`, step by step.  Entered at block width
`2 ^ k` with measurement number `n`, and with `lanes < 2 ^ 31` and enough fuel,
the loop either stops the program or ends after `m` completed steps: step `i`
is measurement `n + i` at width `2 ^ (k + i)`, step `m` is the loop exit or a
`break` (which has used one more measurement), `best_jobs_per_block` is
untouched, `best_time` at the end is at most its value at the start and at
most the time of every completed step, and the pair `(best_time,
best_lanes_per_block)` is the one at the start or that of a completed step. -/
theorem sweep_lanes_per_block_steps (probe : Nat → Nat → Nat → Probe) (lanes : Nat)
    (hl : lanes < 2 ^ 31) :
    ∀ (fuel k n : Nat) (b : Best), k ≤ 31 → 32 ≤ fuel + k →
      (∃ msg, sweep_lanes_per_block probe lanes fuel n (2 ^ k) b = .fatal msg) ∨
      ∃ b2 m c, sweep_lanes_per_block probe lanes fuel n (2 ^ k) b = .ok (b2, n + m + c) ∧
        b2.best_jobs_per_block = b.best_jobs_per_block ∧
        (∀ i, i < m → 2 ^ (k + i) ≤ lanes ∧
          measure_soft (probe (n + i) (2 ^ (k + i)) b.best_jobs_per_block) =
            .time (elapsed (probe (n + i) (2 ^ (k + i)) b.best_jobs_per_block))) ∧
        ((lanes < 2 ^ (k + m) ∧ c = 0) ∨
          (2 ^ (k + m) ≤ lanes ∧ c = 1 ∧
            measure_soft (probe (n + m) (2 ^ (k + m)) b.best_jobs_per_block) = .broke)) ∧
        b2.best_time ≤ b.best_time ∧
        (∀ i, i < m →
          b2.best_time ≤ elapsed (probe (n + i) (2 ^ (k + i)) b.best_jobs_per_block)) ∧
        ((b2.best_time = b.best_time ∧ b2.best_lanes_per_block = b.best_lanes_per_block) ∨
          ∃ i, i < m ∧ b2.best_lanes_per_block = 2 ^ (k + i) ∧
            b2.best_time = elapsed (probe (n + i) (2 ^ (k + i)) b.best_jobs_per_block)) ∧
        (∀ e, e ∈ b.timed → e ∈ b2.timed) ∧
        (∀ i, i < m → (2 ^ (k + i), b.best_jobs_per_block,
          elapsed (probe (n + i) (2 ^ (k + i)) b.best_jobs_per_block)) ∈ b2.timed) := by
  intro fuel
  induction fuel with
  | zero => intro k n b hk hf; omega
  | succ fuel ih =>
    intro k n b hk hf
    unfold sweep_lanes_per_block
    by_cases hle : 2 ^ k ≤ lanes
    · simp only [hle, if_true]
      cases hm : measure_soft (probe n (2 ^ k) b.best_jobs_per_block) with
      | broke =>
        refine Or.inr ⟨b, 0, 1, rfl, rfl, ?_, Or.inr ⟨hle, rfl, hm⟩, le_refl _, ?_,
          Or.inl ⟨rfl, rfl⟩, fun e he => he, ?_⟩
        · intro i hi; omega
        · intro i hi; omega
        · intro i hi; omega
      | fatal msg => exact Or.inl ⟨msg, rfl⟩
      | time t =>
        have ht := measure_soft_elapsed _ t hm
        subst ht
        obtain ⟨hdouble, hk1⟩ := double_pow_mod k lanes hl hle
        simp only [hdouble]
        have shift : ∀ i, n + 1 + i = n + (i + 1) ∧ k + 1 + i = k + (i + 1) := by
          intro i; omega
        by_cases hbt : b.best_time > elapsed (probe n (2 ^ k) b.best_jobs_per_block)
        · simp only [hbt, if_true]
          have hih := ih (k + 1) (n + 1)
            { b with timed := b.timed ++ [(2 ^ k, b.best_jobs_per_block,
              elapsed (probe n (2 ^ k) b.best_jobs_per_block))],
                     best_time := elapsed (probe n (2 ^ k) b.best_jobs_per_block),
                     best_lanes_per_block := 2 ^ k } hk1 (by omega)
          simp only [] at hih
          rcases hih with ⟨msg, h⟩ | ⟨b2, m, c, h, hj, hsteps, hend, hbest, hmin, hatt, hsub, hrec⟩
          · exact Or.inl ⟨msg, h⟩
          · refine Or.inr ⟨b2, m + 1, c, ?_, hj, ?_, ?_, ?_, ?_, ?_, ?_, ?_⟩
            · rw [show n + (m + 1) + c = n + 1 + m + c by omega]; exact h
            · intro i hi
              cases i with
              | zero => exact ⟨hle, hm⟩
              | succ i =>
                have := hsteps i (by omega)
                rw [(shift i).1, (shift i).2] at this
                exact this
            · rw [(shift m).1, (shift m).2] at hend; exact hend
            · omega
            · intro i hi
              cases i with
              | zero => exact hbest
              | succ i =>
                have := hmin i (by omega)
                rw [(shift i).1, (shift i).2] at this
                exact this
            · rcases hatt with ⟨h1, h2⟩ | ⟨i, hi, h1, h2⟩
              · exact Or.inr ⟨0, by omega, h2, h1⟩
              · rw [(shift i).1, (shift i).2] at h2
                rw [(shift i).2] at h1
                exact Or.inr ⟨i + 1, by omega, h1, h2⟩
            · intro e he
              exact hsub e (List.mem_append_left _ he)
            · intro i hi
              cases i with
              | zero =>
                exact hsub _ (List.mem_append_right _ (List.mem_singleton.mpr rfl))
              | succ i =>
                have := hrec i (by omega)
                rw [(shift i).1, (shift i).2] at this
                exact this
        · simp only [hbt, if_false]
          have hih := ih (k + 1) (n + 1)
            { b with timed := b.timed ++ [(2 ^ k, b.best_jobs_per_block,
              elapsed (probe n (2 ^ k) b.best_jobs_per_block))] } hk1 (by omega)
          simp only [] at hih
          rcases hih with ⟨msg, h⟩ | ⟨b2, m, c, h, hj, hsteps, hend, hbest, hmin, hatt, hsub, hrec⟩
          · exact Or.inl ⟨msg, h⟩
          · refine Or.inr ⟨b2, m + 1, c, ?_, hj, ?_, ?_, hbest, ?_, ?_, ?_, ?_⟩
            · rw [show n + (m + 1) + c = n + 1 + m + c by omega]; exact h
            · intro i hi
              cases i with
              | zero => exact ⟨hle, hm⟩
              | succ i =>
                have := hsteps i (by omega)
                rw [(shift i).1, (shift i).2] at this
                exact this
            · rw [(shift m).1, (shift m).2] at hend; exact hend
            · intro i hi
              cases i with
              | zero => exact le_trans hbest (not_lt.mp hbt)
              | succ i =>
                have := hmin i (by omega)
                rw [(shift i).1, (shift i).2] at this
                exact this
            · rcases hatt with ⟨h1, h2⟩ | ⟨i, hi, h1, h2⟩
              · exact Or.inl ⟨h1, h2⟩
              · rw [(shift i).1, (shift i).2] at h2
                rw [(shift i).2] at h1
                exact Or.inr ⟨i + 1, by omega, h1, h2⟩
            · intro e he
              exact hsub e (List.mem_append_left _ he)
            · intro i hi
              cases i with
              | zero =>
                exact hsub _ (List.mem_append_right _ (List.mem_singleton.mpr rfl))
              | succ i =>
                have := hrec i (by omega)
                rw [(shift i).1, (shift i).2] at this
                exact this
    · simp only [hle, if_false]
      refine Or.inr ⟨b, 0, 0, rfl, rfl, ?_, Or.inl ⟨by simpa using hle, rfl⟩, le_refl _, ?_,
        Or.inl ⟨rfl, rfl⟩, fun e he => he, ?_⟩
      · intro i hi; omega
      · intro i hi; omega
      · intro i hi; omega

/-- The sweep over `jobs_per_block`, step by step.  Entered at block height
`2 ^ k` with measurement number `n`, and with `max_keys_per_crypt < 2 ^ 31` and
enough fuel, the loop either stops the program or ends after `m` completed
steps: step `i` is measurement `n + i` at height `2 ^ (k + i)`, step `m` is the
loop exit or a `break`, `best_lanes_per_block` is untouched, `best_time` at the
end is at most its value at the start and at most the time of every completed
step, and the pair `(best_time, best_jobs_per_block)` is the one at the start
or that of a completed step. -/
theorem sweep_jobs_per_block_steps (probe : Nat → Nat → Nat → Probe) (mkpc : Nat)
    (hl : mkpc < 2 ^ 31) :
    ∀ (fuel k n : Nat) (b : Best), k ≤ 31 → 32 ≤ fuel + k →
      (∃ msg, sweep_jobs_per_block probe mkpc fuel n (2 ^ k) b = .fatal msg) ∨
      ∃ b2 m c, sweep_jobs_per_block probe mkpc fuel n (2 ^ k) b = .ok (b2, n + m + c) ∧
        b2.best_lanes_per_block = b.best_lanes_per_block ∧
        (∀ i, i < m → 2 ^ (k + i) ≤ mkpc ∧
          measure_soft (probe (n + i) b.best_lanes_per_block (2 ^ (k + i))) =
            .time (elapsed (probe (n + i) b.best_lanes_per_block (2 ^ (k + i))))) ∧
        ((mkpc < 2 ^ (k + m) ∧ c = 0) ∨
          (2 ^ (k + m) ≤ mkpc ∧ c = 1 ∧
            measure_soft (probe (n + m) b.best_lanes_per_block (2 ^ (k + m))) = .broke)) ∧
        b2.best_time ≤ b.best_time ∧
        (∀ i, i < m →
          b2.best_time ≤ elapsed (probe (n + i) b.best_lanes_per_block (2 ^ (k + i)))) ∧
        ((b2.best_time = b.best_time ∧ b2.best_jobs_per_block = b.best_jobs_per_block) ∨
          ∃ i, i < m ∧ b2.best_jobs_per_block = 2 ^ (k + i) ∧
            b2.best_time = elapsed (probe (n + i) b.best_lanes_per_block (2 ^ (k + i)))) ∧
        (∀ e, e ∈ b.timed → e ∈ b2.timed) ∧
        (∀ i, i < m → (b.best_lanes_per_block, 2 ^ (k + i),
          elapsed (probe (n + i) b.best_lanes_per_block (2 ^ (k + i)))) ∈ b2.timed) := by
  intro fuel
  induction fuel with
  | zero => intro k n b hk hf; omega
  | succ fuel ih =>
    intro k n b hk hf
    unfold sweep_jobs_per_block
    by_cases hle : 2 ^ k ≤ mkpc
    · simp only [hle, if_true]
      cases hm : measure_soft (probe n b.best_lanes_per_block (2 ^ k)) with
      | broke =>
        refine Or.inr ⟨b, 0, 1, rfl, rfl, ?_, Or.inr ⟨hle, rfl, hm⟩, le_refl _, ?_,
          Or.inl ⟨rfl, rfl⟩, fun e he => he, ?_⟩
        · intro i hi; omega
        · intro i hi; omega
        · intro i hi; omega
      | fatal msg => exact Or.inl ⟨msg, rfl⟩
      | time t =>
        have ht := measure_soft_elapsed _ t hm
        subst ht
        obtain ⟨hdouble, hk1⟩ := double_pow_mod k mkpc hl hle
        simp only [hdouble]
        have shift : ∀ i, n + 1 + i = n + (i + 1) ∧ k + 1 + i = k + (i + 1) := by
          intro i; omega
        by_cases hbt : b.best_time > elapsed (probe n b.best_lanes_per_block (2 ^ k))
        · simp only [hbt, if_true]
          have hih := ih (k + 1) (n + 1)
            { b with timed := b.timed ++ [(b.best_lanes_per_block, 2 ^ k,
              elapsed (probe n b.best_lanes_per_block (2 ^ k)))],
                     best_time := elapsed (probe n b.best_lanes_per_block (2 ^ k)),
                     best_jobs_per_block := 2 ^ k } hk1 (by omega)
          simp only [] at hih
          rcases hih with ⟨msg, h⟩ | ⟨b2, m, c, h, hj, hsteps, hend, hbest, hmin, hatt, hsub, hrec⟩
          · exact Or.inl ⟨msg, h⟩
          · refine Or.inr ⟨b2, m + 1, c, ?_, hj, ?_, ?_, ?_, ?_, ?_, ?_, ?_⟩
            · rw [show n + (m + 1) + c = n + 1 + m + c by omega]; exact h
            · intro i hi
              cases i with
              | zero => exact ⟨hle, hm⟩
              | succ i =>
                have := hsteps i (by omega)
                rw [(shift i).1, (shift i).2] at this
                exact this
            · rw [(shift m).1, (shift m).2] at hend; exact hend
            · omega
            · intro i hi
              cases i with
              | zero => exact hbest
              | succ i =>
                have := hmin i (by omega)
                rw [(shift i).1, (shift i).2] at this
                exact this
            · rcases hatt with ⟨h1, h2⟩ | ⟨i, hi, h1, h2⟩
              · exact Or.inr ⟨0, by omega, h2, h1⟩
              · rw [(shift i).1, (shift i).2] at h2
                rw [(shift i).2] at h1
                exact Or.inr ⟨i + 1, by omega, h1, h2⟩
            · intro e he
              exact hsub e (List.mem_append_left _ he)
            · intro i hi
              cases i with
              | zero =>
                exact hsub _ (List.mem_append_right _ (List.mem_singleton.mpr rfl))
              | succ i =>
                have := hrec i (by omega)
                rw [(shift i).1, (shift i).2] at this
                exact this
        · simp only [hbt, if_false]
          have hih := ih (k + 1) (n + 1)
            { b with timed := b.timed ++ [(b.best_lanes_per_block, 2 ^ k,
              elapsed (probe n b.best_lanes_per_block (2 ^ k)))] } hk1 (by omega)
          simp only [] at hih
          rcases hih with ⟨msg, h⟩ | ⟨b2, m, c, h, hj, hsteps, hend, hbest, hmin, hatt, hsub, hrec⟩
          · exact Or.inl ⟨msg, h⟩
          · refine Or.inr ⟨b2, m + 1, c, ?_, hj, ?_, ?_, hbest, ?_, ?_, ?_, ?_⟩
            · rw [show n + (m + 1) + c = n + 1 + m + c by omega]; exact h
            · intro i hi
              cases i with
              | zero => exact ⟨hle, hm⟩
              | succ i =>
                have := hsteps i (by omega)
                rw [(shift i).1, (shift i).2] at this
                exact this
            · rw [(shift m).1, (shift m).2] at hend; exact hend
            · intro i hi
              cases i with
              | zero => exact le_trans hbest (not_lt.mp hbt)
              | succ i =>
                have := hmin i (by omega)
                rw [(shift i).1, (shift i).2] at this
                exact this
            · rcases hatt with ⟨h1, h2⟩ | ⟨i, hi, h1, h2⟩
              · exact Or.inl ⟨h1, h2⟩
              · rw [(shift i).1, (shift i).2] at h2
                rw [(shift i).2] at h1
                exact Or.inr ⟨i + 1, by omega, h1, h2⟩
            · intro e he
              exact hsub e (List.mem_append_left _ he)
            · intro i hi
              cases i with
              | zero =>
                exact hsub _ (List.mem_append_right _ (List.mem_singleton.mpr rfl))
              | succ i =>
                have := hrec i (by omega)
                rw [(shift i).1, (shift i).2] at this
                exact this
    · simp only [hle, if_false]
      refine Or.inr ⟨b, 0, 0, rfl, rfl, ?_, Or.inl ⟨by simpa using hle, rfl⟩, le_refl _, ?_,
        Or.inl ⟨rfl, rfl⟩, fun e he => he, ?_⟩
      · intro i hi; omega
      · intro i hi; omega
      · intro i hi; omega

/-- A successful run of the measuring part of `autotune`, taken apart: the
baseline, the result of the first sweep (or of skipping it) and the result of
the second. -/
theorem autotune_measure_ok (dev : ProfilingDevice) (mkpc local_mem fuel lanes : Nat)
    (b : Best) (w : Bool) (h : autotune_measure dev mkpc local_mem fuel lanes = .ok (b, w)) :
    ∃ t0 b1 n1 n2, measure_hard (dev.probe 0 1 1) = .ok t0 ∧
      (if lanes > 1 ∧ is_power_of_two lanes = true then
          sweep_lanes_per_block dev.probe lanes fuel 1 1 ⟨t0, 1, 1, [(1, 1, t0)]⟩
        else Run.ok ((⟨t0, 1, 1, [(1, 1, t0)]⟩ : Best), 1)) = .ok (b1, n1) ∧
      (if b1.best_lanes_per_block = lanes ∧ mkpc > 1 ∧ is_power_of_two mkpc = true then
          sweep_jobs_per_block dev.probe mkpc fuel n1 1 b1
        else Run.ok (b1, n1)) = .ok (b, n2) := by
  unfold autotune_measure at h
  by_cases h1 : dev.set_lanes_ok = true
  swap
  · simp [h1] at h
  by_cases h2 : dev.set_segment_blocks_ok = true
  swap
  · simp [h1, h2] at h
  simp only [h1, h2, not_true, if_false] at h
  cases hm : measure_hard (dev.probe 0 1 1) with
  | error msg => rw [hm] at h; simp at h
  | ok t0 =>
    rw [hm] at h
    simp only at h
    cases e1 : (if lanes > 1 ∧ is_power_of_two lanes = true then
          sweep_lanes_per_block dev.probe lanes fuel 1 1 ⟨t0, 1, 1, [(1, 1, t0)]⟩
        else Run.ok ((⟨t0, 1, 1, [(1, 1, t0)]⟩ : Best), 1)) with
    | out_of_fuel => rw [e1] at h; simp at h
    | fatal msg => rw [e1] at h; simp at h
    | ok r1 =>
      obtain ⟨b1, n1⟩ := r1
      rw [e1] at h
      simp only at h
      cases e2 : (if b1.best_lanes_per_block = lanes ∧ mkpc > 1 ∧
            is_power_of_two mkpc = true then
            sweep_jobs_per_block dev.probe mkpc fuel n1 1 b1
          else Run.ok (b1, n1)) with
      | out_of_fuel => rw [e2] at h; simp at h
      | fatal msg => rw [e2] at h; simp at h
      | ok r2 =>
        obtain ⟨b2, n2⟩ := r2
        rw [e2] at h
        simp only [Run.ok.injEq, Prod.mk.injEq] at h
        rw [← h.1]
        exact ⟨t0, b1, n1, n2, rfl, e1, e2⟩

/-- The measuring part of `autotune` against the measurements of its run.  With
`t0` the time of the baseline (measurement number `0`) and `n1` the number of
measurements made before the sweep over `jobs_per_block`: `best_time` at the
end is at most `t0`, at most the time of every completed step of the sweep over
`lanes_per_block` and at most the time of every completed step of the sweep
over `jobs_per_block`, each such step is in the record, and the geometry kept
is the baseline, a completed step of the first sweep or a completed step of the
second, with exactly the time `best_time`. -/
theorem autotune_measure_steps (dev : ProfilingDevice) (mkpc local_mem fuel lanes : Nat)
    (hl : lanes < 2 ^ 31) (hk : mkpc < 2 ^ 31) (hfuel : 32 ≤ fuel)
    (b : Best) (w : Bool) (h : autotune_measure dev mkpc local_mem fuel lanes = .ok (b, w)) :
    ∃ t0 n1, measure_hard (dev.probe 0 1 1) = .ok t0 ∧
      (¬ (lanes > 1 ∧ is_power_of_two lanes = true) → n1 = 1) ∧
      (lanes > 1 ∧ is_power_of_two lanes = true → ∃ m,
        (∀ j, j < m → lpb_steps_completed dev lanes j) ∧
        ((lanes < 2 ^ m ∧ n1 = 1 + m) ∨
          (2 ^ m ≤ lanes ∧ n1 = 1 + m + 1 ∧
            measure_soft (dev.probe (1 + m) (2 ^ m) 1) = .broke))) ∧
      b.best_time ≤ t0 ∧
      (lanes > 1 ∧ is_power_of_two lanes = true → ∀ k, lpb_steps_completed dev lanes k →
        b.best_time ≤ elapsed (dev.probe (1 + k) (2 ^ k) 1) ∧
        (2 ^ k, 1, elapsed (dev.probe (1 + k) (2 ^ k) 1)) ∈ b.timed) ∧
      (b.best_lanes_per_block = lanes ∧ mkpc > 1 ∧ is_power_of_two mkpc = true →
        ∀ k, jpb_steps_completed dev lanes mkpc n1 k →
          b.best_time ≤ elapsed (dev.probe (n1 + k) lanes (2 ^ k)) ∧
          (lanes, 2 ^ k, elapsed (dev.probe (n1 + k) lanes (2 ^ k))) ∈ b.timed) ∧
      ((b.best_lanes_per_block = 1 ∧ b.best_jobs_per_block = 1 ∧ b.best_time = t0) ∨
        (lanes > 1 ∧ is_power_of_two lanes = true ∧ ∃ k, lpb_steps_completed dev lanes k ∧
          b.best_lanes_per_block = 2 ^ k ∧ b.best_jobs_per_block = 1 ∧
          b.best_time = elapsed (dev.probe (1 + k) (2 ^ k) 1)) ∨
        (mkpc > 1 ∧ is_power_of_two mkpc = true ∧
          ∃ k, jpb_steps_completed dev lanes mkpc n1 k ∧
            b.best_lanes_per_block = lanes ∧ b.best_jobs_per_block = 2 ^ k ∧
            b.best_time = elapsed (dev.probe (n1 + k) lanes (2 ^ k)))) := by
  obtain ⟨t0, b1, n1, n2, hm, e1, e2⟩ := autotune_measure_ok dev mkpc local_mem fuel lanes b w h
  -- the first sweep
  have S1 : ∃ m c, n1 = 1 + m + c ∧ b1.best_jobs_per_block = 1 ∧
      (∀ i, i < m → 2 ^ i ≤ lanes ∧ measure_soft (dev.probe (1 + i) (2 ^ i) 1) =
        .time (elapsed (dev.probe (1 + i) (2 ^ i) 1))) ∧
      ((¬ (lanes > 1 ∧ is_power_of_two lanes = true) ∧ m = 0 ∧ c = 0) ∨
        ((lanes > 1 ∧ is_power_of_two lanes = true) ∧
          ((lanes < 2 ^ m ∧ c = 0) ∨
            (2 ^ m ≤ lanes ∧ c = 1 ∧
              measure_soft (dev.probe (1 + m) (2 ^ m) 1) = .broke)))) ∧
      b1.best_time ≤ t0 ∧
      (∀ i, i < m → b1.best_time ≤ elapsed (dev.probe (1 + i) (2 ^ i) 1)) ∧
      ((b1.best_time = t0 ∧ b1.best_lanes_per_block = 1) ∨
        ∃ i, i < m ∧ b1.best_lanes_per_block = 2 ^ i ∧
          b1.best_time = elapsed (dev.probe (1 + i) (2 ^ i) 1)) ∧
      (∀ i, i < m → (2 ^ i, 1, elapsed (dev.probe (1 + i) (2 ^ i) 1)) ∈ b1.timed) := by
    by_cases hc : lanes > 1 ∧ is_power_of_two lanes = true
    · rw [if_pos hc] at e1
      have hs := sweep_lanes_per_block_steps dev.probe lanes hl fuel 0 1
        ⟨t0, 1, 1, [(1, 1, t0)]⟩ (by omega) (by omega)
      simp only [pow_zero, Nat.zero_add] at hs
      rcases hs with ⟨msg, hf⟩ | ⟨b3, m, c, hr, hj, hsteps, hend, hbest, hmin, hatt, _, hrec⟩
      · rw [hf] at e1; cases e1
      · rw [hr] at e1
        simp only [Run.ok.injEq, Prod.mk.injEq] at e1
        obtain ⟨hb, hn⟩ := e1
        subst hb
        exact ⟨m, c, hn.symm, hj, hsteps, Or.inr ⟨hc, hend⟩, hbest, hmin, hatt, hrec⟩
    · rw [if_neg hc] at e1
      simp only [Run.ok.injEq, Prod.mk.injEq] at e1
      obtain ⟨hb, hn⟩ := e1
      subst hb
      refine ⟨0, 0, hn.symm, rfl, ?_, Or.inl ⟨hc, rfl, rfl⟩, le_refl _, ?_,
        Or.inl ⟨rfl, rfl⟩, ?_⟩
      · intro i hi; omega
      · intro i hi; omega
      · intro i hi; omega
  obtain ⟨m, c, hn1, hj1, hsteps1, hend1, hbest1, hmin1, hatt1, hrec1⟩ := S1
  -- the second sweep
  have S2 : ∃ m2, b.best_lanes_per_block = b1.best_lanes_per_block ∧
      (∀ i, i < m2 → 2 ^ i ≤ mkpc ∧
        measure_soft (dev.probe (n1 + i) b1.best_lanes_per_block (2 ^ i)) =
          .time (elapsed (dev.probe (n1 + i) b1.best_lanes_per_block (2 ^ i)))) ∧
      ((¬ (b1.best_lanes_per_block = lanes ∧ mkpc > 1 ∧ is_power_of_two mkpc = true) ∧
          m2 = 0) ∨
        ((b1.best_lanes_per_block = lanes ∧ mkpc > 1 ∧ is_power_of_two mkpc = true) ∧
          (mkpc < 2 ^ m2 ∨
            (2 ^ m2 ≤ mkpc ∧
              measure_soft (dev.probe (n1 + m2) b1.best_lanes_per_block (2 ^ m2)) =
                .broke)))) ∧
      b.best_time ≤ b1.best_time ∧
      (∀ i, i < m2 →
        b.best_time ≤ elapsed (dev.probe (n1 + i) b1.best_lanes_per_block (2 ^ i))) ∧
      ((b.best_time = b1.best_time ∧ b.best_jobs_per_block = b1.best_jobs_per_block) ∨
        ∃ i, i < m2 ∧ b.best_jobs_per_block = 2 ^ i ∧
          b.best_time = elapsed (dev.probe (n1 + i) b1.best_lanes_per_block (2 ^ i))) ∧
      (∀ e, e ∈ b1.timed → e ∈ b.timed) ∧
      (∀ i, i < m2 → (b1.best_lanes_per_block, 2 ^ i,
        elapsed (dev.probe (n1 + i) b1.best_lanes_per_block (2 ^ i))) ∈ b.timed) := by
    by_cases hc : b1.best_lanes_per_block = lanes ∧ mkpc > 1 ∧ is_power_of_two mkpc = true
    · rw [if_pos hc] at e2
      have hs := sweep_jobs_per_block_steps dev.probe mkpc hk fuel 0 n1 b1
        (by omega) (by omega)
      simp only [pow_zero, Nat.zero_add] at hs
      rcases hs with ⟨msg, hf⟩ | ⟨b3, m2, c2, hr, hj, hsteps, hend, hbest, hmin, hatt, hsub, hrec⟩
      · rw [hf] at e2; cases e2
      · rw [hr] at e2
        simp only [Run.ok.injEq, Prod.mk.injEq] at e2
        obtain ⟨hb, _⟩ := e2
        subst hb
        refine ⟨m2, hj, hsteps, Or.inr ⟨hc, ?_⟩, hbest, hmin, hatt, hsub, hrec⟩
        rcases hend with ⟨h1, _⟩ | ⟨h1, _, h2⟩
        · exact Or.inl h1
        · exact Or.inr ⟨h1, h2⟩
    · rw [if_neg hc] at e2
      simp only [Run.ok.injEq, Prod.mk.injEq] at e2
      obtain ⟨hb, _⟩ := e2
      subst hb
      refine ⟨0, rfl, ?_, Or.inl ⟨hc, rfl⟩, le_refl _, ?_, Or.inl ⟨rfl, rfl⟩,
        fun e he => he, ?_⟩
      · intro i hi; omega
      · intro i hi; omega
      · intro i hi; omega
  obtain ⟨m2, hlp2, hsteps2, hend2, hbest2, hmin2, hatt2, hsub2, hrec2⟩ := S2
  -- a completed step of the first sweep is one of the `m` steps counted
  have hlt1 : ∀ k, lpb_steps_completed dev lanes k →
      lanes > 1 ∧ is_power_of_two lanes = true → k < m := by
    intro k hcomp hc
    by_contra hge
    obtain ⟨hle, htime⟩ := hcomp m (by omega)
    rcases hend1 with ⟨hno, _⟩ | ⟨_, ⟨hgt, _⟩ | ⟨_, _, hbroke⟩⟩
    · exact hno hc
    · omega
    · rw [hbroke] at htime; cases htime
  have hlt2 : ∀ k, jpb_steps_completed dev lanes mkpc n1 k →
      b1.best_lanes_per_block = lanes ∧ mkpc > 1 ∧ is_power_of_two mkpc = true → k < m2 := by
    intro k hcomp hc
    by_contra hge
    obtain ⟨hle, htime⟩ := hcomp m2 (by omega)
    rcases hend2 with ⟨hno, _⟩ | ⟨_, hgt | ⟨_, hbroke⟩⟩
    · exact hno hc
    · omega
    · rw [hc.1] at hbroke; rw [hbroke] at htime; cases htime
  refine ⟨t0, n1, hm, ?_, ?_, le_trans hbest2 hbest1, ?_, ?_, ?_⟩
  · intro hno
    rcases hend1 with ⟨_, h0, hc0⟩ | ⟨hc, _⟩
    · omega
    · exact absurd hc hno
  · intro hc
    refine ⟨m, fun j hj i hi => hsteps1 i (by omega), ?_⟩
    rcases hend1 with ⟨hno, _⟩ | ⟨_, ⟨hgt, hc0⟩ | ⟨hle, hc1, hbroke⟩⟩
    · exact absurd hc hno
    · exact Or.inl ⟨hgt, by omega⟩
    · exact Or.inr ⟨hle, by omega, hbroke⟩
  · intro hc k hcomp
    have hkm := hlt1 k hcomp hc
    exact ⟨le_trans hbest2 (hmin1 k hkm), hsub2 _ (hrec1 k hkm)⟩
  · intro hc k hcomp
    have hc1 : b1.best_lanes_per_block = lanes ∧ mkpc > 1 ∧ is_power_of_two mkpc = true :=
      ⟨by rw [← hlp2]; exact hc.1, hc.2⟩
    have hkm := hlt2 k hcomp hc1
    have h1 := hmin2 k hkm
    have h2 := hrec2 k hkm
    rw [hc1.1] at h1 h2
    exact ⟨h1, h2⟩
  · rcases hatt2 with ⟨hbt, hjp⟩ | ⟨i, hi, hjp, hbt⟩
    · rcases hatt1 with ⟨hbt1, hlp1⟩ | ⟨i, hi, hlp1, hbt1⟩
      · exact Or.inl ⟨by rw [hlp2, hlp1], by rw [hjp, hj1], by rw [hbt, hbt1]⟩
      · have hc : lanes > 1 ∧ is_power_of_two lanes = true := by
          rcases hend1 with ⟨_, h0, _⟩ | ⟨hc, _⟩
          · omega
          · exact hc
        exact Or.inr (Or.inl ⟨hc.1, hc.2, i, fun j hj => hsteps1 j (by omega),
          by rw [hlp2, hlp1], by rw [hjp, hj1], by rw [hbt, hbt1]⟩)
    · have hc : b1.best_lanes_per_block = lanes ∧ mkpc > 1 ∧
          is_power_of_two mkpc = true := by
        rcases hend2 with ⟨_, h0⟩ | ⟨hc, _⟩
        · omega
        · exact hc
      rw [hc.1] at hbt
      refine Or.inr (Or.inr ⟨hc.2.1, hc.2.2, i, ?_, by rw [hlp2, hc.1], hjp, hbt⟩)
      intro j hj
      have := hsteps2 j (by omega)
      rw [hc.1] at this
      exact this

/-- C13: for a key whose lanes are those of a salt descriptor, a batch size
`max_keys_per_crypt` (an `int`) and every behaviour of the runtime, `autotune`
ends.  When it measured, with `t0` the time of the `(1, 1)` baseline
(measurement number `0`) and `n1` the number of measurements made before the
sweep over `jobs_per_block` (`1` without a sweep over `lanes_per_block`, else
one more than the steps of that sweep, the step that met a `break` counted):
`best_time` at the end is at most `t0`, at most the time of every completed
step of the sweep over `lanes_per_block` (geometry `(2 ^ k, 1)`) and at most
the time of every completed step of the sweep over `jobs_per_block` (geometry
`(lanes, 2 ^ k)`, run when the entry has `lanes_per_block = lanes`); and the
geometry written to the table is the baseline or a completed step of one of
the sweeps, whose time is exactly `best_time`.  The record `timed` of the run
holds the baseline and every completed step, holds completed measurements
only, and has `best_time` as its minimum, met at the geometry written. -/
theorem autotune_best_time_is_minimum (dev : ProfilingDevice) (mkpc local_mem fuel : Nat)
    (t : Tuning) (type sb : Nat) (s : argon2_salt)
    (hs : salt_descriptor_ok s) (hk : mkpc < 2 ^ 31) (hfuel : 32 ≤ fuel) :
    autotune dev mkpc local_mem fuel t type s.lanes sb ≠ .out_of_fuel ∧
    ∀ t2 b, autotune dev mkpc local_mem fuel t type s.lanes sb = .ok (t2, some b) →
      ∃ index e t0 n1,
        index_best_kernel_params t type s.lanes sb = some index ∧
        t2.best_kernel_params[index]? = some e ∧
        measure_hard (dev.probe 0 1 1) = .ok t0 ∧
        (¬ (s.lanes > 1 ∧ is_power_of_two s.lanes = true) → n1 = 1) ∧
        (s.lanes > 1 ∧ is_power_of_two s.lanes = true → ∃ m,
          (∀ j, j < m → lpb_steps_completed dev s.lanes j) ∧
          ((s.lanes < 2 ^ m ∧ n1 = 1 + m) ∨
            (2 ^ m ≤ s.lanes ∧ n1 = 1 + m + 1 ∧
              measure_soft (dev.probe (1 + m) (2 ^ m) 1) = .broke))) ∧
        b.best_time ≤ t0 ∧
        (s.lanes > 1 ∧ is_power_of_two s.lanes = true →
          ∀ k, lpb_steps_completed dev s.lanes k →
            b.best_time ≤ elapsed (dev.probe (1 + k) (2 ^ k) 1) ∧
            (2 ^ k, 1, elapsed (dev.probe (1 + k) (2 ^ k) 1)) ∈ b.timed) ∧
        (e.lanes_per_block = s.lanes ∧ mkpc > 1 ∧ is_power_of_two mkpc = true →
          ∀ k, jpb_steps_completed dev s.lanes mkpc n1 k →
            b.best_time ≤ elapsed (dev.probe (n1 + k) s.lanes (2 ^ k)) ∧
            (s.lanes, 2 ^ k, elapsed (dev.probe (n1 + k) s.lanes (2 ^ k))) ∈ b.timed) ∧
        ((e.lanes_per_block = 1 ∧ e.jobs_per_block = 1 ∧ b.best_time = t0) ∨
          (s.lanes > 1 ∧ is_power_of_two s.lanes = true ∧
            ∃ k, lpb_steps_completed dev s.lanes k ∧
              e.lanes_per_block = 2 ^ k ∧ e.jobs_per_block = 1 ∧
              b.best_time = elapsed (dev.probe (1 + k) (2 ^ k) 1)) ∨
          (mkpc > 1 ∧ is_power_of_two mkpc = true ∧
            ∃ k, jpb_steps_completed dev s.lanes mkpc n1 k ∧
              e.lanes_per_block = s.lanes ∧ e.jobs_per_block = 2 ^ k ∧
              b.best_time = elapsed (dev.probe (n1 + k) s.lanes (2 ^ k)))) ∧
        (1, 1, t0) ∈ b.timed ∧
        (∀ r ∈ b.timed, b.best_time ≤ r.2.2) ∧
        (∀ r ∈ b.timed, ∃ n, measure_soft (dev.probe n r.1 r.2.1) = .time r.2.2) ∧
        (e.lanes_per_block, e.jobs_per_block, b.best_time) ∈ b.timed := by
  obtain ⟨_, _, h29, _, _⟩ := salt_descriptor_ok_lanes s hs
  have hl : s.lanes < 2 ^ 31 := by omega
  obtain ⟨hfin, _⟩ := autotune_measure_divides dev mkpc local_mem fuel s.lanes hl hk hfuel
  refine ⟨autotune_not_out_of_fuel dev mkpc local_mem fuel t type s.lanes sb hfin, ?_⟩
  intro t2 b h
  obtain ⟨index, w, hi, hm, he⟩ :=
    autotune_ok_some dev mkpc local_mem fuel t type s.lanes sb t2 b h
  obtain ⟨hmin, hmem, hrec, t1, ht1, hbase⟩ :=
    autotune_measure_minimum dev mkpc local_mem fuel s.lanes hl hk hfuel b w hm
  obtain ⟨t0, n1, ht0, hn1, hn1b, hle0, hlpb, hjpb, hatt⟩ :=
    autotune_measure_steps dev mkpc local_mem fuel s.lanes hl hk hfuel b w hm
  rw [ht0] at ht1
  simp only [Except.ok.injEq] at ht1
  subst ht1
  exact ⟨index, ⟨b.best_lanes_per_block, b.best_jobs_per_block⟩, t0, n1, hi, he, ht0, hn1, hn1b,
    hle0, hlpb, hjpb, hatt, hbase, hmin, hrec, hmem⟩

/-- Instance of `autotune_best_time_is_minimum`: four lanes, a batch of eight,
a runtime that never fails and gets faster with each measurement (times
`100, 99, …, 93` for the eight measurements of the run).  The entry written is
`(4, 8)`, the geometry of the last measurement, and `best_time` is `93`. -/
theorem autotune_best_time_is_minimum_witness :
    ∃ t2 b, autotune sample_device 8 65536 32 sample_tuning 0
        (⟨4, 16384, 4, 32, 12, [], 0, 19⟩ : argon2_salt).lanes 1 = .ok (t2, some b) ∧
      b.best_time = 93 ∧
      b.timed = [(1, 1, 100), (1, 1, 99), (2, 1, 98), (4, 1, 97), (4, 1, 96), (4, 2, 95),
        (4, 4, 94), (4, 8, 93)] ∧
      t2.best_kernel_params[9]? = some ⟨4, 8⟩ ∧
      ∃ index e t0 n1, index_best_kernel_params sample_tuning 0 4 1 = some index ∧
        t2.best_kernel_params[index]? = some e ∧
        measure_hard (sample_device.probe 0 1 1) = .ok t0 ∧
        b.best_time ≤ t0 ∧
        (∀ k, lpb_steps_completed sample_device 4 k →
          b.best_time ≤ elapsed (sample_device.probe (1 + k) (2 ^ k) 1)) ∧
        (e.lanes_per_block = 4 → ∀ k, jpb_steps_completed sample_device 4 8 n1 k →
          b.best_time ≤ elapsed (sample_device.probe (n1 + k) 4 (2 ^ k))) ∧
        (e.lanes_per_block, e.jobs_per_block, b.best_time) ∈ b.timed := by
  have hrun : autotune sample_device 8 65536 32 sample_tuning 0
      (⟨4, 16384, 4, 32, 12, [], 0, 19⟩ : argon2_salt).lanes 1 =
      .ok (⟨4, 2, (List.replicate 24 ⟨0, 0⟩).set 9 ⟨4, 8⟩⟩,
        some ⟨93, 4, 8, [(1, 1, 100), (1, 1, 99), (2, 1, 98), (4, 1, 97), (4, 1, 96),
          (4, 2, 95), (4, 4, 94), (4, 8, 93)]⟩) := rfl
  obtain ⟨index, e, t0, n1, h1, h2, h3, _, _, h4, h5, h6, _, _, _, _, h7⟩ :=
    (autotune_best_time_is_minimum sample_device 8 65536 32 sample_tuning 0 1
      ⟨4, 16384, 4, 32, 12, [], 0, 19⟩ (by decide) (by decide) (by decide)).2 _ _ hrun
  exact ⟨_, _, hrun, rfl, rfl, rfl, index, e, t0, n1, h1, h2, h3, h4,
    fun k hc => (h5 ⟨by decide, by decide⟩ k hc).1,
    fun he k hc => (h6 ⟨he, by decide, by decide⟩ k hc).1, h7⟩

/-! ## The scratch buffer after the allocation loop -/

/-- The allocation loop after `k` refused requests and one granted: the batch
size and the total size have both been halved `k` times. -/
theorem reset_alloc_loop_after_failures (alloc : Nat → Nat → Bool) (k : Nat) :
    ∀ (fuel n K S : Nat) (req : List (Nat × Nat)), k < fuel →
      (∀ j, j < k → alloc (n + j) (S / 2 ^ j) = false) →
      alloc (n + k) (S / 2 ^ k) = true →
      ∃ req2, reset_alloc_loop alloc fuel n K S req = .ok (K / 2 ^ k, S / 2 ^ k, req2) := by
  induction k with
  | zero =>
    intro fuel n K S req hf _ hs
    obtain ⟨f, rfl⟩ : ∃ f, fuel = f + 1 := ⟨fuel - 1, by omega⟩
    simp only [pow_zero, Nat.div_one, Nat.add_zero] at hs ⊢
    refine ⟨req ++ [(K, S)], ?_⟩
    simp only [reset_alloc_loop, hs, if_true]
  | succ k ih =>
    intro fuel n K S req hf hfail hs
    obtain ⟨f, rfl⟩ : ∃ f, fuel = f + 1 := ⟨fuel - 1, by omega⟩
    have h0 : alloc n S = false := by
      have := hfail 0 (by omega)
      simpa using this
    have hdiv : ∀ j, S / 2 / 2 ^ j = S / 2 ^ (j + 1) := by
      intro j
      rw [Nat.div_div_eq_div_mul, pow_succ, Nat.mul_comm]
    have hdivK : K / 2 / 2 ^ k = K / 2 ^ (k + 1) := by
      rw [Nat.div_div_eq_div_mul, pow_succ, Nat.mul_comm]
    obtain ⟨req2, hr⟩ := ih f (n + 1) (K / 2) (S / 2) (req ++ [(K, S)]) (by omega)
      (by
        intro j hj
        rw [hdiv j, Nat.add_assoc, Nat.add_comm 1 j]
        exact hfail (j + 1) (by omega))
      (by
        rw [hdiv k, Nat.add_assoc, Nat.add_comm 1 k]
        exact hs)
    refine ⟨req2, ?_⟩
    simp only [reset_alloc_loop, h0, Bool.false_eq_true, if_false, hr, hdiv, hdivK]

theorem jobSize_le_footprint (s : argon2_salt) :
    jobSize (salt_segment_blocks s) s.lanes ≤ salt_footprint s := by
  unfold jobSize salt_footprint ARGON2_SYNC_POINTS ARGON2_BLOCK_SIZE
  have h1 : (salt_segment_blocks s * 4) % U32 ≤ salt_segment_blocks s * 4 := Nat.mod_le _ _
  have h2 : ((salt_segment_blocks s * 4) % U32 * s.lanes) % U32 ≤
      salt_segment_blocks s * 4 * s.lanes :=
    le_trans (Nat.mod_le _ _) (Nat.mul_le_mul_right _ h1)
  have h3 : (((salt_segment_blocks s * 4) % U32 * s.lanes) % U32 * 1024) % U32 ≤
      salt_segment_blocks s * 4 * s.lanes * 1024 :=
    le_trans (Nat.mod_le _ _) (Nat.mul_le_mul_right _ h2)
  have h4 : salt_segment_blocks s * 4 * s.lanes * 1024 =
      1024 * s.lanes * 4 * salt_segment_blocks s := by ring
  omega

theorem halved_batch_fits (K F f k : Nat) (hf : f ≤ F) :
    K / 2 ^ k * f ≤ F * K / 2 ^ k := by
  rw [Nat.le_div_iff_mul_le (Nat.two_pow_pos k)]
  calc K / 2 ^ k * f * 2 ^ k = (K / 2 ^ k * 2 ^ k) * f := by ring
    _ ≤ K * f := Nat.mul_le_mul_right _ (Nat.div_mul_le_self _ _)
    _ ≤ K * F := Nat.mul_le_mul_left _ hf
    _ = F * K := Nat.mul_comm _ _

theorem copy_sizes_le_jobSize (s : argon2_salt) (h1 : 1 ≤ s.lanes)
    (h4 : s.lanes * ARGON2_SYNC_POINTS < U32) (hm : s.m_cost < U32)
    (hfit : salt_footprint s < U32) :
    ((s.lanes * 2) % U32 * ARGON2_BLOCK_SIZE) % U32 ≤ jobSize (salt_segment_blocks s) s.lanes ∧
    (s.lanes * ARGON2_BLOCK_SIZE) % U32 ≤ jobSize (salt_segment_blocks s) s.lanes := by
  rw [(jobSize_eq_footprint s h1 h4 hm hfit).1]
  have hsb : 2 ≤ salt_segment_blocks s := le_max_right _ _
  have hfoot : (1024 * s.lanes * 4) * 2 ≤ salt_footprint s :=
    Nat.mul_le_mul_left _ hsb
  have a1 : (s.lanes * 2) % U32 ≤ s.lanes * 2 := Nat.mod_le _ _
  have a2 : ((s.lanes * 2) % U32 * ARGON2_BLOCK_SIZE) % U32 ≤ s.lanes * 2 * 1024 :=
    le_trans (Nat.mod_le _ _) (Nat.mul_le_mul_right _ a1)
  have a3 : (s.lanes * ARGON2_BLOCK_SIZE) % U32 ≤ s.lanes * 1024 := Nat.mod_le _ _
  constructor <;> omega

/-- C14: for a non-empty list of salt descriptors, an initial batch size `K0`
and `k` refused device requests followed by a granted one (the product
`K0 · max footprint` being a `size_t` value, so that the arithmetic is exact),
the loop of `reset` ends with `max_keys_per_crypt = ⌊K0 / 2^k⌋` and an
allocated size of `K0 · max footprint` halved `k` times, and for every salt
`s` of the list the allocated size is at least
`max_keys_per_crypt · 1024 · 4 · lanes(s) · segment_blocks(s)`; hence every
slab `[i · jobSize, (i + 1) · jobSize)`, `i < max_keys_per_crypt`, lies inside
the buffer, and below 4 GiB per candidate the rows of the upload and of the
read-back lie inside their slab. -/
theorem scratch_buffer_holds_slabs (salts : List argon2_salt) (K0 k fuel : Nat)
    (alloc : Nat → Nat → Bool)
    (hne : salts ≠ []) (hs : ∀ s ∈ salts, salt_descriptor_ok s)
    (hexact : list_max (salts.map salt_footprint) * K0 < U64)
    (hfuel : k < fuel)
    (hfail : ∀ j, j < k → alloc j (list_max (salts.map salt_footprint) * K0 / 2 ^ j) = false)
    (hsucc : alloc k (list_max (salts.map salt_footprint) * K0 / 2 ^ k) = true) :
    ∃ req, reset_first_request salts K0 = some (list_max (salts.map salt_footprint) * K0) ∧
      reset_alloc_loop alloc fuel 0 K0 (list_max (salts.map salt_footprint) * K0) [] =
        .ok (K0 / 2 ^ k, list_max (salts.map salt_footprint) * K0 / 2 ^ k, req) ∧
      ∀ s ∈ salts,
        segment_blocks s.m_cost s.lanes = some (salt_segment_blocks s) ∧
        K0 / 2 ^ k * salt_footprint s ≤ list_max (salts.map salt_footprint) * K0 / 2 ^ k ∧
        (∀ i, i < K0 / 2 ^ k →
          (i + 1) * jobSize (salt_segment_blocks s) s.lanes ≤
            list_max (salts.map salt_footprint) * K0 / 2 ^ k) ∧
        (salt_footprint s < U32 →
          ((s.lanes * 2) % U32 * ARGON2_BLOCK_SIZE) % U32 ≤
            jobSize (salt_segment_blocks s) s.lanes ∧
          (s.lanes * ARGON2_BLOCK_SIZE) % U32 ≤ jobSize (salt_segment_blocks s) s.lanes) := by
  have hs2 : ∀ s ∈ salts, 1 ≤ s.lanes ∧ s.lanes * ARGON2_SYNC_POINTS < U32 ∧ s.m_cost < U32 :=
    fun s h => ⟨(salt_descriptor_ok_lanes s (hs s h)).1, (salt_descriptor_ok_lanes s (hs s h)).2.1,
      (salt_descriptor_ok_lanes s (hs s h)).2.2.2.1⟩
  obtain ⟨st, _, _, _, _, hreq, _, _⟩ := reset_first_request_max_footprint_of salts K0 hne hs2
  rw [Nat.mod_eq_of_lt hexact] at hreq
  obtain ⟨req, hloop⟩ := reset_alloc_loop_after_failures alloc k fuel 0 K0
    (list_max (salts.map salt_footprint) * K0) [] hfuel
    (by intro j hj; rw [Nat.zero_add]; exact hfail j hj)
    (by rw [Nat.zero_add]; exact hsucc)
  refine ⟨req, hreq, hloop, ?_⟩
  intro s hmem
  obtain ⟨h1, h4, hm⟩ := hs2 s hmem
  have hle : salt_footprint s ≤ list_max (salts.map salt_footprint) :=
    mem_le_foldl_max _ 0 _ (List.mem_map_of_mem _ hmem)
  have hfits := halved_batch_fits K0 (list_max (salts.map salt_footprint)) (salt_footprint s) k hle
  refine ⟨salt_segment_blocks_eq s h1 h4, hfits, ?_, ?_⟩
  · intro i hi
    calc (i + 1) * jobSize (salt_segment_blocks s) s.lanes
        ≤ K0 / 2 ^ k * jobSize (salt_segment_blocks s) s.lanes := Nat.mul_le_mul_right _ hi
      _ ≤ K0 / 2 ^ k * salt_footprint s := Nat.mul_le_mul_left _ (jobSize_le_footprint s)
      _ ≤ list_max (salts.map salt_footprint) * K0 / 2 ^ k := hfits
  · intro hfit
    exact copy_sizes_le_jobSize s h1 h4 hm hfit

/-- Instance of `scratch_buffer_holds_slabs`: the two built-in test shapes,
an initial batch of 256 and two refused requests. -/
theorem scratch_buffer_holds_slabs_witness :
    ∃ req, reset_alloc_loop (fun n _ => decide (2 ≤ n)) 8 0 256 (16773120 * 256) [] =
        .ok (64, 16773120 * 64, req) ∧
      64 * salt_footprint ⟨3, 4096, 1, 32, 11, [], 0, 19⟩ ≤ 16773120 * 64 ∧
      64 * salt_footprint ⟨4, 16384, 3, 32, 12, [], 1, 19⟩ ≤ 16773120 * 64 := by
  have hF : list_max (List.map salt_footprint
      [⟨3, 4096, 1, 32, 11, [], 0, 19⟩, ⟨4, 16384, 3, 32, 12, [], 1, 19⟩]) = 16773120 := by
    decide
  obtain ⟨req, _, hloop, hall⟩ := scratch_buffer_holds_slabs
    [⟨3, 4096, 1, 32, 11, [], 0, 19⟩, ⟨4, 16384, 3, 32, 12, [], 1, 19⟩] 256 2 8
    (fun n _ => decide (2 ≤ n)) (by decide)
    (by
      intro s hs
      simp only [List.mem_cons, List.mem_singleton, List.not_mem_nil, or_false] at hs
      rcases hs with rfl | rfl <;> decide)
    (by rw [hF]; decide)
    (by decide)
    (by intro j hj; simp only [decide_eq_false_iff_not, not_le]; exact hj)
    (by simp)
  rw [hF] at hloop hall
  refine ⟨req, hloop, ?_, ?_⟩
  · exact (hall _ (by simp)).2.1
  · exact (hall _ (by simp)).2.1

/-! ## Injectivity of the table index -/

theorem index_best_kernel_params_some (t : Tuning) (type lanes sb i : Nat)
    (h : index_best_kernel_params t type lanes sb = some i) :
    type < 3 ∧ 1 ≤ lanes ∧ lanes ≤ t.max_salt_lanes ∧ 1 ≤ sb ∧ sb ≤ t.max_segment_blocks := by
  unfold index_best_kernel_params at h
  split_ifs at h with hc
  exact ⟨hc.1, hc.2.1, hc.2.2.1, hc.2.2.2.1, hc.2.2.2.2⟩

theorem quotient_remainder_unique (n q r q2 r2 : Nat) (hr : r < n) (hr2 : r2 < n)
    (h : q * n + r = q2 * n + r2) : q = q2 ∧ r = r2 := by
  have hn : 0 < n := by omega
  have hq : (q * n + r) / n = q := by
    rw [Nat.add_comm, Nat.add_mul_div_right _ _ hn, Nat.div_eq_of_lt hr, Nat.zero_add]
  have hq2 : (q2 * n + r2) / n = q2 := by
    rw [Nat.add_comm, Nat.add_mul_div_right _ _ hn, Nat.div_eq_of_lt hr2, Nat.zero_add]
  have hqq : q = q2 := by rw [← hq, ← hq2, h]
  subst hqq
  exact ⟨rfl, by omega⟩

/-- C15: when the index expression does not overflow 32 bits
(`3 · max_lanes · max_segment_blocks + max_segment_blocks < 2^32`),
`index_best_kernel_params` is injective on the keys it accepts (type in
`{0, 1, 2}`, `1 ≤ lanes ≤ max_lanes`, `1 ≤ segment_blocks ≤
max_segment_blocks`): two keys with the same index are the same key, so two
distinct triples never share a memoized geometry. -/
theorem index_best_kernel_params_injective (t : Tuning)
    (type lanes sb type2 lanes2 sb2 i : Nat)
    (hno : 3 * t.max_salt_lanes * t.max_segment_blocks + t.max_segment_blocks < U32)
    (h1 : index_best_kernel_params t type lanes sb = some i)
    (h2 : index_best_kernel_params t type2 lanes2 sb2 = some i) :
    type = type2 ∧ lanes = lanes2 ∧ sb = sb2 := by
  obtain ⟨a1, a2, a3, a4, a5⟩ := index_best_kernel_params_some t type lanes sb i h1
  obtain ⟨b1, b2, b3, b4, b5⟩ := index_best_kernel_params_some t type2 lanes2 sb2 i h2
  rw [index_best_kernel_params_eq t type lanes sb a1 a2 a3 a4 a5 hno] at h1
  rw [index_best_kernel_params_eq t type2 lanes2 sb2 b1 b2 b3 b4 b5 hno] at h2
  have heq : type * t.max_salt_lanes * t.max_segment_blocks + lanes * t.max_segment_blocks + sb
      = type2 * t.max_salt_lanes * t.max_segment_blocks + lanes2 * t.max_segment_blocks + sb2 := by
    have e1 := Option.some.inj h1
    have e2 := Option.some.inj h2
    omega
  -- shift lanes and segment_blocks to start at 0
  have hl : lanes * t.max_segment_blocks =
      (lanes - 1) * t.max_segment_blocks + t.max_segment_blocks := by
    have : lanes = (lanes - 1) + 1 := by omega
    conv_lhs => rw [this, Nat.succ_mul]
  have hl2 : lanes2 * t.max_segment_blocks =
      (lanes2 - 1) * t.max_segment_blocks + t.max_segment_blocks := by
    have : lanes2 = (lanes2 - 1) + 1 := by omega
    conv_lhs => rw [this, Nat.succ_mul]
  have hL : t.max_salt_lanes * t.max_segment_blocks =
      (t.max_salt_lanes - 1) * t.max_segment_blocks + t.max_segment_blocks := by
    have : t.max_salt_lanes = (t.max_salt_lanes - 1) + 1 := by omega
    conv_lhs => rw [this, Nat.succ_mul]
  have hb : (lanes - 1) * t.max_segment_blocks ≤ (t.max_salt_lanes - 1) * t.max_segment_blocks :=
    Nat.mul_le_mul_right _ (by omega)
  have hb2 : (lanes2 - 1) * t.max_segment_blocks ≤
      (t.max_salt_lanes - 1) * t.max_segment_blocks :=
    Nat.mul_le_mul_right _ (by omega)
  have hassoc : ∀ x, x * t.max_salt_lanes * t.max_segment_blocks =
      x * (t.max_salt_lanes * t.max_segment_blocks) := fun x => Nat.mul_assoc _ _ _
  have houter := quotient_remainder_unique (t.max_salt_lanes * t.max_segment_blocks)
    type ((lanes - 1) * t.max_segment_blocks + (sb - 1))
    type2 ((lanes2 - 1) * t.max_segment_blocks + (sb2 - 1))
    (by omega) (by omega)
    (by rw [hassoc] at heq; rw [hassoc] at heq; omega)
  have hinner := quotient_remainder_unique t.max_segment_blocks
    (lanes - 1) (sb - 1) (lanes2 - 1) (sb2 - 1) (by omega) (by omega) houter.2
  exact ⟨houter.1, by omega, by omega⟩

/-- Instance of `index_best_kernel_params_injective`: the key `(1, 2, 1)` in
the sample table. -/
theorem index_best_kernel_params_injective_witness :
    index_best_kernel_params sample_tuning 1 2 1 = some 13 ∧
    ((1 : Nat) = 1 ∧ (2 : Nat) = 2 ∧ (1 : Nat) = 1) :=
  ⟨by decide, index_best_kernel_params_injective sample_tuning 1 2 1 1 2 1 13 (by decide)
    (by decide) (by decide)⟩

end Argon2OpenCL
